import Mathlib

/-!
# WASP solver kernel: a shallow embedding of `src/Solver.h` and of the debugger's history

The solver state of `class Solver` is an explicit record; every member function that is
embedded becomes a pure function from a state to a result and a new state.  Unsigned 64-bit
arithmetic (`uint64_t`) is arithmetic on `Nat` reduced modulo `2 ^ 64`.  Decision levels, sizes
and indices (`unsigned int`) are plain natural numbers: they count variables, assumptions and
clauses that exist in memory, and the functions embedded here only ever add one to them.  The
`unsigned int` counters of the Glucose data that grow with the length of a run (the flag
`MYFLAG`, the counter `currRestart`) are reduced modulo `2 ^ 32`.

The assertion history of the debugger (`src/debug/DebugInterface.cpp`) is embedded with the
file system reduced to whether a file opens and to the text it holds; its query determination
is embedded with the solver, the core minimizer and the clock as explicit arguments.  The
output pager (`src/util/OutputPager.cpp`) is embedded with the standard output as the list of
what is written and the standard input as the answers of the user.

Classes of the repository that `Solver.h` only includes (`Literal`, `Clause`, `Variables`,
`Learning`, `MinisatHeuristic`, the search loops of `Solver.cpp`) are either modelled from the
specification, and then say so in their doc comment, or are taken as parameters of the
functions that call them.
-/

namespace Wasp

/-! ## Data model -/

/-- Variable identifiers (`Var`): positive integers; index 0 is the dummy variable created by the
constructor and used by the two sentinel literals. -/
abbrev Var := Nat

/-- Truth values. `Solver.h` asserts `TRUE == 2 && FALSE == 1`; `UNDEFINED` is the remaining
value. -/
inductive TruthValue where
  | UNDEFINED
  | FALSE
  | TRUE
  deriving DecidableEq, Repr

/-- Modelled from the spec: `Literal.h` is not among the sources. A literal is a pair
(variable, polarity); its index is `2 * var + polarity`, so that the complement flips the lowest
bit. `POSITIVE = 0` and `NEGATIVE = 1`, as `createFromAssignedVariable` in `Solver.h` maps
`TRUE = 2` to sign `2 & 1 = 0`. -/
structure Literal where
  var : Var
  negative : Bool
  deriving DecidableEq, Repr

namespace Literal

/-- Modelled from the spec: the sentinel `Literal::null` (absent literal). -/
def null : Literal := ⟨0, false⟩

/-- Modelled from the spec: the sentinel `Literal::conflict` (signals the empty clause). -/
def conflict : Literal := ⟨0, true⟩

/-- Modelled from the spec: `getVariable`. -/
def getVariable (l : Literal) : Var := l.var

/-- Modelled from the spec: `getIndex`, the position `2 * var + polarity` of the literal in the
per-literal tables. -/
def getIndex (l : Literal) : Nat := 2 * l.var + (if l.negative then 1 else 0)

/-- Modelled from the spec: `isPositive`. -/
def isPositive (l : Literal) : Bool := !l.negative

/-- Modelled from the spec: `getOppositeLiteral`, the complement. -/
def getOppositeLiteral (l : Literal) : Literal := ⟨l.var, !l.negative⟩

end Literal

/-- Modelled from the spec: `Reason` is the polymorphic source of an implication; only the
identity of a reason is used by the functions embedded here. A stored clause is named by its
address. -/
inductive Reason where
  | clause (addr : Nat)
  | binary (v : Var)
  | propagator (id : Nat)
  deriving DecidableEq, Repr

/-- Modelled from the spec: `Clause.h` is not among the sources. A clause is an ordered list of
literals plus metadata (LBD, deletion mark, can-be-deleted flag, position within its owning
vector). `addr` stands for the identity of the C++ object (the value of a `Clause*`): the owning
vectors `clauses` and `learnedClauses` hold the objects, the watch and occurrence lists hold
addresses. -/
structure Clause where
  addr : Nat
  literals : List Literal
  positionInSolver : Nat
  deleted : Bool
  lbd : Nat
  canBeDeleted : Bool
  deriving DecidableEq, Repr

namespace Clause

/-- The clause built by `new Clause()`: no literals. The identity of a clause only matters once
it is attached to a watch or occurrence list, which an unsat core never is. -/
def new : Clause := ⟨0, [], 0, false, 0, true⟩

/-- Modelled from the spec: `size`. -/
def size (c : Clause) : Nat := c.literals.length

/-- Modelled from the spec: `getAt` / `operator[]`; out of range reads give `Literal::null`. -/
def getAt (c : Clause) (i : Nat) : Literal := c.literals.getD i Literal.null

/-- Modelled from the spec: `swapLiteralsNoWatches`, the exchange of the literals at two
positions. -/
def swapLiteralsNoWatches (c : Clause) (i j : Nat) : Clause :=
  { c with literals := (c.literals.set i (c.getAt j)).set j (c.getAt i) }

/-- Modelled from the spec: `setPositionInSolver`. -/
def setPositionInSolver (c : Clause) (p : Nat) : Clause := { c with positionInSolver := p }

/-- Modelled from the spec: `getPositionInSolver`. -/
def getPositionInSolver (c : Clause) : Nat := c.positionInSolver

/-- Modelled from the spec: `hasBeenDeleted`, the deletion mark. -/
def hasBeenDeleted (c : Clause) : Bool := c.deleted

/-- Modelled from the spec: `removeLastLiteralNoWatches`. -/
def removeLastLiteralNoWatches (c : Clause) : Clause := { c with literals := c.literals.dropLast }

/-- Modelled from the spec: `setLbd`. -/
def setLbd (c : Clause) (lbd : Nat) : Clause := { c with lbd := lbd }

/-- Modelled from the spec: `setCanBeDeleted`. -/
def setCanBeDeleted (c : Clause) (b : Bool) : Clause := { c with canBeDeleted := b }

/-- The clause with its recorded position set to 0: two records that agree on it describe the
same clause object, possibly at different places of the owning vector. -/
def withoutPosition (c : Clause) : Clause := c.setPositionInSolver 0

end Clause

/-- The record `struct OptimizationLiteralData` of `Solver.h`. `weight` is a `uint64_t`, `level`
a 30-bit field, `removed` and `aux` one-bit fields. -/
structure OptimizationLiteralData where
  lit : Literal
  weight : Nat
  level : Nat
  removed : Bool
  aux : Bool
  deriving DecidableEq, Repr

namespace OptimizationLiteralData

/-- The member `isAux`. -/
def isAux (o : OptimizationLiteralData) : Bool := o.aux

/-- The member `isRemoved`. -/
def isRemoved (o : OptimizationLiteralData) : Bool := o.removed

end OptimizationLiteralData

/-- The record `class DataStructures` of `Solver.h`, one per literal. Clause lists hold clause
addresses; post-propagators and propagators are named by an identifier. -/
structure DataStructures where
  variableWatchedLists : List Nat
  variableAllOccurrences : List Nat
  variablePostPropagators : List Nat
  variablePropagators : List (Nat × Int)
  variableBinaryClauses : List Literal
  isOptimizationLiteral_ : Bool
  deriving DecidableEq, Repr

namespace DataStructures

/-- The constructor `DataStructures()`: empty lists, not an optimization literal. -/
def new : DataStructures := ⟨[], [], [], [], [], false⟩

/-- The member `isOptLit`. -/
def isOptLit (d : DataStructures) : Bool := d.isOptimizationLiteral_

/-- The member `setOptLit`. -/
def setOptLit (d : DataStructures) (value : Bool) : DataStructures :=
  { d with isOptimizationLiteral_ := value }

end DataStructures

/-- Modelled from the spec: `Variables.h` is not among the sources. The variable store keeps,
per variable, the truth value, the decision level, the implicant (`none` for decisions and
assumptions) and the assumption flag, together with the trail `assignedVariables` (assigned
variables in assignment order) and the propagation cursor `nextVariableToPropagate`. -/
structure Variables where
  numberOfVariables : Nat
  truthValue : Var → TruthValue
  decisionLevel : Var → Nat
  implicant : Var → Option Reason
  assumption : Var → Bool
  assignedVariables : List Var
  nextVariableToPropagate : Nat

namespace Variables

/-- Modelled from the spec: `getTruthValue`. -/
def getTruthValue (vs : Variables) (v : Var) : TruthValue := vs.truthValue v

/-- Modelled from the spec: `isTrue( Literal )`: the variable has the truth value of the
literal's polarity. -/
def isTrue (vs : Variables) (l : Literal) : Bool :=
  vs.truthValue l.var == (if l.negative then TruthValue.FALSE else TruthValue.TRUE)

/-- Modelled from the spec: `isFalse( Literal )`: the variable has the truth value opposite to
the literal's polarity. -/
def isFalse (vs : Variables) (l : Literal) : Bool :=
  vs.truthValue l.var == (if l.negative then TruthValue.TRUE else TruthValue.FALSE)

/-- Modelled from the spec: `isUndefined( Literal )`. -/
def isUndefined (vs : Variables) (l : Literal) : Bool :=
  vs.truthValue l.var == TruthValue.UNDEFINED

/-- Modelled from the spec: `assign( level, literal )` (spec 4.1): marks the literal's variable
true-under-sign, records the level and no reason, and pushes the variable onto the trail. It
fails, changing nothing, when the variable is already assigned to the opposite polarity, and
succeeds, changing nothing, when the literal is already true. -/
def assign (vs : Variables) (level : Nat) (l : Literal) : Bool × Variables :=
  if vs.isFalse l then (false, vs)
  else if vs.isTrue l then (true, vs)
  else
    (true,
      { vs with
        truthValue := fun v =>
          if v = l.var then (if l.negative then TruthValue.FALSE else TruthValue.TRUE)
          else vs.truthValue v
        decisionLevel := fun v => if v = l.var then level else vs.decisionLevel v
        implicant := fun v => if v = l.var then none else vs.implicant v
        assignedVariables := vs.assignedVariables ++ [l.var] })

/-- Modelled from the spec: `numberOfAssignedLiterals`, the length of the trail. -/
def numberOfAssignedLiterals (vs : Variables) : Nat := vs.assignedVariables.length

/-- Modelled from the spec: `hasNextVariableToPropagate`: the cursor is inside the trail. -/
def hasNextVariableToPropagate (vs : Variables) : Bool :=
  vs.nextVariableToPropagate < vs.assignedVariables.length

/-- Modelled from the spec: `getNextVariableToPropagate`: the variable under the cursor, the
cursor advancing by one. -/
def getNextVariableToPropagate (vs : Variables) : Var × Variables :=
  (vs.assignedVariables.getD vs.nextVariableToPropagate 0,
    { vs with nextVariableToPropagate := vs.nextVariableToPropagate + 1 })

/-- Modelled from the spec: `setAssumption`, the assumption bit of a variable. -/
def setAssumption (vs : Variables) (v : Var) (isAssumption : Bool) : Variables :=
  { vs with assumption := fun w => if w = v then isAssumption else vs.assumption w }

/-- Modelled from the spec: `isAssumption`, the assumption bit of a variable. -/
def isAssumption (vs : Variables) (v : Var) : Bool := vs.assumption v

/-- Modelled from the spec: `getDecisionLevel( Var )`. -/
def getDecisionLevel (vs : Variables) (v : Var) : Nat := vs.decisionLevel v

/-- Modelled from the spec: `isImplicant( Var, const Clause* )`: the implicant of the variable
is the clause at this address. -/
def isImplicant (vs : Variables) (v : Var) (clause : Nat) : Bool :=
  vs.implicant v == some (Reason.clause clause)

/-- Modelled from the spec: `setImplicant( Var, Reason* )`; `NULL` is `none`. -/
def setImplicant (vs : Variables) (v : Var) (reason : Option Reason) : Variables :=
  { vs with implicant := fun w => if w = v then reason else vs.implicant w }

end Variables

/-- The exit codes of `solve` (`util/Constants.h`, not among the sources; the values are the
ones of the original repository and only their distinctness is used). -/
def COHERENT : Nat := 10

/-- Exit code for an unsatisfiable input. -/
def INCOHERENT : Nat := 20

/-- `UINT_MAX`, the default of the choice and restart budgets. -/
def UINT_MAX : Nat := 2 ^ 32 - 1

/-- The number of values of a `uint64_t`. -/
def UINT64_SIZE : Nat := 2 ^ 64

/-- The number of values of an `unsigned int`. -/
def UINT_SIZE : Nat := 2 ^ 32

/-- The integer members of `struct GlucoseData` of `Solver.h`; the floating-point members and
the two bounded queues are left out. -/
structure GlucoseData where
  nbclausesBeforeReduce : Nat
  incReduceDB : Nat
  specialIncReduceDB : Nat
  lbLBDFrozenClause : Nat
  lbSizeMinimizingClause : Nat
  lbLBDMinimizingClause : Nat
  permDiff : List Nat
  currRestart : Nat
  MYFLAG : Nat
  deriving DecidableEq, Repr

namespace GlucoseData

/-- The member `init`, called by the constructor of the solver on an empty record: the
constants, and a first entry of `permDiff`. -/
def init : GlucoseData where
  nbclausesBeforeReduce := 2000
  incReduceDB := 300
  specialIncReduceDB := 1000
  lbLBDFrozenClause := 30
  lbSizeMinimizingClause := 30
  lbLBDMinimizingClause := 6
  permDiff := [0]
  currRestart := 1
  MYFLAG := 0

/-- The member `onNewVariable`. -/
def onNewVariable (g : GlucoseData) : GlucoseData := { g with permDiff := g.permDiff ++ [0] }

end GlucoseData

/-- The data members of `class Solver` that the embedded functions read or write. The member
`variables` is called `variableStore` here, `variables` being a reserved word. Components,
head-cycle components and aggregates are named by an identifier. The static member
`learnedFromAllSolvers` is held in the record as well. -/
structure Solver where
  currentDecisionLevel : Nat
  variableStore : Variables
  clauses : List Clause
  learnedClauses : List Clause
  unrollVector : List Nat
  conflictLiteral : Literal
  conflictClause : Option Reason
  postPropagators : List Nat
  precomputedCosts : List Nat
  callSimplifications_ : Bool
  optimizationLiterals : List (List OptimizationLiteralData)
  weighted_ : List Bool
  variableDataStructures : List (Option DataStructures)
  numberOfAssumptions : Nat
  computeUnsatCores_ : Bool
  minimizeUnsatCore_ : Bool
  unsatCore : Option Clause
  maxNumberOfChoices : Nat
  maxNumberOfRestarts : Nat
  incremental_ : Bool
  cyclicComponents : List Nat
  hcComponents : List Nat
  aggregates : List Nat
  numberOfRestarts : Nat
  generator : Bool
  exchangeClauses_ : Bool
  learnedFromAllSolvers : List Clause
  glucoseHeuristic_ : Bool
  conflicts : Nat
  glucoseData : GlucoseData
  literalsInClauses : Nat
  nextValueOfPropagation : Int

namespace Solver

/-- The constructor `Solver::Solver()`: level 0, no conflict, the two null slots of the dummy
variable in the per-literal table, unsat cores not computed, minimization on. -/
def new : Solver where
  currentDecisionLevel := 0
  variableStore :=
    { numberOfVariables := 0
      truthValue := fun _ => TruthValue.UNDEFINED
      decisionLevel := fun _ => 0
      implicant := fun _ => none
      assumption := fun _ => false
      assignedVariables := []
      nextVariableToPropagate := 0 }
  clauses := []
  learnedClauses := []
  unrollVector := []
  conflictLiteral := Literal.null
  conflictClause := none
  postPropagators := []
  precomputedCosts := []
  callSimplifications_ := true
  optimizationLiterals := []
  weighted_ := []
  variableDataStructures := [none, none]
  numberOfAssumptions := 0
  computeUnsatCores_ := false
  minimizeUnsatCore_ := true
  unsatCore := none
  maxNumberOfChoices := UINT_MAX
  maxNumberOfRestarts := UINT_MAX
  incremental_ := false
  cyclicComponents := []
  hcComponents := []
  aggregates := []
  numberOfRestarts := 0
  generator := true
  exchangeClauses_ := false
  learnedFromAllSolvers := []
  glucoseHeuristic_ := true
  conflicts := 0
  glucoseData := GlucoseData.init
  literalsInClauses := 0
  nextValueOfPropagation := 0

/-- The member `isTrue( Literal )`. -/
def isTrue (s : Solver) (l : Literal) : Bool := s.variableStore.isTrue l

/-- The member `isFalse( Literal )`. -/
def isFalse (s : Solver) (l : Literal) : Bool := s.variableStore.isFalse l

/-- The member `isUndefined( Literal )`. -/
def isUndefined (s : Solver) (l : Literal) : Bool := s.variableStore.isUndefined l

/-- The member `getPrecomputedCost`; the source asserts `level < precomputedCosts.size()`. -/
def getPrecomputedCost (s : Solver) (level : Nat) : Nat := s.precomputedCosts.getD level 0

/-- The list `optimizationLiterals[ level ]`. -/
def optimizationLiteralsOf (s : Solver) (level : Nat) : List OptimizationLiteralData :=
  s.optimizationLiterals.getD level []

/-- The member `numberOfOptimizationLiterals`. -/
def numberOfOptimizationLiterals (s : Solver) (level : Nat) : Nat :=
  (s.optimizationLiteralsOf level).length

/-- The body of the loop of `computeCostOfModel`: an auxiliary literal is skipped, the weight of
a true literal is added to the `uint64_t` accumulator. -/
def costStep (s : Solver) (cost : Nat) (o : OptimizationLiteralData) : Nat :=
  if o.isAux then cost
  else if s.isTrue o.lit then (cost + o.weight) % UINT64_SIZE
  else cost

/-- The member `computeCostOfModel( unsigned int level )`. -/
def computeCostOfModel (s : Solver) (level : Nat) : Nat :=
  (s.optimizationLiteralsOf level).foldl (costStep s) (s.getPrecomputedCost level)

/-! ## Conflict status, assignment and decisions -/

/-- The member `conflictDetected`. -/
def conflictDetected (s : Solver) : Bool := s.conflictLiteral != Literal.null

/-- The member `resetPostPropagators`: the pending list is popped until it is empty. The
callbacks `onRemoving` and `reset` act on the post-propagator objects, which are not part of
the solver record. -/
def resetPostPropagators (s : Solver) : Solver := { s with postPropagators := [] }

/-- The member `clearConflictStatus`. -/
def clearConflictStatus (s : Solver) : Solver :=
  { s.resetPostPropagators with conflictLiteral := Literal.null, conflictClause := none }

/-- The member `assignLiteral( Literal )`: on a failed assignment the literal becomes the
conflict literal, with no conflict clause. -/
def assignLiteral (s : Solver) (literal : Literal) : Solver :=
  let r := s.variableStore.assign s.currentDecisionLevel literal
  if r.1 then { s with variableStore := r.2 }
  else { s with variableStore := r.2, conflictLiteral := literal, conflictClause := none }

/-- The member `incrementCurrentDecisionLevel`. -/
def incrementCurrentDecisionLevel (s : Solver) : Solver :=
  { s with
    currentDecisionLevel := s.currentDecisionLevel + 1
    unrollVector := s.unrollVector ++ [s.variableStore.numberOfAssignedLiterals] }

/-- The member `setAChoice`. -/
def setAChoice (s : Solver) (choice : Literal) : Solver :=
  s.incrementCurrentDecisionLevel.assignLiteral choice

/-- The member `setAssumption( Literal, bool )`. -/
def setAssumption (s : Solver) (lit : Literal) (isAssumption : Bool) : Solver :=
  { s with variableStore := s.variableStore.setAssumption lit.getVariable isAssumption }

/-- The member `tight`. -/
def tight (s : Solver) : Bool := s.cyclicComponents.isEmpty && s.hcComponents.isEmpty

/-- The member `hasPropagators`. -/
def hasPropagators (s : Solver) : Bool := !s.tight || !s.aggregates.isEmpty

/-- The member `getDataStructure( Literal )`, the entry `*variableDataStructures[ index ]`. The
source reads a populated slot; a read outside the table or of a null slot gives the record of
the constructor here. -/
def getDataStructure (s : Solver) (lit : Literal) : DataStructures :=
  match s.variableDataStructures.getD lit.getIndex none with
  | some d => d
  | none => DataStructures.new

/-- A write through the reference returned by `getDataStructure( Literal )`: the populated slot
of the literal is replaced by `f` of it. -/
def modifyDataStructure (s : Solver) (lit : Literal) (f : DataStructures → DataStructures) :
    Solver :=
  match s.variableDataStructures.getD lit.getIndex none with
  | some d => { s with variableDataStructures := s.variableDataStructures.set lit.getIndex (some (f d)) }
  | none => s

/-- The slot of the literal in the per-literal table is populated, as it is for both literals
of every variable created by `addVariable`. -/
def hasDataStructure (s : Solver) (lit : Literal) : Bool :=
  (s.variableDataStructures.getD lit.getIndex none).isSome

/-- The member `addWatchedClause`. -/
def addWatchedClause (s : Solver) (lit : Literal) (clause : Nat) : Solver :=
  s.modifyDataStructure lit
    (fun d => { d with variableWatchedLists := d.variableWatchedLists ++ [clause] })

/-- The member `addClause( Literal lit, Clause* clause )`: the clause is appended to the
all-occurrences list of the literal. -/
def addClauseOccurrence (s : Solver) (lit : Literal) (clause : Nat) : Solver :=
  s.modifyDataStructure lit
    (fun d => { d with variableAllOccurrences := d.variableAllOccurrences ++ [clause] })

/-- The member `addLiteralInShortClause`. -/
def addLiteralInShortClause (s : Solver) (firstLiteral secondLiteral : Literal) : Solver :=
  s.modifyDataStructure firstLiteral
    (fun d => { d with variableBinaryClauses := d.variableBinaryClauses ++ [secondLiteral] })

/-- The member `addBinaryClause`. -/
def addBinaryClause (s : Solver) (lit1 lit2 : Literal) : Solver :=
  (s.addLiteralInShortClause lit1 lit2).addLiteralInShortClause lit2 lit1

/-- The member `attachClause`: the clause is added to the watch lists of its first two
literals. -/
def attachClause (s : Solver) (clause : Clause) : Solver :=
  (s.addWatchedClause (clause.getAt 0) clause.addr).addWatchedClause (clause.getAt 1) clause.addr

/-- The member `attachClauseToAllLiterals`: the clause is added to the all-occurrences list of
each of its literals, in order. -/
def attachClauseToAllLiterals (s : Solver) (clause : Clause) : Solver :=
  clause.literals.foldl (fun t l => t.addClauseOccurrence l clause.addr) s

end Solver

/-- The procedures that `Solver.h` calls and that are defined outside it: the two search loops and
`unroll` (`Solver.cpp`), `Learning::analyzeFinal`, `MinisatHeuristic::makeAChoice`,
`propagateAtLevelZero` (`Solver.cpp`), the clause cleanup
`Clause::removeDuplicatesAndFalseAndCheckIfTautological` (it reads the solver and rewrites the
clause), the address handed out by `new Clause`, the statements of `preprocessing` after its
conflict check, and `cleanAndAddLearnedClause` and `simplifyOnRestart` (`Solver.cpp`). The
search loops read the assumptions they are given. Further procedures of `Solver.cpp`: the two
deletion policies `glucoseDeletion` and `minisatDeletion`, the bump `updateActivity` of a learned
clause (it may rewrite the clause it is given), and the propagation steps `shortPropagation`,
`unitPropagation`, `propagation` and `postPropagation`. -/
structure Collaborators where
  solveWithoutPropagators : Solver → List Literal → Nat × Solver
  solvePropagators : Solver → List Literal → Nat × Solver
  unroll : Solver → Nat → Solver
  analyzeFinal : Solver → Literal → Clause
  makeAChoice : Solver → Literal
  propagateAtLevelZero : Solver → Var → Solver
  removeDuplicatesAndFalseAndCheckIfTautological : Solver → Clause → Bool × Clause
  newClauseAddr : Solver → Nat
  preprocessingAfterConflictCheck : Solver → Bool × Solver
  cleanAndAddLearnedClause : Solver → Clause → Bool × Solver
  simplifyOnRestart : Solver → Solver
  glucoseDeletion : Solver → Solver
  minisatDeletion : Solver → Solver
  updateActivity : Solver → Clause → Solver × Clause
  shortPropagation : Solver → Var → Solver
  unitPropagation : Solver → Var → Solver
  propagation : Solver → Var → Solver
  postPropagation : Solver → Var → Solver

namespace Solver

/-! ## Choice of the decision literal -/

/-- The member `computeUnsatCore`. -/
def computeUnsatCore (ext : Collaborators) (s : Solver) : Solver :=
  { s with unsatCore := some (ext.analyzeFinal s s.conflictLiteral) }

/-- The `for` loop of `chooseLiteral` over the assumptions still to visit. The result is `none`
with the state at the `return false`, or the value of `choice` and the state after the last
iteration. -/
def chooseLiteralLoop (ext : Collaborators) :
    List Literal → Literal → Solver → Option Literal × Solver
  | [], choice, s => (some choice, s)
  | a :: rest, choice, s =>
    if s.isUndefined a then
      chooseLiteralLoop ext rest (if choice = Literal.null then a else choice) s
    else if s.isFalse a then
      let s1 := { s with conflictLiteral := a }
      (none, if s1.computeUnsatCores_ then s1.computeUnsatCore ext else s1)
    else
      chooseLiteralLoop ext rest choice
        (if choice = Literal.null then s.incrementCurrentDecisionLevel else s)

/-- The member `chooseLiteral`: the loop starts at index `currentDecisionLevel`; when it ends
without a choice the heuristic is asked. -/
def chooseLiteral (ext : Collaborators) (s : Solver) (assumptions : List Literal) :
    Bool × Solver :=
  match chooseLiteralLoop ext (assumptions.drop s.currentDecisionLevel) Literal.null s with
  | (none, s1) => (false, s1)
  | (some choice, s1) =>
    (true, s1.setAChoice (if choice ≠ Literal.null then choice else ext.makeAChoice s1))

/-- The state after `n` calls of `incrementCurrentDecisionLevel`, as made by the loop of
`chooseLiteral` for `n` true assumptions met before any undefined one. -/
def incrementLevels : Nat → Solver → Solver
  | 0, s => s
  | n + 1, s => incrementLevels n s.incrementCurrentDecisionLevel

/-! ## Solving under assumptions and unsat-core minimization -/

/-- Modelled from the spec: `clearAfterSolveUnderAssumptions` is declared in `Solver.h` and
defined in `Solver.cpp`, which is not among the sources. `solve(assumptions)` marks each
assumption variable; this member removes the marks again. -/
def clearAfterSolveUnderAssumptions (s : Solver) (assumptions : List Literal) : Solver :=
  assumptions.foldl (fun t a => t.setAssumption a false) s

/-- The member `unrollToZero`. -/
def unrollToZero (ext : Collaborators) (s : Solver) : Solver :=
  if s.currentDecisionLevel ≠ 0 then ext.unroll s 0 else s

/-- The expression `( !hasPropagators() ) ? solveWithoutPropagators( assumptions ) :
solvePropagators( assumptions )`. -/
def runSearch (ext : Collaborators) (s : Solver) (assumptions : List Literal) : Nat × Solver :=
  if !s.hasPropagators then ext.solveWithoutPropagators s assumptions
  else ext.solvePropagators s assumptions

/-- The member `solve()`, without assumptions. -/
def solve (ext : Collaborators) (s : Solver) : Nat × Solver :=
  runSearch ext { s with incremental_ := false, numberOfAssumptions := 0 } []

/-- The member `getUnsatCore`; `none` is the null pointer. -/
def getUnsatCore (s : Solver) : Option Clause := s.unsatCore

/-- The body of the loop of `minimizeUnsatCore` that rebuilds the assumptions: a core literal
that is not marked as an optimization literal is skipped (`continue`), for the others the
complement is pushed and its variable marked as an assumption. -/
def coreAssumptionsStep (acc : Solver × List Literal) (lit : Literal) : Solver × List Literal :=
  if !(acc.1.getDataStructure lit).isOptLit then acc
  else (acc.1.setAssumption lit.getOppositeLiteral true, acc.2 ++ [lit.getOppositeLiteral])

/-- The loop of `minimizeUnsatCore` that rebuilds the assumptions from the unsat core, started
on the empty vector. -/
def coreAssumptions (s : Solver) (core : List Literal) : Solver × List Literal :=
  core.foldl coreAssumptionsStep (s, [])

/-- One re-solve of `minimizeUnsatCore`, as seen from outside: the state at the label `begin`,
the unsat core it holds, and the state and the assumptions handed to the search. -/
structure Resolve where
  before : Solver
  core : Clause
  state : Solver
  assumptions : List Literal

/-- The state and the assumptions that one iteration of `minimizeUnsatCore` hands to the
search: the marks of the old assumptions and the conflict are cleared, the assumptions are
rebuilt from the core, the solver is unrolled to level 0 and the core is deleted. -/
def prepareResolve (ext : Collaborators) (s : Solver) (assumptions : List Literal)
    (core : Clause) : Solver × List Literal :=
  let s1 := (s.clearAfterSolveUnderAssumptions assumptions).clearConflictStatus
  let r := coreAssumptions s1 core.literals
  let s2 := { r.1 with numberOfAssumptions := r.2.length }
  let s3 := unrollToZero ext s2
  ({ s3 with unsatCore := none }, r.2)

/-- The assignment `if( unsatCore == NULL ) unsatCore = new Clause();`. -/
def ensureUnsatCore (s : Solver) : Solver :=
  match s.unsatCore with
  | none => { s with unsatCore := some Clause.new }
  | some _ => s

/-- The size of the current unsat core, 0 for the null pointer. -/
def unsatCoreSize (s : Solver) : Nat :=
  match s.unsatCore with
  | none => 0
  | some c => c.size

/-- The part of `minimizeUnsatCore` from the label `begin` on, without the restoring of the
budgets, which both exits perform. The result is the final state, the final assumptions vector
and the list of the re-solves that were run, in order. The loop is taken again only when the
core got strictly smaller, which is the termination measure. The source asserts that the core is
not null at `begin`; on a null core the function returns at once here. -/
def minimizeUnsatCoreLoop (ext : Collaborators) (s : Solver) (assumptions : List Literal) :
    Solver × List Literal × List Resolve :=
  match h : s.unsatCore with
  | none => (s, assumptions, [])
  | some core =>
    if core.size ≤ 2 then (s, assumptions, [])
    else
      let p := prepareResolve ext s assumptions core
      let s1 := ensureUnsatCore (runSearch ext p.1 p.2).2
      if s1.unsatCoreSize < core.size then
        let r := minimizeUnsatCoreLoop ext s1 p.2
        (r.1, r.2.1, ⟨s, core, p.1, p.2⟩ :: r.2.2)
      else (s1, p.2, [⟨s, core, p.1, p.2⟩])
termination_by s.unsatCoreSize
decreasing_by
  simp_wf
  rename_i hlt
  have hs : s.unsatCoreSize = core.size := by simp [unsatCoreSize, h]
  rw [hs]
  exact hlt

/-- The calls `setMaxNumberOfChoices( UINT_MAX )` and `setMaxNumberOfRestarts( UINT_MAX )` at
the start of `minimizeUnsatCore`. -/
def liftBudgets (s : Solver) : Solver :=
  { s with maxNumberOfChoices := UINT_MAX, maxNumberOfRestarts := UINT_MAX }

/-- The member `minimizeUnsatCore`: the budgets are lifted, the loop is run, the budgets are
restored. The third component lists the re-solves. -/
def minimizeUnsatCore (ext : Collaborators) (s : Solver) (assumptions : List Literal) :
    Solver × List Literal × List Resolve :=
  let originalMaxNumberOfChoices := s.maxNumberOfChoices
  let originalMaxNumberOfRestarts := s.maxNumberOfRestarts
  let r := minimizeUnsatCoreLoop ext s.liftBudgets assumptions
  ({ r.1 with
      maxNumberOfChoices := originalMaxNumberOfChoices
      maxNumberOfRestarts := originalMaxNumberOfRestarts },
    r.2.1, r.2.2)

/-- The statements of `solve( assumptions )` after the search: with unsat-core computation
enabled and an `INCOHERENT` result a missing core becomes the empty clause and an existing one
is minimized when minimization is enabled. -/
def finishCore (ext : Collaborators) (result : Nat) (s : Solver) (assumptions : List Literal) :
    Solver × List Literal :=
  if s.computeUnsatCores_ && result == INCOHERENT then
    match s.unsatCore with
    | none => ({ s with unsatCore := some Clause.new }, assumptions)
    | some _ =>
      if s.minimizeUnsatCore_ then
        let r := minimizeUnsatCore ext s assumptions
        (r.1, r.2.1)
      else (s, assumptions)
  else (s, assumptions)

/-- The statements of `solve( assumptions )` before the search: the assumptions are counted
and their variables marked, the unsat core of an earlier call is deleted. -/
def prepareSolve (s : Solver) (assumptions : List Literal) : Solver :=
  let s1 := { s with
    incremental_ := !assumptions.isEmpty
    numberOfAssumptions := assumptions.length }
  let s2 := assumptions.foldl (fun t a => t.setAssumption a true) s1
  { s2 with unsatCore := none }

/-- The member `solve( vector< Literal >& assumptions )`. The result is the exit code, the
final state and the final contents of the assumptions vector. -/
def solveUnderAssumptions (ext : Collaborators) (s : Solver) (assumptions : List Literal) :
    Nat × Solver × List Literal :=
  let r := runSearch ext (prepareSolve s assumptions) assumptions
  let f := finishCore ext r.1 r.2 assumptions
  (r.1, (f.1.clearAfterSolveUnderAssumptions f.2).clearConflictStatus, f.2)

/-! ## Adding clauses -/

/-- The `while` loop of `propagateLiteralAsDeterministicConsequence`. `fuel` bounds the number
of iterations; the result is `none` when the bound is reached with variables still to
propagate. -/
def propagateLoop (ext : Collaborators) : Nat → Solver → Option (Bool × Solver)
  | 0, s => if s.variableStore.hasNextVariableToPropagate then none else some (true, s)
  | fuel + 1, s =>
    if s.variableStore.hasNextVariableToPropagate then
      let n := s.variableStore.getNextVariableToPropagate
      let s1 := ext.propagateAtLevelZero { s with variableStore := n.2 } n.1
      if s1.conflictDetected then some (false, s1) else propagateLoop ext fuel s1
    else some (true, s)

/-- The member `propagateLiteralAsDeterministicConsequence`. -/
def propagateLiteralAsDeterministicConsequence (ext : Collaborators) (fuel : Nat) (s : Solver)
    (literal : Literal) : Option (Bool × Solver) :=
  let s1 := s.assignLiteral literal
  if s1.conflictDetected then some (false, s1) else propagateLoop ext fuel s1

/-- The member `addClause( Literal literal )`. -/
def addClauseLiteral (ext : Collaborators) (fuel : Nat) (s : Solver) (literal : Literal) :
    Option (Bool × Solver) :=
  if s.isTrue literal then some (true, s)
  else
    match propagateLiteralAsDeterministicConsequence ext fuel s literal with
    | none => none
    | some (true, s1) => some (true, s1)
    | some (false, s1) => some (false, { s1 with conflictLiteral := literal })

/-- The branch `size > 1` of `addClause( Clause* clause )`: unless simplifications are off and
the clause is binary, the clause is attached to all its literals; it is then told its position
and pushed onto `clauses`. -/
def attachAndPushClause (s : Solver) (clause : Clause) : Solver :=
  let s1 :=
    if s.callSimplifications_ || clause.size != 2 then s.attachClauseToAllLiterals clause
    else s
  { s1 with clauses := s1.clauses ++ [clause.setPositionInSolver s1.clauses.length] }

/-- The member `addClause( Clause* clause )`. A clause of two or more literals is attached to
the all-occurrences lists, told its position and pushed onto `clauses`; a unit clause is handed
to `addClause( Literal )`; an empty clause, or a unit clause that fails, leaves
`Literal::conflict` as conflict literal. -/
def addClause (ext : Collaborators) (fuel : Nat) (s : Solver) (clause : Clause) :
    Option (Bool × Solver) :=
  if clause.size > 1 then some (true, s.attachAndPushClause clause)
  else if clause.size == 1 then
    match addClauseLiteral ext fuel s (clause.getAt 0) with
    | none => none
    | some (true, s1) => some (true, s1)
    | some (false, s1) => some (false, { s1 with conflictLiteral := Literal.conflict })
  else some (false, { s with conflictLiteral := Literal.conflict })

/-- The member `newClause`, followed by the two `addLiteral` calls of
`addClause( Literal, Literal )`. -/
def newBinaryClause (ext : Collaborators) (s : Solver) (lit1 lit2 : Literal) : Clause :=
  { Clause.new with addr := ext.newClauseAddr s, literals := [lit1, lit2] }

/-- The member `addClause( Literal lit1, Literal lit2 )`. -/
def addClauseBinary (ext : Collaborators) (fuel : Nat) (s : Solver) (lit1 lit2 : Literal) :
    Option (Bool × Solver) :=
  if !s.callSimplifications_ then some (true, s.addBinaryClause lit1 lit2)
  else addClause ext fuel s (newBinaryClause ext s lit1 lit2)

/-- The member `cleanAndAddClause`. -/
def cleanAndAddClause (ext : Collaborators) (fuel : Nat) (s : Solver) (clause : Clause) :
    Option (Bool × Solver) :=
  let r := ext.removeDuplicatesAndFalseAndCheckIfTautological s clause
  if r.1 then some (true, s)
  else if r.2.size == 0 then some (false, { s with conflictLiteral := Literal.conflict })
  else if r.2.size == 2 then addClauseBinary ext fuel s (r.2.getAt 0) (r.2.getAt 1)
  else addClause ext fuel s r.2

/-- The member `numberOfVariables`. -/
def numberOfVariables (s : Solver) : Nat := s.variableStore.numberOfVariables

/-- The member `getLiteral( int lit )`: the variable is `lit` or `-lit`, the sign the one of
`lit`. The assertion on the range of `lit` is commented out in the source, so the solver is not
consulted. -/
def getLiteral (_s : Solver) (lit : Int) : Literal :=
  let var : Var := (if lit > 0 then lit else -lit).toNat
  if lit > 0 then ⟨var, false⟩ else ⟨var, true⟩

/-- Modelled from the spec: `Variables::push_back` appends a fresh variable, which is
undefined, at level 0, without implicant and not an assumption. -/
def pushVariable (vs : Variables) : Variables :=
  { vs with
    numberOfVariables := vs.numberOfVariables + 1
    truthValue := fun v =>
      if v = vs.numberOfVariables + 1 then TruthValue.UNDEFINED else vs.truthValue v
    decisionLevel := fun v => if v = vs.numberOfVariables + 1 then 0 else vs.decisionLevel v
    implicant := fun v => if v = vs.numberOfVariables + 1 then none else vs.implicant v
    assumption := fun v => if v = vs.numberOfVariables + 1 then false else vs.assumption v }

/-- The member `addVariableInternal`. The calls on the variable names, the heuristic and the
learning object act outside the solver record. -/
def addVariableInternal (s : Solver) : Solver :=
  { s with
    variableStore := pushVariable s.variableStore
    glucoseData := s.glucoseData.onNewVariable
    variableDataStructures :=
      s.variableDataStructures ++ [some DataStructures.new] ++ [some DataStructures.new] }

/-- The member `addVariable`. -/
def addVariable (s : Solver) : Solver := s.addVariableInternal

/-- The member `addVariableRuntime`; the call `onNewVariableRuntime` acts on the heuristic,
outside the solver record. -/
def addVariableRuntime (s : Solver) : Solver := s.addVariableInternal

/-- A sequence of calls of `addVariable` (`false`) and `addVariableRuntime` (`true`). -/
def addVariables (s : Solver) (calls : List Bool) : Solver :=
  calls.foldl (fun t runtime => if runtime then t.addVariableRuntime else t.addVariable) s

/-- The state of the tables after `n` variables: `n` variables, `2 n + 2` slots of which those
from index 2 on are populated, `n + 1` entries of `permDiff`. -/
def tablesFor (n : Nat) (s : Solver) : Prop :=
  s.numberOfVariables = n ∧
  s.variableDataStructures.length = 2 * n + 2 ∧
  (∀ i : Nat, 2 ≤ i → i < 2 * n + 2 → ∃ d, s.variableDataStructures[i]? = some (some d)) ∧
  s.glucoseData.permDiff.length = n + 1

/-! ## Optimization literals -/

/-- The member `numberOfLevels`. -/
def numberOfLevels (s : Solver) : Nat := s.optimizationLiterals.length

/-- The member `isWeighted`. -/
def isWeighted (s : Solver) (level : Nat) : Bool := s.weighted_.getD level false

/-- The member `setWeighted`. -/
def setWeighted (s : Solver) (level : Nat) : Solver :=
  { s with weighted_ := s.weighted_.set level true }

/-- The member `setLevels`: `n` times an empty list of optimization literals, a precomputed
cost 0 and the flag "not weighted" are pushed. -/
def setLevels : Solver → Nat → Solver
  | s, 0 => s
  | s, n + 1 =>
    setLevels
      { s with
        optimizationLiterals := s.optimizationLiterals ++ [[]]
        precomputedCosts := s.precomputedCosts ++ [0]
        weighted_ := s.weighted_ ++ [false] } n

/-- The number of values of the 30-bit field `level` of `OptimizationLiteralData`. -/
def LEVEL_FIELD_SIZE : Nat := 2 ^ 30

/-- The member `addOptimizationLiteral`. The level is stored in a 30-bit field. -/
def addOptimizationLiteral (s : Solver) (lit : Literal) (weight : Nat) (level : Nat)
    (aux : Bool) : Solver :=
  let opt : OptimizationLiteralData := ⟨lit, weight, level % LEVEL_FIELD_SIZE, false, aux⟩
  let s1 := { s with
    optimizationLiterals :=
      s.optimizationLiterals.set level (s.optimizationLiteralsOf level ++ [opt]) }
  let s2 := if weight > 1 then s1.setWeighted level else s1
  s2.modifyDataStructure lit (fun d => d.setOptLit true)

/-- The state of the loop of `simplifyOptimizationLiterals`: the vector being compacted, the
write index `j` and the value of `precomputedCosts[ level ]`. -/
structure SimplifyState where
  optLiterals : List OptimizationLiteralData
  j : Nat
  cost : Nat

/-- An entry read outside the vector; the loop never reads one. -/
def noOptimizationLiteral : OptimizationLiteralData := ⟨Literal.null, 0, 0, false, false⟩

/-- The body of the loop of `simplifyOptimizationLiterals` for the read index `i`: entry `i` is
copied to position `j`; if its literal is true its weight is added to the `uint64_t` cost,
otherwise `j` advances. -/
def simplifyStep (s : Solver) (st : SimplifyState) (i : Nat) : SimplifyState :=
  let v := st.optLiterals.set st.j (st.optLiterals.getD i noOptimizationLiteral)
  let o := v.getD st.j noOptimizationLiteral
  if s.isTrue o.lit then ⟨v, st.j, (st.cost + o.weight) % UINT64_SIZE⟩
  else ⟨v, st.j + 1, st.cost⟩

/-- The loop of `simplifyOptimizationLiterals` over the read indices `0 .. size - 1`. -/
def simplifyLoop (s : Solver) (level : Nat) : SimplifyState :=
  (List.range (s.optimizationLiteralsOf level).length).foldl (simplifyStep s)
    ⟨s.optimizationLiteralsOf level, 0, s.getPrecomputedCost level⟩

/-- The member `simplifyOptimizationLiterals`: after the loop the vector is cut to `j` entries;
the result is the new precomputed cost of the level, and the new state. -/
def simplifyOptimizationLiterals (s : Solver) (level : Nat) : Nat × Solver :=
  let st := simplifyLoop s level
  let s1 := { s with
    optimizationLiterals := s.optimizationLiterals.set level (st.optLiterals.take st.j)
    precomputedCosts := s.precomputedCosts.set level st.cost }
  (s1.getPrecomputedCost level, s1)

/-! ## Restarts -/

/-- The loop of `doRestart` that imports the clauses learned by the other solvers, last one
first, given the clauses still to import in that order; it stops with false at the first clause
that `cleanAndAddLearnedClause` refuses. The shared vector is taken to be touched by this loop
only. -/
def importLearnedClauses (ext : Collaborators) : List Clause → Solver → Bool × Solver
  | [], s => (true, { s with learnedFromAllSolvers := [] })
  | c :: rest, s =>
    let r := ext.cleanAndAddLearnedClause { s with learnedFromAllSolvers := rest.reverse } c
    if !r.1 then (false, r.2) else importLearnedClauses ext rest r.2

/-- The `if` of `doRestart` that unrolls: to the number of assumptions when the current level
is above it, to level 0 otherwise. -/
def restartUnroll (ext : Collaborators) (s : Solver) : Solver :=
  if s.currentDecisionLevel > s.numberOfAssumptions then ext.unroll s s.numberOfAssumptions
  else ext.unroll s 0

/-- The member `doRestart`. The call `restart->onRestart()` acts on the restart object, outside
the solver record. -/
def doRestart (ext : Collaborators) (s : Solver) : Bool × Solver :=
  let s1 := restartUnroll ext { s with numberOfRestarts := s.numberOfRestarts + 1 }
  if s1.generator && s1.exchangeClauses_ then
    importLearnedClauses ext s1.learnedFromAllSolvers.reverse s1
  else (true, s1)

/-- The member `restartIfNecessary`. The test `hasToRestart` is computed in floating point from
the LBD queue, or asked of the restart object; it is given here. -/
def restartIfNecessary (ext : Collaborators) (hasToRestart : Bool) (s : Solver) :
    Bool × Solver :=
  if s.currentDecisionLevel == 0 then (true, s)
  else if hasToRestart then
    let r := doRestart ext s
    if !r.1 then (false, r.2) else (true, ext.simplifyOnRestart r.2)
  else (true, s)

/-! ## Watches -/

/-- The member `attachSecondWatch`. -/
def attachSecondWatch (s : Solver) (clause : Clause) : Solver :=
  s.addWatchedClause (clause.getAt 1) clause.addr

/-- The `for` loop of `onLiteralFalse`: the index of the first literal that is not false, among
the literals from position `i` on. -/
def firstNotFalse (s : Solver) : List Literal → Nat → Option Nat
  | [], _ => none
  | l :: rest, i => if !s.isFalse l then some i else firstNotFalse s rest (i + 1)

/-- The member `onLiteralFalse`. The clause is passed by reference: the result holds the
return value, the solver and the clause as the call leaves them. -/
def onLiteralFalse (s : Solver) (clause : Clause) (literal : Literal) :
    Bool × Solver × Clause :=
  let c1 :=
    if literal = clause.getAt 0 then
      { clause with literals := (clause.literals.set 0 (clause.getAt 1)).set 1 literal }
    else clause
  if s.isTrue (c1.getAt 0) then (false, s, c1)
  else
    match firstNotFalse s (c1.literals.drop 2) 2 with
    | some i =>
      let c2 := c1.swapLiteralsNoWatches 1 i
      (false, s.attachSecondWatch c2, c2)
    | none => (true, s, c1)

/-! ## The owning vector of the clauses -/

/-- Every clause of `clauses` records its own index: the clause at index `k` has
`positionInSolver` equal to `k`. -/
def positionsRecorded (s : Solver) : Prop :=
  ∀ k : Nat, k < s.clauses.length → (s.clauses.getD k Clause.new).getPositionInSolver = k

/-- The member `deleteClause`: the last clause of `clauses` is copied to the position that the
clause records and is told its new position, then the vector loses its last entry. The source
asserts that the clause is the one stored at that position; `releaseClause` frees the object,
which leaves the solver record as it is. -/
def deleteClause (s : Solver) (clause : Clause) : Solver :=
  let position := clause.getPositionInSolver
  { s with
    clauses :=
      (s.clauses.set position
        ((s.clauses.getLastD clause).setPositionInSolver position)).dropLast }

/-- The member `removeClauseNoDeletion`: as `deleteClause`, without the release of the clause.
The call `satelite->onDeletingClause` acts on the preprocessor, which is not part of the solver
record. -/
def removeClauseNoDeletion (s : Solver) (clause : Clause) : Solver :=
  let position := clause.getPositionInSolver
  { s with
    clauses :=
      (s.clauses.set position
        ((s.clauses.getLastD clause).setPositionInSolver position)).dropLast }

/-- The `for` loop of `attachWatches`, from index `i` on. A clause marked as deleted is deleted; a
clause of size 2 is recorded in the binary-implication lists and deleted; any other clause is
counted in `literalsInClauses`, attached to its two watches, and the index advances. `fuel`
bounds the number of iterations; the result is `none` when the bound is reached with clauses
still to visit. -/
def attachWatchesLoop : Nat → Solver → Nat → Option Solver
  | 0, s, i => if i < s.clauses.length then none else some s
  | fuel + 1, s, i =>
    if i < s.clauses.length then
      let current := s.clauses.getD i Clause.new
      if current.hasBeenDeleted then attachWatchesLoop fuel (s.deleteClause current) i
      else if current.size == 2 then
        attachWatchesLoop fuel
          ((s.addBinaryClause (current.getAt 0) (current.getAt 1)).deleteClause current) i
      else
        attachWatchesLoop fuel
          (attachClause
            { s with literalsInClauses := (s.literalsInClauses + current.size) % UINT64_SIZE }
            current)
          (i + 1)
    else some s

/-- The member `attachWatches`. Every iteration of its loop either removes a clause from
`clauses` or advances the index, so the number of clauses bounds the number of iterations. -/
def attachWatches (s : Solver) : Option Solver := attachWatchesLoop s.clauses.length s 0

/-- The clauses of a list that `attachWatches` attaches and keeps in `clauses`: those that are
neither marked as deleted nor of size 2. -/
def attachedClauses (cs : List Clause) : List Clause :=
  cs.filter (fun c => !c.hasBeenDeleted && c.size != 2)

/-- The number of entries that the clauses of a list at address `a` are due in the watch list
of the literal `l`: one for each such clause whose first literal is `l` and one for each whose
second literal is `l`. -/
def watchCount (l : Literal) (a : Nat) (cs : List Clause) : Nat :=
  cs.countP (fun c => c.addr == a && c.getAt 0 == l) +
    cs.countP (fun c => c.addr == a && c.getAt 1 == l)

/-- The member `addClauseFromModel`: a clause of two or more literals is attached to its two
watches, told its position and pushed onto `clauses`; the literal of a unit clause is
assigned. -/
def addClauseFromModel (s : Solver) (clause : Clause) : Bool × Solver :=
  if clause.size > 1 then
    let s1 := s.attachClause clause
    (true, { s1 with clauses := s1.clauses ++ [clause.setPositionInSolver s1.clauses.length] })
  else (true, s.assignLiteral (clause.getAt 0))

/-- The member `propagate`. -/
def propagate (ext : Collaborators) (s : Solver) (v : Var) : Solver :=
  let s1 := ext.shortPropagation s v
  if s1.conflictDetected then s1 else ext.unitPropagation s1 v

/-- The member `propagateWithPropagators`. -/
def propagateWithPropagators (ext : Collaborators) (s : Solver) (v : Var) : Solver :=
  let s1 := propagate ext s v
  if s1.conflictDetected then s1
  else
    let s2 := ext.propagation s1 v
    if s2.conflictDetected then s2 else ext.postPropagation s2 v

/-- The `while` loop of `addClauseRuntime( Literal )`. `fuel` bounds the number of iterations;
the result is `none` when the bound is reached with variables still to propagate. -/
def addClauseRuntimeLoop (ext : Collaborators) : Nat → Solver → Option (Bool × Solver)
  | 0, s => if s.variableStore.hasNextVariableToPropagate then none else some (true, s)
  | fuel + 1, s =>
    if s.variableStore.hasNextVariableToPropagate then
      let n := s.variableStore.getNextVariableToPropagate
      let s1 :=
        { s with nextValueOfPropagation := s.nextValueOfPropagation - 1, variableStore := n.2 }
      let s2 :=
        if s1.hasPropagators then propagateWithPropagators ext s1 n.1 else propagate ext s1 n.1
      if s2.conflictDetected then some (false, s2) else addClauseRuntimeLoop ext fuel s2
    else some (true, s)

/-- The member `addClauseRuntime( Literal literal )`. -/
def addClauseRuntimeLiteral (ext : Collaborators) (fuel : Nat) (s : Solver) (literal : Literal) :
    Option (Bool × Solver) :=
  if s.isTrue literal then some (true, s)
  else if s.isFalse literal then some (false, s)
  else addClauseRuntimeLoop ext fuel (s.assignLiteral literal)

/-- The member `addBinaryClauseRuntime`. -/
def addBinaryClauseRuntime (s : Solver) (clause : Clause) : Solver :=
  s.addBinaryClause (clause.getAt 0) (clause.getAt 1)

/-- The member `addClauseRuntime( Clause* clausePointer )`: an empty clause is released and
refused, a unit clause is handed to `addClauseRuntime( Literal )`, a binary clause goes to the
binary-implication lists, and a longer clause is attached to its two watches and pushed onto
`clauses`. -/
def addClauseRuntime (ext : Collaborators) (fuel : Nat) (s : Solver) (clause : Clause) :
    Option (Bool × Solver) :=
  match clause.size with
  | 0 => some (false, s)
  | 1 => addClauseRuntimeLiteral ext fuel s (clause.getAt 0)
  | 2 => some (true, s.addBinaryClauseRuntime clause)
  | _ =>
    let s1 := s.attachClause clause
    some (true, { s1 with clauses := s1.clauses ++ [clause] })

/-! ## Satisfied clauses -/

/-- The member `isLocked`. -/
def isLocked (s : Solver) (clause : Clause) : Bool :=
  s.variableStore.isImplicant (clause.getAt 0).getVariable clause.addr

/-- The member `setImplicant`. -/
def setImplicant (s : Solver) (v : Var) (reason : Option Reason) : Solver :=
  { s with variableStore := s.variableStore.setImplicant v reason }

/-- The `for` loop of `removeSatisfiedLiterals` on the literals of the clause, from index `i`
on: a true literal ends the scan with `true`; a false literal is overwritten by the last literal,
which is then removed, and the index stays; any other literal is stepped over. `fuel` bounds
the number of iterations; the result is `none` when the bound is reached with literals still to
visit. -/
def removeFalseLiterals (s : Solver) : Nat → List Literal → Nat → Option (Bool × List Literal)
  | 0, lits, i => if i < lits.length then none else some (false, lits)
  | fuel + 1, lits, i =>
    if i < lits.length then
      if s.isTrue (lits.getD i Literal.null) then some (true, lits)
      else if s.isFalse (lits.getD i Literal.null) then
        removeFalseLiterals s fuel
          (lits.set i (lits.getD (lits.length - 1) Literal.null)).dropLast i
      else removeFalseLiterals s fuel lits (i + 1)
    else some (false, lits)

/-- The member `removeSatisfiedLiterals`. The clause is passed by reference: the result holds
the return value, the solver and the clause as the call leaves them. Every iteration of the
loop either removes a literal or advances the index, so the size of the clause bounds the
number of iterations. -/
def removeSatisfiedLiterals (s : Solver) (clause : Clause) : Option (Bool × Solver × Clause) :=
  if s.isTrue (clause.getAt 0) then
    some (true,
      if s.isLocked clause then s.setImplicant (clause.getAt 0).getVariable none else s,
      clause)
  else if s.isTrue (clause.getAt 1) then some (true, s, clause)
  else
    match removeFalseLiterals s clause.size clause.literals 2 with
    | some r => some (r.1, s, { clause with literals := r.2 })
    | none => none

/-! ## Glucose: literal block distance, minimization, reduction of the learned clauses -/

/-- The member `isAssumption( Var )`. -/
def isAssumption (s : Solver) (v : Var) : Bool := s.variableStore.isAssumption v

/-- The member `getDecisionLevel( Literal )`. -/
def getDecisionLevel (s : Solver) (lit : Literal) : Nat :=
  s.variableStore.getDecisionLevel lit.getVariable

/-- The body of the loop of `computeLBD`, on the pair of the counter `lbd` and of `permDiff`:
the literal of an assumption is skipped; a level whose stamp is not the current flag is stamped
and counted. -/
def lbdStep (s : Solver) (flag : Nat) (acc : Nat × List Nat) (lit : Literal) : Nat × List Nat :=
  if s.isAssumption lit.getVariable then acc
  else if acc.2.getD (s.getDecisionLevel lit) 0 != flag then
    (acc.1 + 1, acc.2.set (s.getDecisionLevel lit) flag)
  else acc

/-- The member `computeLBD`: the flag `MYFLAG`, an `unsigned int`, is incremented, then the
literals are scanned. The result holds the return value and the solver with the new flag and
stamps. -/
def computeLBD (s : Solver) (clause : Clause) : Nat × Solver :=
  let flag := (s.glucoseData.MYFLAG + 1) % UINT_SIZE
  let r := clause.literals.foldl (lbdStep s flag) (0, s.glucoseData.permDiff)
  (r.1, { s with glucoseData := { s.glucoseData with MYFLAG := flag, permDiff := r.2 } })

/-- The member `learnedClauseUsedForConflict`. The clause is passed by pointer: the result holds
the solver and the clause as the call leaves them. -/
def learnedClauseUsedForConflict (ext : Collaborators) (s : Solver) (clause : Clause) :
    Solver × Clause :=
  let u := ext.updateActivity s clause
  if u.1.glucoseHeuristic_ then
    if u.2.lbd > 2 then
      let r := u.1.computeLBD u.2
      if r.1 + 1 < u.2.lbd then
        let c1 :=
          if u.2.lbd ≤ r.2.glucoseData.lbLBDFrozenClause then u.2.setCanBeDeleted false else u.2
        (r.2, c1.setLbd r.1)
      else (r.2, u.2)
    else u
  else u

end Solver

/-- A call of a member of a post-propagator, recorded by the name of the member and the
identifier of the object. `PostPropagator.h` is not among the sources: the members act on the
post-propagator object, which is not part of the solver record. -/
inductive PostPropagatorCall where
  | onAdding (postPropagator : Nat)
  | onRemoving (postPropagator : Nat)
  | reset (postPropagator : Nat)
  deriving DecidableEq, Repr

namespace Solver

/-- The `while` loop of `resetPostPropagators`, with the calls of the members of the
post-propagators recorded in order: the last entry of the pending list is taken off, then its
members `onRemoving` and `reset` are called. `fuel` bounds the number of iterations; the result
is `none` when the bound is reached with the list not empty. -/
def resetPostPropagatorsLoop :
    Nat → Solver → List PostPropagatorCall → Option (Solver × List PostPropagatorCall)
  | 0, s, calls => if s.postPropagators.isEmpty then some (s, calls) else none
  | fuel + 1, s, calls =>
    match s.postPropagators.getLast? with
    | none => some (s, calls)
    | some postPropagator =>
      resetPostPropagatorsLoop fuel { s with postPropagators := s.postPropagators.dropLast }
        (calls ++
          [PostPropagatorCall.onRemoving postPropagator, PostPropagatorCall.reset postPropagator])

/-- The member `resetPostPropagators` together with the calls it makes. Every iteration takes
an entry off the pending list, so the length of the list bounds the number of iterations. -/
def resetPostPropagatorsTraced (s : Solver) : Option (Solver × List PostPropagatorCall) :=
  resetPostPropagatorsLoop s.postPropagators.length s []

/-- The member `clearConflictStatus` together with the calls it makes on the pending
post-propagators. -/
def clearConflictStatusTraced (s : Solver) : Option (Solver × List PostPropagatorCall) :=
  match s.resetPostPropagatorsTraced with
  | some r => some ({ r.1 with conflictLiteral := Literal.null, conflictClause := none }, r.2)
  | none => none

end Solver

/-! ## Lines of a text -/

/-- The lines that successive calls of the standard `getline( stream, line )` deliver, given
the characters still to read and the characters of the current line read so far: a newline ends
a line and is dropped; at the end of the text a last line without newline is delivered when it
is not empty, and the next call fails. -/
def getlinesFrom : List Char → List Char → List (List Char)
  | [], line => if line.isEmpty then [] else [line]
  | c :: rest, line =>
    if c = '\n' then line :: getlinesFrom rest [] else getlinesFrom rest (line ++ [c])

/-- The lines of a text, as a loop `while ( getline( ... ) )` sees them. -/
def getlines (content : List Char) : List (List Char) := getlinesFrom content []

/-! ## The debugger's assertion history -/

/-- Modelled from the spec: `util/VariableNames.h` is not among the sources. The table of
variable names gives the name of a variable and finds the variable of a name. -/
structure VariableNames where
  getName : Var → String
  getVariable : String → Option Var

/-- The data members `userAssertions` and `determinedAtLevelZero` of `class DebugInterface`
(`debug/DebugInterface.cpp`). -/
structure DebugInterface where
  userAssertions : List Literal
  determinedAtLevelZero : List Var
  deriving DecidableEq, Repr

namespace DebugInterface

/-- The line that `saveHistory` appends for one assertion: the name of the variable, a space,
`true` or `false`, and a newline. -/
def historyLine (names : VariableNames) (assertion : Literal) : String :=
  names.getName assertion.getVariable ++ " " ++
    (if assertion.isPositive then "true" else "false") ++ "\n"

/-- The member `saveHistory`. `canOpen` tells whether the output file stream opens; the result
is the return value and the text written to the file, `none` when nothing is written. -/
def saveHistory (names : VariableNames) (canOpen : Bool) (d : DebugInterface) :
    Bool × Option String :=
  let ruleHistory := d.userAssertions.foldl (fun acc a => acc ++ historyLine names a) ""
  if !canOpen then (false, none) else (true, some ruleHistory)

/-! ### Reading a history file -/

/-- The constant `std::string::npos` of a 64-bit `size_t`. -/
def npos : Nat := 2 ^ 64 - 1

/-- The call `ruleHistory.find( " " )` of the standard library: the position of the first
space, `npos` when there is none. -/
def findSpace (line : List Char) : Nat :=
  if ' ' ∈ line then line.indexOf ' ' else npos

/-- The conversion of a `size_t` to the 32-bit `int` of `int pos = ...`: the value modulo
`2 ^ 32`, read in two's complement. -/
def toInt (n : Nat) : Int :=
  if n % 2 ^ 32 < 2 ^ 31 then ((n % 2 ^ 32 : Nat) : Int) else ((n % 2 ^ 32 : Nat) : Int) - 2 ^ 32

/-- The conversion of an `int` to the 64-bit `size_t` of the parameters of `substr`. -/
def toSize (i : Int) : Nat := (i % 2 ^ 64).toNat

/-- The call `substr( pos, count )` of the standard library: the characters from `pos` on, at
most `count` of them; `none` stands for the exception `std::out_of_range`, thrown when `pos` is
beyond the length. -/
def substr (s : List Char) (pos count : Nat) : Option (List Char) :=
  if pos > s.length then none else some ((s.drop pos).take count)

/-- The body of the `while` loop of `loadHistory` on one line. The outer `none` stands for an
exception of `substr`, the inner `none` for `return false`; otherwise the result is the pair
pushed onto `queryHistoryLoaded` and `answerHistoryLoaded`. The sum `pos + 1` is taken without
overflow (`pos` is `INT_MAX` only on a line of `2 ^ 31` characters or more). -/
def readLine (names : VariableNames) (ruleHistory : List Char) :
    Option (Option (Var × TruthValue)) :=
  let pos : Int := toInt (findSpace ruleHistory)
  match substr ruleHistory 0 (toSize pos) with
  | none => none
  | some name =>
    match names.getVariable (String.mk name) with
    | none => some none
    | some query =>
      match substr ruleHistory (toSize (pos + 1)) ruleHistory.length with
      | none => none
      | some answer =>
        if answer != "true".data && answer != "false".data then some none
        else
          some (some (query,
            if answer == "true".data then TruthValue.TRUE else TruthValue.FALSE))

/-- The `while` loop of `loadHistory` over the lines still to read, given the two vectors
`queryHistoryLoaded` and `answerHistoryLoaded` filled so far. The outer `none` stands for an
exception, the inner `none` for `return false`. -/
def loadHistoryLoop (names : VariableNames) :
    List (List Char) → List Var → List TruthValue →
      Option (Option (List Var × List TruthValue))
  | [], queryHistoryLoaded, answerHistoryLoaded =>
    some (some (queryHistoryLoaded, answerHistoryLoaded))
  | ruleHistory :: rest, queryHistoryLoaded, answerHistoryLoaded =>
    match readLine names ruleHistory with
    | none => none
    | some none => some none
    | some (some (query, answer)) =>
      loadHistoryLoop names rest (queryHistoryLoaded ++ [query]) (answerHistoryLoaded ++ [answer])

/-- The literal `Literal( query, answer == TRUE ? POSITIVE : NEGATIVE )` that the last loop of
`loadHistory` pushes. -/
def loadedAssertion (query : Var) (answer : TruthValue) : Literal :=
  ⟨query, !(answer == TruthValue.TRUE)⟩

/-- The member `loadHistory`. `file` is the content of the file, `none` when the input file
stream does not open. The result is the return value and the debugger afterwards; `none` stands
for an exception of `substr`. The last loop reads the two vectors, which have the same size,
at the same index. -/
def loadHistory (names : VariableNames) (file : Option String) (d : DebugInterface) :
    Option (Bool × DebugInterface) :=
  match file with
  | none => some (false, d)
  | some content =>
    match loadHistoryLoop names (getlines content.data) [] [] with
    | none => none
    | some none => some (false, d)
    | some (some (queryHistoryLoaded, answerHistoryLoaded)) =>
      some (true, { d with
        userAssertions := d.userAssertions ++
          List.zipWith loadedAssertion queryHistoryLoaded answerHistoryLoaded })

/-! ### The commands that change the assertions -/

/-- The member `isVariableContainedInLiterals`. -/
def isVariableContainedInLiterals (v : Var) (literals : List Literal) : Bool :=
  literals.any (fun literal => literal.getVariable == v)

/-- The member `isVariableDeterminedAtLevelZero`. -/
def isVariableDeterminedAtLevelZero (d : DebugInterface) (v : Var) : Bool :=
  d.determinedAtLevelZero.contains v

/-- The body of the loop of the command `ASSERT_VARIABLE` on one assertion of the user: an
assertion on a variable for which `isAssertion` holds, or which is determined at level 0, is
only reported; any other one is pushed onto `userAssertions`. The member `isAssertion` is
declared in `DebugInterface.h`, which is not among the sources: it is a parameter. -/
def assertVariable (isAssertion : DebugInterface → Var → Bool) (d : DebugInterface)
    (assertion : Literal) : DebugInterface :=
  if isAssertion d assertion.getVariable then d
  else if d.isVariableDeterminedAtLevelZero assertion.getVariable then d
  else { d with userAssertions := d.userAssertions ++ [assertion] }

/-- The effect of the command `ASSERT_VARIABLE` on the debugger, given the assertions that
`getAssertions` returned. -/
def assertVariables (isAssertion : DebugInterface → Var → Bool) (d : DebugInterface)
    (assertions : List Literal) : DebugInterface :=
  assertions.foldl (assertVariable isAssertion) d

/-- The effect of the command `UNDO_ASSERTION` on the debugger, given the index that
`chooseAssertionToUndo` returned. -/
def undoAssertion (d : DebugInterface) (undo : Nat) : DebugInterface :=
  if undo < d.userAssertions.length then
    { d with userAssertions := d.userAssertions.eraseIdx undo }
  else d

/-- No two user assertions are about the same variable. -/
def assertionsDistinct (d : DebugInterface) : Prop :=
  (d.userAssertions.map Literal.getVariable).Nodup

instance (d : DebugInterface) : Decidable d.assertionsDistinct := by
  unfold assertionsDistinct
  infer_instance

/-! ### Determination of the query variables -/

/-- The constant `QUERY_DETERMINATION_TIMEOUT`, in seconds. -/
def QUERY_DETERMINATION_TIMEOUT : Int := 3

end DebugInterface

/-- The procedures that `determineQueryVariableFounded` calls and that are not among the
sources: `coreMinimizer.minimizeUnsatCore( *solver.getUnsatCore(), level )`, given the solver,
which holds the core, and the level, returns the minimized core and the solver it leaves;
`time` gives the successive values of `time( NULL )`. -/
structure DebugCollaborators where
  minimizeUnsatCore : Solver → Nat → List Literal × Solver
  time : Nat → Int

/-- A recursive call of `determineQueryVariableFounded`, as seen from outside: the arguments
`level` and `parentAssumptions` it is given, and the `parentAssumptions` of the call that makes
it. -/
structure FoundedCall where
  level : Nat
  callerAssumptions : List Literal
  parentAssumptions : List Literal
  deriving DecidableEq, Repr

/-- What `determineQueryVariableFounded` reads and writes besides its arguments: the solver,
the map `variableEntropy` (an absent key counts as 0), the number of values of `time( NULL )`
read so far, and the recursive calls made so far. -/
structure QueryState where
  solver : Solver
  variableEntropy : Var → Int
  clockReadings : Nat
  calls : List FoundedCall

namespace DebugInterface

/-- The member `runSolver`: the assertions are put in front of the debug assumptions,
unsat-core computation is switched on and the solver is run. -/
def runSolver (ext : Collaborators) (s : Solver) (debugAssumptions assertions : List Literal) :
    Nat × Solver :=
  let r := Solver.solveUnderAssumptions ext { s with computeUnsatCores_ := true }
    (assertions ++ debugAssumptions)
  (r.1, r.2.1)

/-- The member `resetSolver`. -/
def resetSolver (ext : Collaborators) (s : Solver) : Solver :=
  (Solver.unrollToZero ext s).clearConflictStatus

/-- The vector `relaxedAssumptions` that `determineQueryVariableFounded` builds: the parent
assumptions whose variable is not the one of the literal to relax. -/
def relaxAssumptions (parentAssumptions : List Literal) (relaxLiteral : Literal) :
    List Literal :=
  parentAssumptions.filter (fun a => a.getVariable != relaxLiteral.getVariable)

/-- The loop of `determineQueryVariableFounded` over the variables `1 .. numberOfVariables`
after a model was found: the entropy of a true variable grows by one, the one of any other
variable shrinks by one. The `int` entropy is taken without overflow. -/
def recordEntropy (s : Solver) (variableEntropy : Var → Int) : Var → Int :=
  (List.range' 1 s.numberOfVariables).foldl
    (fun entropy v => Function.update entropy v
      (entropy v + (if s.variableStore.truthValue v == TruthValue.TRUE then 1 else -1)))
    variableEntropy

/-- The `for` loop of `determineQueryVariableFounded` over the core literals still to relax,
given the value of `numModels` so far. `recurse` stands for the recursive call, with the
arguments unsat core, state, parent assumptions and level; `none` is a recursive call that did
not return. On a timeout the loop returns at once. A literal whose removal leaves the
assumptions as they are is stepped over; if the solver finds a model under the relaxed
assumptions the model is counted and the entropies are updated; otherwise the new core is
minimized and relaxed in turn, one level deeper. `numModels` and `level` are `unsigned int`. -/
def determineQueryVariableFoundedLoop (ext : Collaborators) (dbg : DebugCollaborators)
    (d : DebugInterface) (startTime : Int)
    (recurse : List Literal → QueryState → List Literal → Nat → Option (Nat × QueryState))
    (parentAssumptions : List Literal) (level : Nat) :
    List Literal → Nat → QueryState → Option (Nat × QueryState)
  | [], numModels, st => some (numModels, st)
  | relaxLiteral :: rest, numModels, st =>
    let st1 := { st with clockReadings := st.clockReadings + 1 }
    if dbg.time st.clockReadings - startTime > QUERY_DETERMINATION_TIMEOUT then
      some (numModels, st1)
    else
      let relaxedAssumptions := relaxAssumptions parentAssumptions relaxLiteral
      if relaxedAssumptions.length == parentAssumptions.length then
        determineQueryVariableFoundedLoop ext dbg d startTime recurse parentAssumptions level
          rest numModels st1
      else
        let r := runSolver ext st1.solver relaxedAssumptions d.userAssertions
        if r.1 == COHERENT then
          determineQueryVariableFoundedLoop ext dbg d startTime recurse parentAssumptions level
            rest ((numModels + 1) % UINT_SIZE)
            { st1 with
              solver := resetSolver ext r.2
              variableEntropy := recordEntropy r.2 st1.variableEntropy }
        else
          let m := dbg.minimizeUnsatCore (resetSolver ext r.2) ((level + 1) % UINT_SIZE)
          match recurse m.1
              { st1 with
                solver := m.2
                calls := st1.calls ++
                  [⟨(level + 1) % UINT_SIZE, parentAssumptions, relaxedAssumptions⟩] }
              relaxedAssumptions ((level + 1) % UINT_SIZE) with
          | none => none
          | some (n, st2) =>
            determineQueryVariableFoundedLoop ext dbg d startTime recurse parentAssumptions
              level rest ((numModels + n) % UINT_SIZE) st2

/-- The member `determineQueryVariableFounded` with five parameters. `fuel` bounds the depth of
the recursion; the result is `none` when a call is needed at depth `fuel + 1`. Otherwise the
result is the returned `numModels` and the state afterwards. -/
def determineQueryVariableFounded (ext : Collaborators) (dbg : DebugCollaborators)
    (d : DebugInterface) (startTime : Int) :
    Nat → List Literal → QueryState → List Literal → Nat → Option (Nat × QueryState)
  | 0 => fun unsatCore st parentAssumptions level =>
    determineQueryVariableFoundedLoop ext dbg d startTime (fun _ _ _ _ => none)
      parentAssumptions level unsatCore 0 st
  | fuel + 1 => fun unsatCore st parentAssumptions level =>
    determineQueryVariableFoundedLoop ext dbg d startTime
      (determineQueryVariableFounded ext dbg d startTime fuel)
      parentAssumptions level unsatCore 0 st

end DebugInterface

/-! ## The output pager -/

/-- What `paginate` writes to the standard output: a line of the text (`cout << line << endl`)
or the question whether to go on (an empty line, the text `-- display more? (y/n)` and, once
the answer is read, the end of that line). -/
inductive PagerOutput where
  | line (text : List Char)
  | prompt
  deriving DecidableEq, Repr

/-- The local variables `printOutput` and `counter` of `paginate`, the number of lines read
from the standard input so far, and what has been written so far. -/
structure PagerState where
  printOutput : Bool
  counter : Nat
  answersRead : Nat
  written : List PagerOutput
  deriving DecidableEq, Repr

namespace OutputPager

/-- The `while` loop of `paginate` over the lines that `getline( stream, line )` still
delivers; it ends when `printOutput` is false. `user` gives the line that the standard input
delivers at each question. A line is written when fewer than `pageSize` lines were written
since the last question; otherwise the question is put, and the line is written and the counter
set to 1 when the answer is `y`. The `unsigned int` counter stays within `pageSize`. -/
def paginateLoop (pageSize : Nat) (user : Nat → String) :
    List (List Char) → PagerState → PagerState
  | [], st => st
  | line :: rest, st =>
    if !st.printOutput then st
    else if st.counter < pageSize then
      paginateLoop pageSize user rest
        { st with written := st.written ++ [PagerOutput.line line], counter := st.counter + 1 }
    else
      let userInput := user st.answersRead
      let st1 := { st with
        written := st.written ++ [PagerOutput.prompt], answersRead := st.answersRead + 1 }
      if userInput = "y" then
        paginateLoop pageSize user rest
          { st1 with written := st1.written ++ [PagerOutput.line line], counter := 1 }
      else paginateLoop pageSize user rest { st1 with printOutput := false }

/-- The member `paginate`, given the value of the static member `pageSize`: the state when it
returns. -/
def paginate (pageSize : Nat) (user : Nat → String) (output : String) : PagerState :=
  paginateLoop pageSize user (getlines output.data) ⟨true, 0, 0, []⟩

/-- The lines of the text among what was written, in the order of writing. -/
def linesWritten (written : List PagerOutput) : List (List Char) :=
  written.filterMap (fun o =>
    match o with
    | PagerOutput.line text => some text
    | PagerOutput.prompt => none)

end OutputPager

/-! ## Concrete states used to evaluate the functions -/

/-- A variable store over `n` variables in which the listed variables are true, the second
listed ones false, all at level 0 without implicant, and the others undefined. -/
def storeOf (n : Nat) (trues falses : List Var) : Variables where
  numberOfVariables := n
  truthValue := fun v =>
    if v ∈ trues then TruthValue.TRUE
    else if v ∈ falses then TruthValue.FALSE
    else TruthValue.UNDEFINED
  decisionLevel := fun _ => 0
  implicant := fun _ => none
  assumption := fun _ => false
  assignedVariables := trues ++ falses
  nextVariableToPropagate := (trues ++ falses).length

/-- The per-literal table of a solver with `n` variables after `n` calls of `addVariable`: two
null slots, then a fresh record for each literal. -/
def tableOf (n : Nat) : List (Option DataStructures) :=
  [none, none] ++ List.replicate (2 * n) (some DataStructures.new)

/-- One level with a single optimization literal `x1` of weight 5 that is auxiliary; `x1` is
true. -/
def auxCostState : Solver :=
  { Solver.new with
    variableStore := storeOf 1 [1] []
    variableDataStructures := tableOf 1
    precomputedCosts := [0]
    weighted_ := [true]
    optimizationLiterals := [[⟨⟨1, false⟩, 5, 0, false, true⟩]] }

/-- One level with precomputed cost 1 and a single optimization literal `x1` of weight
`2 ^ 64 - 1`, not auxiliary; `x1` is true. -/
def wrapCostState : Solver :=
  { Solver.new with
    variableStore := storeOf 1 [1] []
    variableDataStructures := tableOf 1
    precomputedCosts := [1]
    weighted_ := [true]
    optimizationLiterals := [[⟨⟨1, false⟩, 2 ^ 64 - 1, 0, false, false⟩]] }

/-- One level with precomputed cost 3 and the optimization literals `x1` (weight 5), `x2`
(weight 7, auxiliary) and `not x3` (weight 11); `x1` and `x2` are true, `x3` is false. -/
def costState : Solver :=
  { Solver.new with
    variableStore := storeOf 3 [1, 2] [3]
    variableDataStructures := tableOf 3
    precomputedCosts := [3]
    weighted_ := [true]
    optimizationLiterals :=
      [[⟨⟨1, false⟩, 5, 0, false, false⟩, ⟨⟨2, false⟩, 7, 0, false, true⟩,
        ⟨⟨3, true⟩, 11, 0, false, false⟩]] }

/-- A reference heuristic: the positive literal of the least undefined variable,
`Literal::null` when every variable is assigned. -/
def leastUndefined (s : Solver) : Literal :=
  match (List.range' 1 s.variableStore.numberOfVariables).find?
      (fun v => s.variableStore.truthValue v == TruthValue.UNDEFINED) with
  | some v => ⟨v, false⟩
  | none => Literal.null

/-- A reference search: it reports `INCOHERENT` when a conflict is already recorded (as after
the addition of an empty clause) and `COHERENT` otherwise, without changing the solver. -/
def sampleSearch (s : Solver) (_assumptions : List Literal) : Nat × Solver :=
  if s.conflictDetected then (INCOHERENT, s) else (COHERENT, s)

/-- Reference collaborators: the search `sampleSearch`, an `unroll` that only resets the level, a
final analysis that blames the conflict literal alone, the heuristic `leastUndefined`, a level-0
propagation without consequences, a cleanup that finds nothing to clean, a preprocessing that
succeeds, an import that appends the clause to the learned clauses, deletion policies that keep
one half of the learned clauses, an activity bump and propagation steps without effect on the
record. -/
def sampleCollaborators : Collaborators where
  solveWithoutPropagators := sampleSearch
  solvePropagators := sampleSearch
  unroll := fun s level => { s with currentDecisionLevel := level }
  analyzeFinal := fun _ l => { Clause.new with literals := [l] }
  makeAChoice := leastUndefined
  propagateAtLevelZero := fun s _ => s
  removeDuplicatesAndFalseAndCheckIfTautological := fun _ c => (false, c)
  newClauseAddr := fun _ => 0
  preprocessingAfterConflictCheck := fun s => (true, s)
  cleanAndAddLearnedClause := fun s c => (true, { s with learnedClauses := s.learnedClauses ++ [c] })
  simplifyOnRestart := fun s => s
  glucoseDeletion := fun s => { s with learnedClauses := s.learnedClauses.take (s.learnedClauses.length / 2) }
  minisatDeletion := fun s => { s with learnedClauses := s.learnedClauses.drop (s.learnedClauses.length / 2) }
  updateActivity := fun s c => (s, c)
  shortPropagation := fun s _ => s
  unitPropagation := fun s _ => s
  propagation := fun s _ => s
  postPropagation := fun s _ => s

/-- Four variables at level 0: `x1` and `x3` true, `x4` false, `x2` undefined; unsat cores are
computed. -/
def assumptionState : Solver :=
  { Solver.new with
    variableStore := storeOf 4 [1, 3] [4]
    variableDataStructures := tableOf 4
    computeUnsatCores_ := true }

/-- The per-literal table of a solver with `n` variables in which the literals whose index is
listed are marked as optimization literals. -/
def markedTableOf (n : Nat) (marked : List Nat) : List (Option DataStructures) :=
  [none, none] ++
    (List.range (2 * n)).map
      (fun i => some { DataStructures.new with isOptimizationLiteral_ := decide (i + 2 ∈ marked) })

/-- Three undefined variables and the unsat core `{x1, x2, x3}`, as left by a search under the
assumptions `[not x1, not x2, not x3]`; the literals whose index is listed are marked as
optimization literals. -/
def coreState (marked : List Nat) : Solver :=
  { Solver.new with
    variableStore := storeOf 3 [] []
    variableDataStructures := markedTableOf 3 marked
    computeUnsatCores_ := true
    unsatCore := some { Clause.new with literals := [⟨1, false⟩, ⟨2, false⟩, ⟨3, false⟩] } }

/-- A fresh solver to which the empty clause has been added: `addClause` has recorded
`Literal::conflict`. Unsat-core computation is off, as the constructor leaves it. -/
def emptyClauseAdded : Solver := { Solver.new with conflictLiteral := Literal.conflict }

/-- The solver `emptyClauseAdded` with unsat-core computation turned on by
`setComputeUnsatCores( true )`. -/
def emptyClauseAddedWithCores : Solver := { emptyClauseAdded with computeUnsatCores_ := true }

/-- Collaborators whose level-0 propagation finds every consequence contradictory: it records
`not x1` as conflict literal. -/
def conflictingCollaborators : Collaborators :=
  { sampleCollaborators with
    propagateAtLevelZero := fun s _ => { s with conflictLiteral := ⟨1, true⟩ } }

/-- A solver with three undefined variables and no clause, as after three calls of
`addVariable`. -/
def threeVariables : Solver :=
  { Solver.new with
    variableStore := storeOf 3 [] []
    variableDataStructures := tableOf 3 }

/-- The unit clause `(x2)`. -/
def unitClause : Clause := { Clause.new with addr := 1, literals := [⟨2, false⟩] }

/-- The clause `(x1 or not x2 or x3)`, at address 7. -/
def ternaryClause : Clause :=
  { Clause.new with addr := 7, literals := [⟨1, false⟩, ⟨2, true⟩, ⟨3, false⟩] }

/-- The clause `(x1 or not x1)`. -/
def tautologicalClause : Clause :=
  { Clause.new with addr := 3, literals := [⟨1, false⟩, ⟨1, true⟩] }

/-- Collaborators whose cleanup reports a clause as tautological when it holds a literal and
its complement. -/
def cleaningCollaborators : Collaborators :=
  { sampleCollaborators with
    removeDuplicatesAndFalseAndCheckIfTautological := fun _ c =>
      (c.literals.any (fun l => c.literals.contains l.getOppositeLiteral), c) }

/-- One level whose two optimization literals `x1` and `x2`, both true and not auxiliary, have
weight `2 ^ 63` each. -/
def halfCostState : Solver :=
  { Solver.new with
    variableStore := storeOf 2 [1, 2] []
    variableDataStructures := tableOf 2
    precomputedCosts := [0]
    weighted_ := [true]
    optimizationLiterals :=
      [[⟨⟨1, false⟩, 2 ^ 63, 0, false, false⟩, ⟨⟨2, false⟩, 2 ^ 63, 0, false, false⟩]] }

/-- A table of names: variable `v` is called `a` followed by `v` in decimal. -/
def sampleNames : VariableNames where
  getName := fun v => "a" ++ toString v
  getVariable := fun n =>
    if n.startsWith "a" then (n.drop 1).toNat? else none

/-- A debugger with the assertions `a1` true, `a2` false. -/
def sampleDebugger : DebugInterface := ⟨[⟨1, false⟩, ⟨2, true⟩], []⟩

/-- A solve under three assumptions in which two of them, `x1` and `x2`, have been decided: the
current decision level is 2, below the number of assumptions. -/
def restartState : Solver :=
  { Solver.new with
    currentDecisionLevel := 2
    unrollVector := [0, 1]
    numberOfAssumptions := 3
    incremental_ := true
    variableDataStructures := tableOf 3
    variableStore :=
      { storeOf 3 [1, 2] [] with
        decisionLevel := fun v => if v ≤ 2 then v else 0
        assumption := fun v => decide (1 ≤ v ∧ v ≤ 3) } }

/-- A solve under one assumption, `x1`, after two further decisions: the current decision level
is 3, above the number of assumptions. -/
def deepRestartState : Solver :=
  { Solver.new with
    currentDecisionLevel := 3
    unrollVector := [0, 1, 2]
    numberOfAssumptions := 1
    incremental_ := true
    variableDataStructures := tableOf 3
    variableStore :=
      { storeOf 3 [1, 2, 3] [] with
        decisionLevel := fun v => if v ≤ 3 then v else 0
        assumption := fun v => decide (v = 1) } }

/-- A solver with three variables and two optimization levels, as after `setLevels( 2 )`. -/
def twoLevels : Solver := threeVariables.setLevels 2

/-- Four variables with `x1` and `x2` false, `x3` and `x4` undefined, and a record for every
literal. -/
def watchState : Solver :=
  { Solver.new with
    variableStore := storeOf 4 [] [1, 2]
    variableDataStructures := tableOf 4 }

/-- The clause `(x1 or x3 or x2 or x4)`, at address 9, watched by `x1` and `x3`. -/
def watchedClause : Clause :=
  { Clause.new with
    addr := 9, literals := [⟨1, false⟩, ⟨3, false⟩, ⟨2, false⟩, ⟨4, false⟩] }

/-- The clause `(x3 or x1 or x2)`, at address 5, watched by `x3` and `x1`. -/
def unitWatchedClause : Clause :=
  { Clause.new with addr := 5, literals := [⟨3, false⟩, ⟨1, false⟩, ⟨2, false⟩] }

/-- Four variables with `x1` and `x2` false, `x4` true, `x3` undefined, and a record for every
literal. -/
def satisfiedWatchState : Solver :=
  { Solver.new with
    variableStore := storeOf 4 [4] [1, 2]
    variableDataStructures := tableOf 4 }

/-- The clause `(x3 or x1 or x2 or x4)`, at address 11, watched by `x3` and `x1`. -/
def satisfiedClause : Clause :=
  { Clause.new with
    addr := 11, literals := [⟨3, false⟩, ⟨1, false⟩, ⟨2, false⟩, ⟨4, false⟩] }

/-- Four variables, all false, variable `v` assigned at decision level `v`, none of them an
assumption; `permDiff` has the entry of the constructor and one entry per variable. -/
def lbdState : Solver :=
  { Solver.new with
    currentDecisionLevel := 4
    variableStore := { storeOf 4 [] [1, 2, 3, 4] with decisionLevel := fun v => v }
    variableDataStructures := tableOf 4
    glucoseData := { GlucoseData.init with permDiff := [0, 0, 0, 0, 0] } }

/-- The learned clause `(x1 or x2 or x3 or x4)`, at address 21, with the given stored LBD. -/
def learnedClauseOf (lbd : Nat) : Clause :=
  { Clause.new with
    addr := 21, literals := [⟨1, false⟩, ⟨2, false⟩, ⟨3, false⟩, ⟨4, false⟩], lbd := lbd }

/-- Three undefined variables and one stored clause, `(not x1 or x2 or not x3)` at address 8,
which records its position 0. -/
def storedClauseState : Solver :=
  { threeVariables with
    clauses :=
      [{ Clause.new with addr := 8, literals := [⟨1, true⟩, ⟨2, false⟩, ⟨3, true⟩] }] }

/-- Six variables with `x1` and `x2` false and the others undefined, and a record for every
literal. -/
def sixVariables : Solver :=
  { Solver.new with
    variableStore := storeOf 6 [] [1, 2]
    variableDataStructures := tableOf 6 }

/-- The clause `(x3 or x4 or x1 or x5 or x6)`, at address 13. -/
def longClause : Clause :=
  { Clause.new with
    addr := 13
    literals := [⟨3, false⟩, ⟨4, false⟩, ⟨1, false⟩, ⟨5, false⟩, ⟨6, false⟩] }

/-- Four undefined variables and the four clauses pushed by `addClause`, each recording its
position: `(x1 or x2 or x3)` at address 30, marked as deleted, `(x1 or not x2 or x3)` at address
31, `(not x1 or x4)` at address 32 and `(x2 or x3 or not x4)` at address 33. No watch is
attached. -/
def preprocessedState : Solver :=
  { Solver.new with
    variableStore := storeOf 4 [] []
    variableDataStructures := tableOf 4
    callSimplifications_ := false
    clauses :=
      [{ Clause.new with
          addr := 30, literals := [⟨1, false⟩, ⟨2, false⟩, ⟨3, false⟩], positionInSolver := 0,
          deleted := true },
        { Clause.new with
          addr := 31, literals := [⟨1, false⟩, ⟨2, true⟩, ⟨3, false⟩], positionInSolver := 1 },
        { Clause.new with
          addr := 32, literals := [⟨1, true⟩, ⟨4, false⟩], positionInSolver := 2 },
        { Clause.new with
          addr := 33, literals := [⟨2, false⟩, ⟨3, false⟩, ⟨4, true⟩], positionInSolver := 3 }] }

/-- Three undefined variables and the unsat core `{x1, x2}`, with budgets of 7 choices and 9
restarts. -/
def smallCoreState : Solver :=
  { Solver.new with
    variableStore := storeOf 3 [] []
    variableDataStructures := tableOf 3
    computeUnsatCores_ := true
    maxNumberOfChoices := 7
    maxNumberOfRestarts := 9
    unsatCore := some { Clause.new with literals := [⟨1, false⟩, ⟨2, false⟩] } }

/-- A solver with `x1` false at level 0 and no conflict recorded. -/
def falseLiteralState : Solver :=
  { Solver.new with
    variableStore := storeOf 1 [] [1]
    variableDataStructures := tableOf 1 }

/-- A table of names with the two variables `a1` and `a2`. -/
def twoNames : VariableNames where
  getName := fun v => if v = 1 then "a1" else if v = 2 then "a2" else ""
  getVariable := fun n => if n = "a1" then some 1 else if n = "a2" then some 2 else none

/-- A debugger without assertions. -/
def freshDebugger : DebugInterface := ⟨[], []⟩

/-- Collaborators whose search finds a model exactly when it is given no assumption. -/
def assumptionRefusingCollaborators : Collaborators :=
  { sampleCollaborators with
    solveWithoutPropagators := fun s assumptions =>
      if assumptions.isEmpty then (COHERENT, s) else (INCOHERENT, s)
    solvePropagators := fun s assumptions =>
      if assumptions.isEmpty then (COHERENT, s) else (INCOHERENT, s) }

/-- A core minimizer that always answers the core `{x2}`, and a clock that stands still. -/
def sampleDebugCollaborators : DebugCollaborators where
  minimizeUnsatCore := fun s _ => ([⟨2, false⟩], s)
  time := fun _ => 0

/-- The state at the start of a query determination on a solver with three undefined
variables. -/
def queryStart : QueryState := ⟨threeVariables, fun _ => 0, 0, []⟩

/-- A solver with the post-propagators 3 and 5 pending, added in this order, and the conflict
literal `x1` recorded. -/
def pendingState : Solver :=
  { Solver.new with postPropagators := [3, 5], conflictLiteral := ⟨1, false⟩ }

namespace Solver

/-! ## Cost of a model (C1) -/

/-- The sum of the weights that `computeCostOfModel` counts in a list of optimization literals:
those of the literals that are not auxiliary and are true. -/
theorem foldl_costStep (s : Solver) (l : List OptimizationLiteralData) :
    ∀ init : Nat, init < UINT64_SIZE →
      l.foldl (costStep s) init =
        (init + ((l.filter (fun o => !o.isAux && s.isTrue o.lit)).map (·.weight)).sum)
          % UINT64_SIZE := by
  induction l with
  | nil =>
    intro init hinit
    simp [Nat.mod_eq_of_lt hinit]
  | cons o l ih =>
    intro init hinit
    have hpos : 0 < UINT64_SIZE := by unfold UINT64_SIZE; positivity
    by_cases haux : o.isAux = true
    · simp [List.foldl_cons, costStep, haux, ih init hinit]
    · by_cases htrue : s.isTrue o.lit = true
      · have hstep : costStep s init o = (init + o.weight) % UINT64_SIZE := by
          simp [costStep, haux, htrue]
        rw [List.foldl_cons, hstep, ih _ (Nat.mod_lt _ hpos)]
        simp [haux, htrue, Nat.add_assoc]
      · simp [List.foldl_cons, costStep, haux, htrue, ih init hinit]

/-- C1 (as amended): for every level and every assignment, `computeCostOfModel( level )` returns,
modulo `2 ^ 64`, the precomputed cost of the level plus the sum of the weights of the
optimization literals of the level that are not auxiliary and whose literal is true. -/
theorem computeCostOfModel_eq (s : Solver) (level : Nat)
    (hpre : s.getPrecomputedCost level < UINT64_SIZE) :
    s.computeCostOfModel level =
      (s.getPrecomputedCost level +
        (((s.optimizationLiteralsOf level).filter
          (fun o => !o.isAux && s.isTrue o.lit)).map (·.weight)).sum) % UINT64_SIZE :=
  foldl_costStep s (s.optimizationLiteralsOf level) (s.getPrecomputedCost level) hpre

/-- Witness for C1: in `costState` the precomputed cost 3 and the weights 5 (x1) and 11 (not x3)
are counted, the auxiliary literal of weight 7 is not: the cost is 19. -/
theorem computeCostOfModel_eq_witness :
    costState.getPrecomputedCost 0 < UINT64_SIZE ∧ costState.computeCostOfModel 0 = 19 :=
  ⟨by decide, (computeCostOfModel_eq costState 0 (by decide)).trans (by decide)⟩

/-- Counterexample to C1 as stated: a true auxiliary literal of weight 5 is not counted (the code
returns 0, the claimed sum is 5), and a sum that passes `2 ^ 64 - 1` wraps around (the code
returns 0, the claimed sum is `2 ^ 64`). -/
theorem computeCostOfModel_not_all_true_literals :
    (auxCostState.computeCostOfModel 0 = 0 ∧
      auxCostState.getPrecomputedCost 0 +
        (((auxCostState.optimizationLiteralsOf 0).filter
          (fun o => auxCostState.isTrue o.lit)).map (·.weight)).sum = 5) ∧
    (wrapCostState.computeCostOfModel 0 = 0 ∧
      wrapCostState.getPrecomputedCost 0 +
        (((wrapCostState.optimizationLiteralsOf 0).filter
          (fun o => wrapCostState.isTrue o.lit)).map (·.weight)).sum = 2 ^ 64) := by
  decide

/-! ## Choice of the decision literal (C2, C3, C4) -/

theorem Variables_isFalse_of_isUndefined (vs : Variables) (l : Literal)
    (h : vs.isUndefined l = true) : vs.isFalse l = false := by
  unfold Variables.isUndefined at h
  unfold Variables.isFalse
  cases hn : l.negative <;> simp_all

theorem Variables_isTrue_of_isUndefined (vs : Variables) (l : Literal)
    (h : vs.isUndefined l = true) : vs.isTrue l = false := by
  unfold Variables.isUndefined at h
  unfold Variables.isTrue
  cases hn : l.negative <;> simp_all

theorem Variables_isUndefined_of_isTrue (vs : Variables) (l : Literal)
    (h : vs.isTrue l = true) : vs.isUndefined l = false := by
  unfold Variables.isTrue at h
  unfold Variables.isUndefined
  cases hn : l.negative <;> simp_all

theorem Variables_isFalse_of_isTrue (vs : Variables) (l : Literal)
    (h : vs.isTrue l = true) : vs.isFalse l = false := by
  unfold Variables.isTrue at h
  unfold Variables.isFalse
  cases hn : l.negative <;> simp_all

theorem Variables_isUndefined_of_isFalse (vs : Variables) (l : Literal)
    (h : vs.isFalse l = true) : vs.isUndefined l = false := by
  unfold Variables.isFalse at h
  unfold Variables.isUndefined
  cases hn : l.negative <;> simp_all

@[simp] theorem incrementCurrentDecisionLevel_variableStore (s : Solver) :
    s.incrementCurrentDecisionLevel.variableStore = s.variableStore := rfl

@[simp] theorem incrementLevels_variableStore (n : Nat) :
    ∀ s : Solver, (incrementLevels n s).variableStore = s.variableStore := by
  induction n with
  | zero => intro s; rfl
  | succ n ih => intro s; simp [incrementLevels, ih]

@[simp] theorem incrementLevels_currentDecisionLevel (n : Nat) :
    ∀ s : Solver,
      (incrementLevels n s).currentDecisionLevel = s.currentDecisionLevel + n := by
  induction n with
  | zero => intro s; rfl
  | succ n ih =>
    intro s
    simp only [incrementLevels, ih, incrementCurrentDecisionLevel]
    omega

@[simp] theorem incrementLevels_conflictLiteral (n : Nat) :
    ∀ s : Solver, (incrementLevels n s).conflictLiteral = s.conflictLiteral := by
  induction n with
  | zero => intro s; rfl
  | succ n ih => intro s; simp [incrementLevels, ih, incrementCurrentDecisionLevel]

@[simp] theorem incrementLevels_conflictClause (n : Nat) :
    ∀ s : Solver, (incrementLevels n s).conflictClause = s.conflictClause := by
  induction n with
  | zero => intro s; rfl
  | succ n ih => intro s; simp [incrementLevels, ih, incrementCurrentDecisionLevel]

@[simp] theorem incrementLevels_unsatCore (n : Nat) :
    ∀ s : Solver, (incrementLevels n s).unsatCore = s.unsatCore := by
  induction n with
  | zero => intro s; rfl
  | succ n ih => intro s; simp [incrementLevels, ih, incrementCurrentDecisionLevel]

@[simp] theorem incrementLevels_computeUnsatCores (n : Nat) :
    ∀ s : Solver, (incrementLevels n s).computeUnsatCores_ = s.computeUnsatCores_ := by
  induction n with
  | zero => intro s; rfl
  | succ n ih => intro s; simp [incrementLevels, ih, incrementCurrentDecisionLevel]

/-- With a choice already made and no false assumption left, the loop of `chooseLiteral` keeps
the choice and the state. -/
theorem chooseLiteralLoop_of_choice (ext : Collaborators) (l : List Literal) :
    ∀ (c : Literal) (s : Solver), c ≠ Literal.null →
      (∀ (i : Nat) (b : Literal), l[i]? = some b → s.isFalse b = false) →
      chooseLiteralLoop ext l c s = (some c, s) := by
  induction l with
  | nil => intro c s _ _; rfl
  | cons x l ih =>
    intro c s hc hnf
    have hx : s.isFalse x = false := hnf 0 x (by simp)
    have htl : ∀ (i : Nat) (b : Literal), l[i]? = some b → s.isFalse b = false := fun i b hb =>
      hnf (i + 1) b (by simpa using hb)
    by_cases hu : s.isUndefined x = true
    · simp [chooseLiteralLoop, hu, hc, ih c s hc htl]
    · simp [chooseLiteralLoop, hu, hx, hc, ih c s hc htl]

/-- Without a choice yet, the loop of `chooseLiteral` raises the level once for each true
assumption before the first undefined one, which becomes the choice. -/
theorem chooseLiteralLoop_first_undefined (ext : Collaborators) (l : List Literal) :
    ∀ (s : Solver) (j : Nat) (a : Literal), l[j]? = some a → s.isUndefined a = true →
      a ≠ Literal.null →
      (∀ (i : Nat) (b : Literal), i < j → l[i]? = some b → s.isUndefined b = false) →
      (∀ (i : Nat) (b : Literal), l[i]? = some b → s.isFalse b = false) →
      chooseLiteralLoop ext l Literal.null s = (some a, incrementLevels j s) := by
  induction l with
  | nil => intro s j a ha; simp at ha
  | cons x l ih =>
    intro s j a ha hu hn hleast hnf
    have htl : ∀ (i : Nat) (b : Literal), l[i]? = some b → s.isFalse b = false := fun i b hb =>
      hnf (i + 1) b (by simpa using hb)
    cases j with
    | zero =>
      have hxa : x = a := by simpa using ha
      subst hxa
      simp [chooseLiteralLoop, hu, incrementLevels, chooseLiteralLoop_of_choice ext l x s hn htl]
    | succ j =>
      have hxu : s.isUndefined x = false := hleast 0 x (Nat.succ_pos j) (by simp)
      have hxf : s.isFalse x = false := hnf 0 x (by simp)
      have ha2 : l[j]? = some a := by simpa using ha
      have hleast2 : ∀ (i : Nat) (b : Literal), i < j → l[i]? = some b →
          s.incrementCurrentDecisionLevel.isUndefined b = false := fun i b hi hb =>
        hleast (i + 1) b (Nat.succ_lt_succ hi) (by simpa using hb)
      have h := ih s.incrementCurrentDecisionLevel j a ha2 hu hn hleast2 htl
      simp [chooseLiteralLoop, hxu, hxf, incrementLevels, h]

/-- Without a choice yet and with true assumptions only, the loop of `chooseLiteral` raises the
level once for each assumption and ends without a choice. -/
theorem chooseLiteralLoop_all_true (ext : Collaborators) (l : List Literal) :
    ∀ s : Solver, (∀ (i : Nat) (b : Literal), l[i]? = some b → s.isTrue b = true) →
      chooseLiteralLoop ext l Literal.null s = (some Literal.null, incrementLevels l.length s) := by
  induction l with
  | nil => intro s _; rfl
  | cons x l ih =>
    intro s hall
    have hx : s.isTrue x = true := hall 0 x (by simp)
    have hxu : s.isUndefined x = false := Variables_isUndefined_of_isTrue _ _ hx
    have hxf : s.isFalse x = false := Variables_isFalse_of_isTrue _ _ hx
    have htl : ∀ (i : Nat) (b : Literal), l[i]? = some b → s.incrementCurrentDecisionLevel.isTrue b = true :=
      fun i b hb => hall (i + 1) b (by simpa using hb)
    simp [chooseLiteralLoop, hxu, hxf, incrementLevels, ih s.incrementCurrentDecisionLevel htl]

/-- The loop of `chooseLiteral` takes the exit `return false` exactly when one of the
assumptions it visits is false. -/
theorem chooseLiteralLoop_none_iff (ext : Collaborators) (l : List Literal) :
    ∀ (c : Literal) (s : Solver),
      (chooseLiteralLoop ext l c s).1 = none ↔ ∃ (i : Nat) (b : Literal), l[i]? = some b ∧ s.isFalse b = true := by
  induction l with
  | nil => intro c s; simp [chooseLiteralLoop]
  | cons x l ih =>
    intro c s
    have hsplit : (∃ (i : Nat) (b : Literal), (x :: l)[i]? = some b ∧ s.isFalse b = true) ↔
        (s.isFalse x = true ∨ ∃ (i : Nat) (b : Literal), l[i]? = some b ∧ s.isFalse b = true) := by
      constructor
      · rintro ⟨i, b, hb, hf⟩
        cases i with
        | zero =>
          have hxb : x = b := by simpa using hb
          exact Or.inl (hxb ▸ hf)
        | succ i => exact Or.inr ⟨i, b, by simpa using hb, hf⟩
      · rintro (hf | ⟨i, b, hb, hf⟩)
        · exact ⟨0, x, by simp, hf⟩
        · exact ⟨i + 1, b, by simpa using hb, hf⟩
    rw [hsplit]
    by_cases hu : s.isUndefined x = true
    · have hxf : s.isFalse x = false := Variables_isFalse_of_isUndefined _ _ hu
      simp [chooseLiteralLoop, hu, hxf, ih]
    · by_cases hf : s.isFalse x = true
      · simp [chooseLiteralLoop, hu, hf]
      · have h1 := ih c s
        have h2 := ih c s.incrementCurrentDecisionLevel
        have hsame : ∀ b, s.incrementCurrentDecisionLevel.isFalse b = s.isFalse b := fun _ => rfl
        simp only [hsame] at h2
        by_cases hc : c = Literal.null
        · subst hc
          simp [chooseLiteralLoop, hu, hf, h2]
        · simp [chooseLiteralLoop, hu, hf, hc, h1]

/-- The loop of `chooseLiteral` stops at the first false assumption it visits: that assumption
becomes the conflict literal of a state that differs from the initial one by level increments
only, and the unsat core is computed from it when unsat cores are enabled. -/
theorem chooseLiteralLoop_first_false (ext : Collaborators) (l : List Literal) :
    ∀ (c : Literal) (s : Solver) (j : Nat) (a : Literal), l[j]? = some a →
      s.isFalse a = true →
      (∀ (i : Nat) (b : Literal), i < j → l[i]? = some b → s.isFalse b = false) →
      ∃ m, m ≤ j ∧
        chooseLiteralLoop ext l c s =
          (none,
            if s.computeUnsatCores_ then
              computeUnsatCore ext { incrementLevels m s with conflictLiteral := a }
            else { incrementLevels m s with conflictLiteral := a }) := by
  induction l with
  | nil => intro c s j a ha; simp at ha
  | cons x l ih =>
    intro c s j a ha hf hbefore
    cases j with
    | zero =>
      have hxa : x = a := by simpa using ha
      subst hxa
      have hxu : s.isUndefined x = false := Variables_isUndefined_of_isFalse _ _ hf
      exact ⟨0, Nat.le_refl 0, by simp [chooseLiteralLoop, hxu, hf, incrementLevels]⟩
    | succ j =>
      have hxf : s.isFalse x = false := hbefore 0 x (Nat.succ_pos j) (by simp)
      have ha2 : l[j]? = some a := by simpa using ha
      have hbefore2 : ∀ (i : Nat) (b : Literal), i < j → l[i]? = some b → s.isFalse b = false :=
        fun i b hi hb => hbefore (i + 1) b (Nat.succ_lt_succ hi) (by simpa using hb)
      by_cases hu : s.isUndefined x = true
      · obtain ⟨m, hm, h⟩ := ih (if c = Literal.null then x else c) s j a ha2 hf hbefore2
        exact ⟨m, Nat.le_succ_of_le hm, by simp [chooseLiteralLoop, hu, h]⟩
      · by_cases hc : c = Literal.null
        · obtain ⟨m, hm, h⟩ := ih c s.incrementCurrentDecisionLevel j a ha2 hf hbefore2
          refine ⟨m + 1, Nat.succ_le_succ hm, ?_⟩
          simp only [chooseLiteralLoop, hu, hxf, hc, if_true, incrementLevels]
          rw [hc] at h
          simpa [incrementCurrentDecisionLevel] using h
        · obtain ⟨m, hm, h⟩ := ih c s j a ha2 hf hbefore2
          exact ⟨m, Nat.le_succ_of_le hm, by simp [chooseLiteralLoop, hu, hxf, hc, h]⟩

/-- The state after `setAChoice` of an undefined literal: one more level, the literal true at
the new level without implicant, its variable pushed onto the trail. -/
theorem setAChoice_of_isUndefined (s : Solver) (c : Literal) (h : s.isUndefined c = true) :
    s.setAChoice c =
      { s with
        currentDecisionLevel := s.currentDecisionLevel + 1
        unrollVector := s.unrollVector ++ [s.variableStore.numberOfAssignedLiterals]
        variableStore :=
          { s.variableStore with
            truthValue := fun v =>
              if v = c.var then (if c.negative then TruthValue.FALSE else TruthValue.TRUE)
              else s.variableStore.truthValue v
            decisionLevel := fun v =>
              if v = c.var then s.currentDecisionLevel + 1 else s.variableStore.decisionLevel v
            implicant := fun v => if v = c.var then none else s.variableStore.implicant v
            assignedVariables := s.variableStore.assignedVariables ++ [c.var] } } := by
  have hf : s.variableStore.isFalse c = false := Variables_isFalse_of_isUndefined _ _ h
  have ht : s.variableStore.isTrue c = false := Variables_isTrue_of_isUndefined _ _ h
  simp [setAChoice, assignLiteral, incrementCurrentDecisionLevel, Variables.assign, hf, ht]

/-- C2: if no assumption at an index at or above the current decision level `d` is false and `k`
is the least index at or above `d` whose assumption is undefined, `chooseLiteral` returns true,
makes `assumptions[k]` the decision literal (true, without implicant, pushed onto the trail) and
leaves the current decision level at `k + 1`, the level at which that assumption is decided. -/
theorem chooseLiteral_decides_undefined_assumption (ext : Collaborators) (s : Solver)
    (assumptions : List Literal) (k : Nat) (a : Literal)
    (hd : s.currentDecisionLevel ≤ k) (hk : assumptions[k]? = some a)
    (hundef : s.isUndefined a = true) (hnull : a ≠ Literal.null)
    (hleast : ∀ (j : Nat) (b : Literal), s.currentDecisionLevel ≤ j → j < k →
      assumptions[j]? = some b → s.isUndefined b = false)
    (hnofalse : ∀ (j : Nat) (b : Literal), s.currentDecisionLevel ≤ j →
      assumptions[j]? = some b → s.isFalse b = false) :
    (chooseLiteral ext s assumptions).1 = true ∧
    (chooseLiteral ext s assumptions).2.currentDecisionLevel = k + 1 ∧
    (chooseLiteral ext s assumptions).2.isTrue a = true ∧
    (chooseLiteral ext s assumptions).2.variableStore.implicant a.var = none ∧
    (chooseLiteral ext s assumptions).2.variableStore.decisionLevel a.var = k + 1 ∧
    (chooseLiteral ext s assumptions).2.variableStore.assignedVariables =
      s.variableStore.assignedVariables ++ [a.var] ∧
    (chooseLiteral ext s assumptions).2.conflictLiteral = s.conflictLiteral := by
  have hloop := chooseLiteralLoop_first_undefined ext (assumptions.drop s.currentDecisionLevel) s
    (k - s.currentDecisionLevel) a
    (by rw [List.getElem?_drop, Nat.add_sub_cancel' hd]; exact hk) hundef hnull
    (fun i b hi hb => hleast (s.currentDecisionLevel + i) b (Nat.le_add_right _ _) (by omega)
      (by rw [← List.getElem?_drop]; exact hb))
    (fun i b hb => hnofalse (s.currentDecisionLevel + i) b (Nat.le_add_right _ _)
      (by rw [← List.getElem?_drop]; exact hb))
  have hu2 : (incrementLevels (k - s.currentDecisionLevel) s).isUndefined a = true := by
    simpa [isUndefined] using hundef
  have hlevel : s.currentDecisionLevel + (k - s.currentDecisionLevel) + 1 = k + 1 := by omega
  simp only [chooseLiteral, hloop, ne_eq, hnull, not_false_eq_true, if_true,
    setAChoice_of_isUndefined _ a hu2]
  cases hneg : a.negative <;>
    simp [isTrue, Variables.isTrue, hneg, hlevel]

/-- Witness for C2: under the assumptions `[x1, x2, x3]` with `x1`, `x3` true and `x2` undefined,
`chooseLiteral` decides `x2` at level 2. -/
theorem chooseLiteral_decides_undefined_assumption_witness :
    (chooseLiteral sampleCollaborators assumptionState [⟨1, false⟩, ⟨2, false⟩, ⟨3, false⟩]).1
      = true ∧
    (chooseLiteral sampleCollaborators assumptionState
      [⟨1, false⟩, ⟨2, false⟩, ⟨3, false⟩]).2.currentDecisionLevel = 2 :=
  have h := chooseLiteral_decides_undefined_assumption sampleCollaborators assumptionState
    [⟨1, false⟩, ⟨2, false⟩, ⟨3, false⟩] 1 ⟨2, false⟩ (by decide) (by decide) (by decide)
    (by decide)
    (fun j b _ hj hb => by
      have hj0 : j = 0 := by omega
      subst hj0
      have hb1 : b = ⟨1, false⟩ := by simpa using hb.symm
      subst hb1
      decide)
    (fun j b _ hb =>
      (by decide : ∀ b ∈ [(⟨1, false⟩ : Literal), ⟨2, false⟩, ⟨3, false⟩],
        assumptionState.isFalse b = false) b (List.getElem?_mem hb))
  ⟨h.1, h.2.1⟩

/-- The assumptions visited by the loop of `chooseLiteral`, by their index in the vector. -/
theorem exists_drop_iff (l : List Literal) (d : Nat) (p : Literal → Prop) :
    (∃ (i : Nat) (b : Literal), (l.drop d)[i]? = some b ∧ p b) ↔
      ∃ (i : Nat) (a : Literal), d ≤ i ∧ l[i]? = some a ∧ p a := by
  constructor
  · rintro ⟨i, b, hb, hp⟩
    exact ⟨d + i, b, Nat.le_add_right _ _, by rw [← List.getElem?_drop]; exact hb, hp⟩
  · rintro ⟨i, a, hd, ha, hp⟩
    exact ⟨i - d, a, by rw [List.getElem?_drop, Nat.add_sub_cancel' hd]; exact ha, hp⟩

/-- C3: `chooseLiteral` returns false exactly when some assumption at an index at or above the
current decision level is false; the conflict literal is then the false assumption of lowest
such index, the assignment is unchanged (no decision literal is assigned), and when unsat-core
computation is enabled the core is the result of the final analysis of that literal. -/
theorem chooseLiteral_false_iff_false_assumption (ext : Collaborators) (s : Solver)
    (assumptions : List Literal) :
    ((chooseLiteral ext s assumptions).1 = false ↔
      ∃ (i : Nat) (a : Literal), s.currentDecisionLevel ≤ i ∧ assumptions[i]? = some a ∧
        s.isFalse a = true) ∧
    (∀ (i : Nat) (a : Literal), s.currentDecisionLevel ≤ i → assumptions[i]? = some a →
      s.isFalse a = true →
      (∀ (j : Nat) (b : Literal), s.currentDecisionLevel ≤ j → j < i →
        assumptions[j]? = some b → s.isFalse b = false) →
      (chooseLiteral ext s assumptions).1 = false ∧
      (chooseLiteral ext s assumptions).2.conflictLiteral = a ∧
      (chooseLiteral ext s assumptions).2.variableStore = s.variableStore ∧
      (s.computeUnsatCores_ = true →
        ∃ t : Solver, t.variableStore = s.variableStore ∧ t.conflictLiteral = a ∧
          (chooseLiteral ext s assumptions).2.unsatCore = some (ext.analyzeFinal t a)) ∧
      (s.computeUnsatCores_ = false →
        (chooseLiteral ext s assumptions).2.unsatCore = s.unsatCore)) := by
  constructor
  · rw [← exists_drop_iff assumptions s.currentDecisionLevel (fun b => s.isFalse b = true),
      ← chooseLiteralLoop_none_iff ext _ Literal.null s]
    unfold chooseLiteral
    rcases hres : chooseLiteralLoop ext (assumptions.drop s.currentDecisionLevel)
      Literal.null s with ⟨o, s1⟩
    cases o <;> simp
  · intro i a hd ha hf hbefore
    obtain ⟨m, _, hloop⟩ := chooseLiteralLoop_first_false ext
      (assumptions.drop s.currentDecisionLevel) Literal.null s (i - s.currentDecisionLevel) a
      (by rw [List.getElem?_drop, Nat.add_sub_cancel' hd]; exact ha) hf
      (fun j b hj hb => hbefore (s.currentDecisionLevel + j) b (Nat.le_add_right _ _)
        (by omega) (by rw [← List.getElem?_drop]; exact hb))
    unfold chooseLiteral
    rw [hloop]
    by_cases hflag : s.computeUnsatCores_ = true
    · refine ⟨rfl, ?_, ?_, ?_, ?_⟩
      · simp [hflag, computeUnsatCore]
      · simp [hflag, computeUnsatCore]
      · intro _
        exact ⟨{ incrementLevels m s with conflictLiteral := a }, by simp, rfl,
          by simp [hflag, computeUnsatCore]⟩
      · intro h; simp [hflag] at h
    · refine ⟨rfl, ?_, ?_, ?_, ?_⟩
      · simp [hflag]
      · simp [hflag]
      · intro h; exact absurd h hflag
      · intro _; simp [hflag]

/-- Witness for C3: under the assumptions `[x1, x4, x2]` with `x1` true and `x4` false,
`chooseLiteral` returns false with conflict literal `x4` and the core computed from `x4`. -/
theorem chooseLiteral_false_iff_false_assumption_witness :
    (chooseLiteral sampleCollaborators assumptionState [⟨1, false⟩, ⟨4, false⟩, ⟨2, false⟩]).1
      = false ∧
    (chooseLiteral sampleCollaborators assumptionState
      [⟨1, false⟩, ⟨4, false⟩, ⟨2, false⟩]).2.conflictLiteral = ⟨4, false⟩ :=
  have h := (chooseLiteral_false_iff_false_assumption sampleCollaborators assumptionState
    [⟨1, false⟩, ⟨4, false⟩, ⟨2, false⟩]).2 1 ⟨4, false⟩ (by decide) (by decide) (by decide)
    (fun j b _ hj hb => by
      have hj0 : j = 0 := by omega
      subst hj0
      have hb1 : b = ⟨1, false⟩ := by simpa using hb.symm
      subst hb1
      decide)
  ⟨h.1, h.2.1⟩

/-- C4: if every assumption at an index at or above the current decision level is true,
`chooseLiteral` returns true, leaves the conflict status and the unsat core untouched, and
decides the literal chosen by the heuristic (taken to be undefined, as the heuristic promises):
that literal alone is pushed onto the trail, its variable is the variable of none of these
assumptions, and each of them keeps its truth value, level and implicant. -/
theorem chooseLiteral_all_assumptions_true (ext : Collaborators) (s : Solver)
    (assumptions : List Literal)
    (hall : ∀ (i : Nat) (a : Literal), s.currentDecisionLevel ≤ i → assumptions[i]? = some a →
      s.isTrue a = true)
    (hheur : (incrementLevels (assumptions.length - s.currentDecisionLevel) s).isUndefined
      (ext.makeAChoice (incrementLevels (assumptions.length - s.currentDecisionLevel) s))
        = true) :
    (chooseLiteral ext s assumptions).1 = true ∧
    (chooseLiteral ext s assumptions).2.conflictLiteral = s.conflictLiteral ∧
    (chooseLiteral ext s assumptions).2.conflictClause = s.conflictClause ∧
    (chooseLiteral ext s assumptions).2.unsatCore = s.unsatCore ∧
    (chooseLiteral ext s assumptions).2.variableStore.assignedVariables =
      s.variableStore.assignedVariables ++
        [(ext.makeAChoice
          (incrementLevels (assumptions.length - s.currentDecisionLevel) s)).var] ∧
    (chooseLiteral ext s assumptions).2.isTrue
      (ext.makeAChoice (incrementLevels (assumptions.length - s.currentDecisionLevel) s))
        = true ∧
    (∀ (i : Nat) (a : Literal), s.currentDecisionLevel ≤ i → assumptions[i]? = some a →
      a.var ≠
        (ext.makeAChoice
          (incrementLevels (assumptions.length - s.currentDecisionLevel) s)).var ∧
      (chooseLiteral ext s assumptions).2.isTrue a = true ∧
      (chooseLiteral ext s assumptions).2.variableStore.decisionLevel a.var =
        s.variableStore.decisionLevel a.var ∧
      (chooseLiteral ext s assumptions).2.variableStore.implicant a.var =
        s.variableStore.implicant a.var) := by
  have hloop := chooseLiteralLoop_all_true ext (assumptions.drop s.currentDecisionLevel) s
    (fun i b hb => hall (s.currentDecisionLevel + i) b (Nat.le_add_right _ _)
      (by rw [← List.getElem?_drop]; exact hb))
  rw [List.length_drop] at hloop
  generalize hc : ext.makeAChoice
    (incrementLevels (assumptions.length - s.currentDecisionLevel) s) = c at hheur ⊢
  have hres : chooseLiteral ext s assumptions =
      (true, (incrementLevels (assumptions.length - s.currentDecisionLevel) s).setAChoice c) := by
    simp [chooseLiteral, hloop, hc]
  rw [hres, setAChoice_of_isUndefined _ c hheur]
  have hcu : s.variableStore.truthValue c.var = TruthValue.UNDEFINED := by
    simpa [isUndefined, Variables.isUndefined] using hheur
  refine ⟨rfl, by simp, by simp, by simp, by simp, ?_, ?_⟩
  · cases hneg : c.negative <;> simp [isTrue, Variables.isTrue, hneg]
  · intro i a hd ha
    have hat := hall i a hd ha
    have hne : a.var ≠ c.var := by
      intro heq
      have : s.variableStore.isUndefined a = false := Variables_isUndefined_of_isTrue _ _ hat
      simp [Variables.isUndefined, heq, hcu] at this
    refine ⟨hne, ?_, by simp [hne], by simp [hne]⟩
    simpa [isTrue, Variables.isTrue, hne] using hat

/-- Witness for C4: under the assumptions `[x1, x3]`, both true, `chooseLiteral` decides the
literal `x2` of the heuristic and records no conflict. -/
theorem chooseLiteral_all_assumptions_true_witness :
    (chooseLiteral sampleCollaborators assumptionState [⟨1, false⟩, ⟨3, false⟩]).1 = true ∧
    (chooseLiteral sampleCollaborators assumptionState
      [⟨1, false⟩, ⟨3, false⟩]).2.conflictLiteral = Literal.null :=
  have h := chooseLiteral_all_assumptions_true sampleCollaborators assumptionState
    [⟨1, false⟩, ⟨3, false⟩]
    (fun i a _ ha =>
      (by decide : ∀ b ∈ [(⟨1, false⟩ : Literal), ⟨3, false⟩],
        assumptionState.isTrue b = true) a (List.getElem?_mem ha))
    (by decide)
  ⟨h.1, h.2.1⟩

/-! ## Unsat core after `INCOHERENT` (C5) -/

@[simp] theorem setAssumption_unsatCore (s : Solver) (l : Literal) (b : Bool) :
    (s.setAssumption l b).unsatCore = s.unsatCore := rfl

@[simp] theorem setAssumption_variableDataStructures (s : Solver) (l : Literal) (b : Bool) :
    (s.setAssumption l b).variableDataStructures = s.variableDataStructures := rfl

@[simp] theorem clearAfterSolveUnderAssumptions_unsatCore (l : List Literal) :
    ∀ s : Solver, (s.clearAfterSolveUnderAssumptions l).unsatCore = s.unsatCore := by
  induction l with
  | nil => intro s; rfl
  | cons a l ih =>
    intro s
    simpa [clearAfterSolveUnderAssumptions] using ih (s.setAssumption a false)

@[simp] theorem clearAfterSolveUnderAssumptions_variableDataStructures (l : List Literal) :
    ∀ s : Solver,
      (s.clearAfterSolveUnderAssumptions l).variableDataStructures =
        s.variableDataStructures := by
  induction l with
  | nil => intro s; rfl
  | cons a l ih =>
    intro s
    simpa [clearAfterSolveUnderAssumptions] using ih (s.setAssumption a false)

@[simp] theorem clearConflictStatus_unsatCore (s : Solver) :
    s.clearConflictStatus.unsatCore = s.unsatCore := rfl

@[simp] theorem clearConflictStatus_variableDataStructures (s : Solver) :
    s.clearConflictStatus.variableDataStructures = s.variableDataStructures := rfl

theorem ensureUnsatCore_ne_none (s : Solver) : s.ensureUnsatCore.unsatCore ≠ none := by
  unfold ensureUnsatCore
  cases h : s.unsatCore <;> simp [h]

/-- The loop of `minimizeUnsatCore` on a state without unsat core does nothing. -/
theorem minimizeUnsatCoreLoop_none (ext : Collaborators) (s : Solver) (l : List Literal)
    (h : s.unsatCore = none) : minimizeUnsatCoreLoop ext s l = (s, l, []) := by
  rw [minimizeUnsatCoreLoop]
  split
  · rfl
  · rename_i core hcore
    rw [h] at hcore
    cases hcore

/-- The loop of `minimizeUnsatCore` on a core of at most two literals does nothing. -/
theorem minimizeUnsatCoreLoop_small (ext : Collaborators) (s : Solver) (l : List Literal)
    (core : Clause) (h : s.unsatCore = some core) (hsize : core.size ≤ 2) :
    minimizeUnsatCoreLoop ext s l = (s, l, []) := by
  rw [minimizeUnsatCoreLoop]
  split
  · rfl
  · rename_i core2 hcore
    have hc : core2 = core := by
      rw [h] at hcore
      exact (Option.some.inj hcore).symm
    subst hc
    simp [hsize]

/-- One turn of the loop of `minimizeUnsatCore` on a core of three or more literals: the search
is run on the prepared state, and the loop is taken again when the core got smaller. -/
theorem minimizeUnsatCoreLoop_large (ext : Collaborators) (s : Solver) (l : List Literal)
    (core : Clause) (h : s.unsatCore = some core) (hsize : 2 < core.size) :
    minimizeUnsatCoreLoop ext s l =
      if (ensureUnsatCore (runSearch ext (prepareResolve ext s l core).1
          (prepareResolve ext s l core).2).2).unsatCoreSize < core.size then
        ((minimizeUnsatCoreLoop ext
            (ensureUnsatCore (runSearch ext (prepareResolve ext s l core).1
              (prepareResolve ext s l core).2).2) (prepareResolve ext s l core).2).1,
          (minimizeUnsatCoreLoop ext
            (ensureUnsatCore (runSearch ext (prepareResolve ext s l core).1
              (prepareResolve ext s l core).2).2) (prepareResolve ext s l core).2).2.1,
          ⟨s, core, (prepareResolve ext s l core).1, (prepareResolve ext s l core).2⟩ ::
            (minimizeUnsatCoreLoop ext
              (ensureUnsatCore (runSearch ext (prepareResolve ext s l core).1
                (prepareResolve ext s l core).2).2) (prepareResolve ext s l core).2).2.2)
      else
        (ensureUnsatCore (runSearch ext (prepareResolve ext s l core).1
            (prepareResolve ext s l core).2).2,
          (prepareResolve ext s l core).2,
          [⟨s, core, (prepareResolve ext s l core).1, (prepareResolve ext s l core).2⟩]) := by
  rw [minimizeUnsatCoreLoop]
  split
  · rename_i hnone
    rw [h] at hnone
    cases hnone
  · rename_i core2 hcore
    have hc : core2 = core := by
      rw [h] at hcore
      exact (Option.some.inj hcore).symm
    subst hc
    simp [Nat.not_le.mpr hsize]

/-- The loop of `minimizeUnsatCore` never leaves the solver without an unsat core. -/
theorem minimizeUnsatCoreLoop_unsatCore_ne_none (ext : Collaborators) :
    ∀ (n : Nat) (s : Solver) (l : List Literal), s.unsatCoreSize = n → s.unsatCore ≠ none →
      (minimizeUnsatCoreLoop ext s l).1.unsatCore ≠ none := by
  intro n
  induction n using Nat.strong_induction_on with
  | _ n ih =>
    intro s l hn hs
    cases hcore : s.unsatCore with
    | none => exact absurd hcore hs
    | some core =>
      by_cases hsize : core.size ≤ 2
      · rw [minimizeUnsatCoreLoop_small ext s l core hcore hsize]
        exact hs
      · rw [minimizeUnsatCoreLoop_large ext s l core hcore (Nat.not_le.mp hsize)]
        have hsn : core.size = n := by simpa [unsatCoreSize, hcore] using hn
        split
        · rename_i hlt
          exact ih _ (hsn ▸ hlt) _ _ rfl (ensureUnsatCore_ne_none _)
        · exact ensureUnsatCore_ne_none _

/-- C5 (as amended): whenever `solve( assumptions )` returns `INCOHERENT` and unsat-core
computation is enabled when the search returns, `getUnsatCore()` afterwards returns a clause,
not the null pointer; it is the empty clause when the search derived no core. -/
theorem solve_incoherent_unsatCore_ne_none (ext : Collaborators) (s : Solver)
    (assumptions : List Literal)
    (hflag : (runSearch ext (prepareSolve s assumptions) assumptions).2.computeUnsatCores_
      = true)
    (hres : (solveUnderAssumptions ext s assumptions).1 = INCOHERENT) :
    (solveUnderAssumptions ext s assumptions).2.1.getUnsatCore ≠ none ∧
    ((runSearch ext (prepareSolve s assumptions) assumptions).2.unsatCore = none →
      (solveUnderAssumptions ext s assumptions).2.1.getUnsatCore = some Clause.new) := by
  have hres2 : (runSearch ext (prepareSolve s assumptions) assumptions).1 = INCOHERENT := hres
  simp only [solveUnderAssumptions, getUnsatCore, clearConflictStatus_unsatCore,
    clearAfterSolveUnderAssumptions_unsatCore, finishCore, hflag, hres2, beq_self_eq_true,
    Bool.and_self, if_true]
  cases hcore : (runSearch ext (prepareSolve s assumptions) assumptions).2.unsatCore with
  | none => simp
  | some core =>
    refine ⟨?_, fun h => by cases h⟩
    by_cases hmin :
        (runSearch ext (prepareSolve s assumptions) assumptions).2.minimizeUnsatCore_ = true
    · simp only [hmin, if_true, minimizeUnsatCore]
      exact minimizeUnsatCoreLoop_unsatCore_ne_none ext _ _ _ rfl (by simp [liftBudgets, hcore])
    · simp [hmin, hcore]

/-- Witness for C5: the empty clause has been added and unsat cores are enabled; the search
reports `INCOHERENT` without a core and the core afterwards is the empty clause. -/
theorem solve_incoherent_unsatCore_ne_none_witness :
    (solveUnderAssumptions sampleCollaborators emptyClauseAddedWithCores
      []).2.1.getUnsatCore = some Clause.new :=
  (solve_incoherent_unsatCore_ne_none sampleCollaborators emptyClauseAddedWithCores []
    (by decide) (by decide)).2 (by decide)

/-- Counterexample to C5 as stated: the empty clause has been added to a freshly constructed
solver (unsat-core computation is off by default); `solve( assumptions )` returns `INCOHERENT`
and leaves `getUnsatCore()` null, and so does `solve()`. -/
theorem solve_incoherent_without_unsatCore :
    ((solveUnderAssumptions sampleCollaborators emptyClauseAdded []).1 = INCOHERENT ∧
      (solveUnderAssumptions sampleCollaborators emptyClauseAdded []).2.1.getUnsatCore
        = none) ∧
    ((solve sampleCollaborators emptyClauseAdded).1 = INCOHERENT ∧
      (solve sampleCollaborators emptyClauseAdded).2.getUnsatCore = none) := by
  decide

/-! ## Assumptions of the re-solves of `minimizeUnsatCore` (C6) -/

theorem getDataStructure_congr (s t : Solver) (l : Literal)
    (h : s.variableDataStructures = t.variableDataStructures) :
    s.getDataStructure l = t.getDataStructure l := by
  simp [getDataStructure, h]

/-- The assumptions rebuilt from a core are the complements of the core literals that are
marked as optimization literals, in the order of the core. -/
theorem coreAssumptions_foldl (core : List Literal) :
    ∀ (s : Solver) (acc : List Literal),
      (core.foldl coreAssumptionsStep (s, acc)).2 =
      acc ++ (core.filter (fun l => (s.getDataStructure l).isOptLit)).map
        Literal.getOppositeLiteral := by
  induction core with
  | nil => intro s acc; simp
  | cons x core ih =>
    intro s acc
    by_cases hx : (s.getDataStructure x).isOptLit = true
    · have hsame : ∀ l, (s.setAssumption x.getOppositeLiteral true).getDataStructure l =
          s.getDataStructure l := fun l => getDataStructure_congr _ _ l rfl
      have hstep : coreAssumptionsStep (s, acc) x =
          (s.setAssumption x.getOppositeLiteral true, acc ++ [x.getOppositeLiteral]) := by
        simp [coreAssumptionsStep, hx]
      rw [List.foldl_cons, hstep, ih]
      simp [hx, hsame]
    · have hstep : coreAssumptionsStep (s, acc) x = (s, acc) := by
        simp [coreAssumptionsStep, hx]
      rw [List.foldl_cons, hstep, ih]
      simp [hx]

theorem coreAssumptions_eq (s : Solver) (core : List Literal) :
    (coreAssumptions s core).2 =
      (core.filter (fun l => (s.getDataStructure l).isOptLit)).map
        Literal.getOppositeLiteral := by
  simpa [coreAssumptions] using coreAssumptions_foldl core s []

theorem prepareResolve_assumptions (ext : Collaborators) (s : Solver) (l : List Literal)
    (core : Clause) :
    (prepareResolve ext s l core).2 =
      (core.literals.filter (fun x => (s.getDataStructure x).isOptLit)).map
        Literal.getOppositeLiteral := by
  have hsame : ∀ x, ((s.clearAfterSolveUnderAssumptions l).clearConflictStatus).getDataStructure x
      = s.getDataStructure x := fun x => getDataStructure_congr _ _ x (by simp)
  simp [prepareResolve, coreAssumptions_eq, hsame]

/-- Every re-solve listed by the loop of `minimizeUnsatCore` starts from a state holding the
listed core and is handed the complements of the core literals marked as optimization
literals. -/
theorem minimizeUnsatCoreLoop_resolves (ext : Collaborators) :
    ∀ (n : Nat) (s : Solver) (l : List Literal), s.unsatCoreSize = n →
      ∀ r ∈ (minimizeUnsatCoreLoop ext s l).2.2,
        r.before.unsatCore = some r.core ∧
        r.assumptions =
          (r.core.literals.filter (fun x => (r.before.getDataStructure x).isOptLit)).map
            Literal.getOppositeLiteral := by
  intro n
  induction n using Nat.strong_induction_on with
  | _ n ih =>
    intro s l hn r hr
    cases hcore : s.unsatCore with
    | none =>
      rw [minimizeUnsatCoreLoop_none ext s l hcore] at hr
      simp at hr
    | some core =>
      by_cases hsize : core.size ≤ 2
      · rw [minimizeUnsatCoreLoop_small ext s l core hcore hsize] at hr
        simp at hr
      · rw [minimizeUnsatCoreLoop_large ext s l core hcore (Nat.not_le.mp hsize)] at hr
        have hsn : core.size = n := by simpa [unsatCoreSize, hcore] using hn
        have hentry : ∀ r : Resolve,
            r = ⟨s, core, (prepareResolve ext s l core).1, (prepareResolve ext s l core).2⟩ →
            r.before.unsatCore = some r.core ∧
            r.assumptions =
              (r.core.literals.filter (fun x => (r.before.getDataStructure x).isOptLit)).map
                Literal.getOppositeLiteral := by
          intro r hr
          subst hr
          exact ⟨hcore, prepareResolve_assumptions ext s l core⟩
        split at hr
        · rename_i hlt
          rcases List.mem_cons.mp hr with h | h
          · exact hentry r h
          · exact ih _ (hsn ▸ hlt) _ _ rfl r h
        · exact hentry r (by simpa using hr)

/-- C6 (as amended): every re-solve of `minimizeUnsatCore` is run under exactly one assumption,
the complement of the core literal, for each literal of the current core that is marked as an
optimization literal, in the order of the core, and no others. -/
theorem minimizeUnsatCore_resolve_assumptions (ext : Collaborators) (s : Solver)
    (assumptions : List Literal) (r : Resolve)
    (hr : r ∈ (minimizeUnsatCore ext s assumptions).2.2) :
    r.before.unsatCore = some r.core ∧
    r.assumptions =
      (r.core.literals.filter (fun x => (r.before.getDataStructure x).isOptLit)).map
        Literal.getOppositeLiteral :=
  minimizeUnsatCoreLoop_resolves ext _ _ _ rfl r hr

/-- The first re-solve of `minimizeUnsatCore` on a core of three or more literals. -/
theorem minimizeUnsatCore_head (ext : Collaborators) (s : Solver) (l : List Literal)
    (core : Clause) (h : s.unsatCore = some core) (hsize : 2 < core.size) :
    (minimizeUnsatCore ext s l).2.2.head? =
      some ⟨s.liftBudgets, core, (prepareResolve ext s.liftBudgets l core).1,
        (prepareResolve ext s.liftBudgets l core).2⟩ := by
  simp only [minimizeUnsatCore]
  rw [minimizeUnsatCoreLoop_large ext s.liftBudgets l core h hsize]
  split <;> rfl

/-- Witness for C6: with `x1` and `x3` marked as optimization literals, the first re-solve on
the core `{x1, x2, x3}` is run under `[not x1, not x3]`. -/
theorem minimizeUnsatCore_resolve_assumptions_witness :
    (prepareResolve sampleCollaborators (coreState [2, 6]).liftBudgets
      [⟨1, true⟩, ⟨2, true⟩, ⟨3, true⟩]
      { Clause.new with literals := [⟨1, false⟩, ⟨2, false⟩, ⟨3, false⟩] }).2 =
      [⟨1, true⟩, ⟨3, true⟩] :=
  (minimizeUnsatCore_resolve_assumptions sampleCollaborators (coreState [2, 6])
    [⟨1, true⟩, ⟨2, true⟩, ⟨3, true⟩] _
    (List.mem_of_mem_head?
      (minimizeUnsatCore_head sampleCollaborators (coreState [2, 6])
        [⟨1, true⟩, ⟨2, true⟩, ⟨3, true⟩]
        { Clause.new with literals := [⟨1, false⟩, ⟨2, false⟩, ⟨3, false⟩] } rfl
        (by decide)))).2.trans (by decide)

/-- Counterexample to C6 as stated: on the core `{x1, x2, x3}` with no literal marked as an
optimization literal, the first re-solve is run under no assumption at all, not under
`[not x1, not x2, not x3]`. -/
theorem minimizeUnsatCore_resolve_without_assumptions :
    ((minimizeUnsatCore sampleCollaborators (coreState [])
      [⟨1, true⟩, ⟨2, true⟩, ⟨3, true⟩]).2.2.head?.map
        (fun r => (r.core.literals.map Literal.getOppositeLiteral, r.assumptions))) =
      some ([⟨1, true⟩, ⟨2, true⟩, ⟨3, true⟩], []) := by
  rw [minimizeUnsatCore_head sampleCollaborators (coreState [])
    [⟨1, true⟩, ⟨2, true⟩, ⟨3, true⟩]
    { Clause.new with literals := [⟨1, false⟩, ⟨2, false⟩, ⟨3, false⟩] } rfl (by decide)]
  decide

/-! ## Adding clauses (C7, C8, C9, C10) -/

theorem conflictDetected_of_conflict (s : Solver) (h : s.conflictLiteral = Literal.conflict) :
    s.conflictDetected = true := by
  simp [conflictDetected, h, Literal.conflict, Literal.null]

/-- C8: `addClause( literal )` returns true and changes nothing when the literal is already
true; when the literal is already false it returns false and leaves that literal recorded as
the conflict literal, without conflict clause and with the assignment unchanged. -/
theorem addClauseLiteral_true_or_false (ext : Collaborators) (fuel : Nat) (s : Solver)
    (literal : Literal) :
    (s.isTrue literal = true → addClauseLiteral ext fuel s literal = some (true, s)) ∧
    (s.isFalse literal = true → literal ≠ Literal.null →
      addClauseLiteral ext fuel s literal =
        some (false, { s with conflictLiteral := literal, conflictClause := none })) := by
  constructor
  · intro h
    simp [addClauseLiteral, h]
  · intro hf hn
    have hf2 : s.variableStore.isFalse literal = true := hf
    have ht : s.isTrue literal = false := by
      cases h : s.isTrue literal with
      | false => rfl
      | true =>
        have := Variables_isFalse_of_isTrue _ _ h
        rw [hf2] at this
        cases this
    have hassign : s.assignLiteral literal =
        { s with conflictLiteral := literal, conflictClause := none } := by
      simp [assignLiteral, Variables.assign, hf2]
    have hc : ({ s with conflictLiteral := literal, conflictClause := none } :
        Solver).conflictDetected = true := by
      simp [conflictDetected, hn]
    simp [addClauseLiteral, ht, propagateLiteralAsDeterministicConsequence, hassign, hc]

/-- Witness for C8: in `assumptionState`, `x1` is true and adding it changes nothing; `x4` is
false and adding it returns false with `x4` as conflict literal. -/
theorem addClauseLiteral_true_or_false_witness :
    addClauseLiteral sampleCollaborators 0 assumptionState ⟨1, false⟩ =
      some (true, assumptionState) ∧
    addClauseLiteral sampleCollaborators 0 assumptionState ⟨4, false⟩ =
      some (false,
        { assumptionState with conflictLiteral := ⟨4, false⟩, conflictClause := none }) :=
  ⟨(addClauseLiteral_true_or_false sampleCollaborators 0 assumptionState ⟨1, false⟩).1
      (by decide),
    (addClauseLiteral_true_or_false sampleCollaborators 0 assumptionState ⟨4, false⟩).2
      (by decide) (by decide)⟩

/-- C9: when the cleanup reports the clause as tautological, `cleanAndAddClause` returns true
and the solver is left exactly as it was: clause list, binary-implication, occurrence and watch
lists, assignment and conflict status are unchanged, and so is every set defined from them, the
set of models included. -/
theorem cleanAndAddClause_tautological (ext : Collaborators) (fuel : Nat) (s : Solver)
    (clause : Clause)
    (htaut : (ext.removeDuplicatesAndFalseAndCheckIfTautological s clause).1 = true) :
    cleanAndAddClause ext fuel s clause = some (true, s) ∧
    ∀ s', cleanAndAddClause ext fuel s clause = some (true, s') →
      s'.clauses = s.clauses ∧ s'.variableDataStructures = s.variableDataStructures ∧
      s'.variableStore = s.variableStore ∧ s'.conflictLiteral = s.conflictLiteral ∧
      s'.conflictClause = s.conflictClause := by
  have h : cleanAndAddClause ext fuel s clause = some (true, s) := by
    simp [cleanAndAddClause, htaut]
  refine ⟨h, fun s' hs' => ?_⟩
  rw [h] at hs'
  obtain ⟨_, rfl⟩ := Prod.mk.inj (Option.some.inj hs')
  exact ⟨rfl, rfl, rfl, rfl, rfl⟩

/-- Witness for C9: adding `(x1 or not x1)` to a solver with three variables leaves it as it
was. -/
theorem cleanAndAddClause_tautological_witness :
    cleanAndAddClause cleaningCollaborators 0 threeVariables tautologicalClause =
      some (true, threeVariables) :=
  (cleanAndAddClause_tautological cleaningCollaborators 0 threeVariables tautologicalClause
    (by decide)).1

theorem Literal_getIndex_inj (a b : Literal) (h : a.getIndex = b.getIndex) : a = b := by
  obtain ⟨va, na⟩ := a
  obtain ⟨vb, nb⟩ := b
  have h2 : @Eq Nat (2 * va + (if na = true then 1 else 0))
      (2 * vb + (if nb = true then 1 else 0)) := h
  clear h
  cases na <;> cases nb <;> simp only [Bool.false_eq_true, ↓reduceIte] at h2
  · have hv : @Eq Nat va vb := by omega
    rw [hv]
  · omega
  · omega
  · have hv : @Eq Nat va vb := by omega
    rw [hv]

/-- A write to the record of one literal is seen by a read of that literal and by no other. -/
theorem getDataStructure_modifyDataStructure (s : Solver) (x lit : Literal)
    (f : DataStructures → DataStructures) (hx : s.hasDataStructure x = true) :
    (s.modifyDataStructure x f).getDataStructure lit =
      if lit = x then f (s.getDataStructure x) else s.getDataStructure lit := by
  unfold hasDataStructure at hx
  rw [List.getD_eq_getElem?_getD] at hx
  cases hslot : s.variableDataStructures[x.getIndex]? with
  | none => simp [hslot] at hx
  | some o =>
    cases o with
    | none => simp [hslot] at hx
    | some d =>
      have hlt : x.getIndex < s.variableDataStructures.length := by
        rcases List.getElem?_eq_some.mp hslot with ⟨h, _⟩
        exact h
      by_cases hlx : lit = x
      · subst hlx
        simp [modifyDataStructure, getDataStructure, hslot, hlt]
      · have hidx : x.getIndex ≠ lit.getIndex := fun h =>
          hlx (Literal_getIndex_inj _ _ h.symm)
        simp [modifyDataStructure, getDataStructure, hslot, hlx, List.getElem?_set_ne hidx]

/-- A write to the record of one literal leaves every populated slot populated. -/
theorem hasDataStructure_modifyDataStructure (s : Solver) (x lit : Literal)
    (f : DataStructures → DataStructures) (h : s.hasDataStructure lit = true) :
    (s.modifyDataStructure x f).hasDataStructure lit = true := by
  unfold modifyDataStructure
  split
  · rename_i d hd
    unfold hasDataStructure at h ⊢
    rw [List.getD_eq_getElem?_getD] at h hd ⊢
    simp only [List.getElem?_set]
    by_cases hidx : x.getIndex = lit.getIndex
    · have hlt : x.getIndex < s.variableDataStructures.length := by
        cases hslot : s.variableDataStructures[x.getIndex]? with
        | none => simp [hslot] at hd
        | some o =>
          rcases List.getElem?_eq_some.mp hslot with ⟨h, _⟩
          exact h
      simp [hidx, hidx ▸ hlt]
    · simpa [hidx] using h
  · exact h

@[simp] theorem modifyDataStructure_clauses (s : Solver) (x : Literal)
    (f : DataStructures → DataStructures) : (s.modifyDataStructure x f).clauses = s.clauses := by
  unfold modifyDataStructure
  split <;> rfl

/-- After `attachClauseToAllLiterals`, the record of each literal holds the clause once more
for each occurrence of the literal in the clause, and is otherwise as before. -/
theorem attachClauseToAllLiterals_foldl (addr : Nat) (lits : List Literal) :
    ∀ s : Solver, (∀ l ∈ lits, s.hasDataStructure l = true) →
      (lits.foldl (fun t l => t.addClauseOccurrence l addr) s).clauses = s.clauses ∧
      ∀ lit : Literal,
        (lits.foldl (fun t l => t.addClauseOccurrence l addr) s).getDataStructure lit =
          { s.getDataStructure lit with
            variableAllOccurrences :=
              (s.getDataStructure lit).variableAllOccurrences ++
                List.replicate (lits.count lit) addr } := by
  induction lits with
  | nil => intro s _; simp
  | cons x lits ih =>
    intro s hpop
    have hx : s.hasDataStructure x = true := hpop x (by simp)
    have hpop2 : ∀ l ∈ lits, (s.addClauseOccurrence x addr).hasDataStructure l = true :=
      fun l hl => hasDataStructure_modifyDataStructure s x l _ (hpop l (by simp [hl]))
    obtain ⟨hcl, hds⟩ := ih (s.addClauseOccurrence x addr) hpop2
    refine ⟨by simpa [List.foldl_cons, addClauseOccurrence] using hcl, fun lit => ?_⟩
    rw [List.foldl_cons, hds lit]
    simp only [addClauseOccurrence, getDataStructure_modifyDataStructure s x lit _ hx]
    by_cases hlx : lit = x
    · subst hlx
      simp [List.replicate_succ]
    · have hxl : ¬ x = lit := fun h => hlx h.symm
      simp [hlx, List.count_cons, hxl]

/-- C10 (as amended): adding a clause of three or more literals through `addClause` returns
true, appends the clause, told its position, to the `clauses` list, and appends the clause to
the all-occurrences list of every one of its literals; the watch lists, also those of its first
two literals, are left as they were (they are filled later, by `attachWatches`). -/
theorem addClause_long_clause (ext : Collaborators) (fuel : Nat) (s : Solver) (clause : Clause)
    (hsize : 3 ≤ clause.size)
    (hpop : ∀ l ∈ clause.literals, s.hasDataStructure l = true) :
    addClause ext fuel s clause = some (true, s.attachAndPushClause clause) ∧
    (s.attachAndPushClause clause).clauses =
      s.clauses ++ [clause.setPositionInSolver s.clauses.length] ∧
    (∀ lit : Literal,
      ((s.attachAndPushClause clause).getDataStructure lit).variableAllOccurrences =
        (s.getDataStructure lit).variableAllOccurrences ++
          List.replicate (clause.literals.count lit) clause.addr) ∧
    (∀ lit : Literal,
      ((s.attachAndPushClause clause).getDataStructure lit).variableWatchedLists =
        (s.getDataStructure lit).variableWatchedLists) := by
  have h1 : clause.size > 1 := by omega
  have h2 : (clause.size != 2) = true := by
    simp only [bne_iff_ne, ne_eq]
    omega
  obtain ⟨hcl, hds⟩ := attachClauseToAllLiterals_foldl clause.addr clause.literals s hpop
  have hstate : s.attachAndPushClause clause =
      { s.attachClauseToAllLiterals clause with
        clauses := (s.attachClauseToAllLiterals clause).clauses ++
          [clause.setPositionInSolver (s.attachClauseToAllLiterals clause).clauses.length] } := by
    simp [attachAndPushClause, h2]
  have hget : ∀ lit, (s.attachAndPushClause clause).getDataStructure lit =
      (s.attachClauseToAllLiterals clause).getDataStructure lit := fun lit => by
    rw [hstate]
    exact getDataStructure_congr _ _ lit rfl
  refine ⟨by simp [addClause, h1], ?_, ?_, ?_⟩
  · rw [hstate]
    simp only [attachClauseToAllLiterals, hcl]
  · intro lit
    rw [hget lit]
    simp only [attachClauseToAllLiterals, hds lit]
  · intro lit
    rw [hget lit]
    simp only [attachClauseToAllLiterals, hds lit]

/-- Witness for C10: adding `(x1 or not x2 or x3)` to a solver with three variables puts the
clause on the `clauses` list and on the all-occurrences list of `not x2`. -/
theorem addClause_long_clause_witness :
    (threeVariables.attachAndPushClause ternaryClause).clauses =
      [ternaryClause.setPositionInSolver 0] ∧
    ((threeVariables.attachAndPushClause ternaryClause).getDataStructure
      ⟨2, true⟩).variableAllOccurrences = [7] :=
  have h := addClause_long_clause sampleCollaborators 0 threeVariables ternaryClause
    (by decide) (by decide)
  ⟨h.2.1, (h.2.2.1 ⟨2, true⟩).trans (by decide)⟩

/-- Counterexample to C10 as stated: after `addClause` of `(x1 or not x2 or x3)` the watch lists
of its first two literals `x1` and `not x2` are still empty; the clause (address 7) is on the
all-occurrences list of `x1` and on the `clauses` list. -/
theorem addClause_attaches_no_watch :
    (addClause sampleCollaborators 0 threeVariables ternaryClause).map
      (fun r =>
        (r.1, (r.2.getDataStructure ⟨1, false⟩).variableWatchedLists,
          (r.2.getDataStructure ⟨2, true⟩).variableWatchedLists,
          (r.2.getDataStructure ⟨1, false⟩).variableAllOccurrences,
          r.2.clauses.map (fun c => c.addr))) =
      some (true, [], [], [7], [7]) := by
  decide

/-! ## Literals of the input (C11) -/

/-- C11 (as amended): `getLiteral` checks no range. Whatever the number of variables of the
solver, it turns every integer into a literal: the positive literal of variable `lit` when
`lit > 0`, the negative literal of variable `-lit` otherwise, so that 0 gives the negative
literal of variable 0. -/
theorem getLiteral_unchecked (s : Solver) (lit : Int) :
    (s.getLiteral lit).getVariable = lit.natAbs ∧
    ((s.getLiteral lit).isPositive = true ↔ 0 < lit) ∧
    (lit = 0 → s.getLiteral lit = ⟨0, true⟩) ∧
    (s.numberOfVariables < lit.natAbs →
      s.numberOfVariables < (s.getLiteral lit).getVariable) := by
  have hvar : @Eq Nat (s.getLiteral lit).getVariable lit.natAbs := by
    by_cases h : 0 < lit
    · simp only [getLiteral, gt_iff_lt, h, ↓reduceIte, Literal.getVariable]
      show @Eq Nat lit.toNat lit.natAbs
      omega
    · simp only [getLiteral, gt_iff_lt, h, ↓reduceIte, Literal.getVariable]
      show @Eq Nat (-lit).toNat lit.natAbs
      omega
  refine ⟨hvar, ?_, ?_, ?_⟩
  · by_cases h : 0 < lit <;> simp [getLiteral, Literal.isPositive, h]
  · intro h
    subst h
    rfl
  · intro h
    rw [hvar]
    exact h

/-- Witness for C11: on a solver with three variables the id 7 becomes the literal `x7`. -/
theorem getLiteral_unchecked_witness :
    threeVariables.numberOfVariables < (threeVariables.getLiteral 7).getVariable :=
  (getLiteral_unchecked threeVariables 7).2.2.2 (by decide)

/-- Counterexample to C11 as stated: on a solver with three variables the ids 7, -7 and 0 are
not rejected: `getLiteral` returns the literals `x7`, `not x7` and the negative literal of
variable 0. -/
theorem getLiteral_out_of_range :
    threeVariables.numberOfVariables = 3 ∧
    threeVariables.getLiteral 7 = ⟨7, false⟩ ∧
    threeVariables.getLiteral (-7) = ⟨7, true⟩ ∧
    threeVariables.getLiteral 0 = ⟨0, true⟩ := by
  decide

/-! ## Wrap-around of the cost (C13) -/

end Solver

/-! ## The debugger's assertion history (C18) -/

namespace DebugInterface

/-- C18: `saveHistory` returns true iff the file could be opened; it then writes, for the user
assertions in order, one line per assertion made of the variable's name, one space, and `true`
for a positive assertion or `false` for a negative one, each line ended by a newline; when the
file cannot be opened nothing is written. -/
theorem saveHistory_writes_lines (names : VariableNames) (canOpen : Bool)
    (d : DebugInterface) :
    (saveHistory names canOpen d).1 = canOpen ∧
    (canOpen = true →
      (saveHistory names canOpen d).2 =
        some (String.join (d.userAssertions.map (fun a =>
          names.getName a.getVariable ++ " " ++
            (if a.negative then "false" else "true") ++ "\n")))) ∧
    (canOpen = false → (saveHistory names canOpen d).2 = none) := by
  have hline : ∀ a : Literal, historyLine names a =
      names.getName a.getVariable ++ " " ++ (if a.negative then "false" else "true") ++ "\n" := by
    intro a
    cases hn : a.negative <;> simp [historyLine, Literal.isPositive, hn]
  have hfold : d.userAssertions.foldl (fun acc a => acc ++ historyLine names a) "" =
      String.join (d.userAssertions.map (fun a =>
        names.getName a.getVariable ++ " " ++
          (if a.negative then "false" else "true") ++ "\n")) := by
    simp only [String.join, List.foldl_map, hline]
  cases canOpen
  · simp [saveHistory]
  · simp [saveHistory, hfold]

/-- Witness for C18: the assertions `a1` true and `a2` false are saved as two lines. -/
theorem saveHistory_writes_lines_witness :
    (saveHistory sampleNames true sampleDebugger).2 = some "a1 true\na2 false\n" :=
  ((saveHistory_writes_lines sampleNames true sampleDebugger).2.1 rfl).trans (by decide)

end DebugInterface

namespace Solver

/-! ## Level of a restart (C14) -/

/-- The import of learned clauses keeps the decision level when `cleanAndAddLearnedClause`
does. -/
theorem importLearnedClauses_currentDecisionLevel (ext : Collaborators)
    (himport : ∀ (t : Solver) (c : Clause),
      (ext.cleanAndAddLearnedClause t c).2.currentDecisionLevel = t.currentDecisionLevel)
    (l : List Clause) :
    ∀ s : Solver,
      (importLearnedClauses ext l s).2.currentDecisionLevel = s.currentDecisionLevel := by
  induction l with
  | nil => intro s; rfl
  | cons c rest ih =>
    intro s
    simp only [importLearnedClauses]
    split
    · rw [himport]
    · rw [ih, himport]

/-- C14 (as amended): on every restart (`doRestart`) the solver unrolls to the assumption
level, the number of assumptions of the current solve, when the current decision level is above
it, and to level 0 when the current decision level is at or below the assumption level. Here
`unroll` is taken to leave the solver at the level it is given and the import of learned
clauses to keep the level. -/
theorem doRestart_level (ext : Collaborators) (s : Solver)
    (hunroll : ∀ (t : Solver) (level : Nat), level ≤ t.currentDecisionLevel →
      (ext.unroll t level).currentDecisionLevel = level)
    (himport : ∀ (t : Solver) (c : Clause),
      (ext.cleanAndAddLearnedClause t c).2.currentDecisionLevel = t.currentDecisionLevel) :
    restartUnroll ext { s with numberOfRestarts := s.numberOfRestarts + 1 } =
      ext.unroll { s with numberOfRestarts := s.numberOfRestarts + 1 }
        (if s.currentDecisionLevel > s.numberOfAssumptions then s.numberOfAssumptions else 0) ∧
    (s.currentDecisionLevel > s.numberOfAssumptions →
      (doRestart ext s).2.currentDecisionLevel = s.numberOfAssumptions) ∧
    (s.currentDecisionLevel ≤ s.numberOfAssumptions →
      (doRestart ext s).2.currentDecisionLevel = 0) := by
  have hlevel : (doRestart ext s).2.currentDecisionLevel =
      (restartUnroll ext
        { s with numberOfRestarts := s.numberOfRestarts + 1 }).currentDecisionLevel := by
    simp only [doRestart]
    split
    · rw [importLearnedClauses_currentDecisionLevel ext himport]
    · rfl
  refine ⟨?_, ?_, ?_⟩
  · by_cases h : s.currentDecisionLevel > s.numberOfAssumptions <;> simp [restartUnroll, h]
  · intro h
    rw [hlevel]
    simp only [restartUnroll, h, ↓reduceIte]
    exact hunroll _ _ (Nat.le_of_lt h)
  · intro h
    rw [hlevel]
    simp only [restartUnroll, Nat.not_lt.mpr h, ↓reduceIte]
    exact hunroll _ _ (Nat.zero_le _)

/-- Witness for C14: from level 3 under one assumption the restart leaves level 1; from level 2
under three assumptions it leaves level 0. -/
theorem doRestart_level_witness :
    (doRestart sampleCollaborators deepRestartState).2.currentDecisionLevel = 1 ∧
    (doRestart sampleCollaborators restartState).2.currentDecisionLevel = 0 :=
  ⟨(doRestart_level sampleCollaborators deepRestartState (fun _ _ _ => rfl)
      (fun _ _ => rfl)).2.1 (by decide),
    (doRestart_level sampleCollaborators restartState (fun _ _ _ => rfl)
      (fun _ _ => rfl)).2.2 (by decide)⟩

/-- Counterexample to C14 as stated: under three assumptions, two of them decided (level 2), a
restart calls `unroll( 0 )` and leaves the solver at level 0, below the assumption level
`max( 0, 3 ) = 3`. -/
theorem doRestart_below_assumption_level :
    restartState.currentDecisionLevel = 2 ∧
    max 0 restartState.numberOfAssumptions = 3 ∧
    (doRestart sampleCollaborators restartState).1 = true ∧
    (doRestart sampleCollaborators restartState).2.currentDecisionLevel = 0 := by
  decide

/-! ## Number of re-solves of `minimizeUnsatCore` (C15) -/

/-- The re-solves listed by the loop of `minimizeUnsatCore`, started on a core of `n` literals:
there are at most `n - 2` of them, each starts from a core of more than two and at most `n`
literals, the first one starts from the initial state, and each further one starts from the
state left by the one before, whose core is strictly smaller. -/
theorem minimizeUnsatCoreLoop_bounded (ext : Collaborators) :
    ∀ (n : Nat) (s : Solver) (l : List Literal), s.unsatCoreSize = n →
      (minimizeUnsatCoreLoop ext s l).2.2.length ≤ n - 2 ∧
      (∀ r ∈ (minimizeUnsatCoreLoop ext s l).2.2, 2 < r.core.size ∧ r.core.size ≤ n) ∧
      (∀ r ∈ (minimizeUnsatCoreLoop ext s l).2.2.head?, r.before = s) ∧
      List.Chain'
        (fun a b : Resolve =>
          b.before = ensureUnsatCore (runSearch ext a.state a.assumptions).2 ∧
            b.core.size < a.core.size)
        (minimizeUnsatCoreLoop ext s l).2.2 := by
  intro n
  induction n using Nat.strong_induction_on with
  | _ n ih =>
    intro s l hn
    cases hcore : s.unsatCore with
    | none =>
      rw [minimizeUnsatCoreLoop_none ext s l hcore]
      simp
    | some core =>
      by_cases hsize : core.size ≤ 2
      · rw [minimizeUnsatCoreLoop_small ext s l core hcore hsize]
        simp
      · rw [minimizeUnsatCoreLoop_large ext s l core hcore (Nat.not_le.mp hsize)]
        have hsn : core.size = n := by simpa [unsatCoreSize, hcore] using hn
        split
        · rename_i hlt
          obtain ⟨hlen, hsizes, hhead, hchain⟩ := ih _ (hsn ▸ hlt) _
            (prepareResolve ext s l core).2 rfl
          refine ⟨?_, ?_, ?_, ?_⟩
          · simp only [List.length_cons]
            omega
          · intro r hr
            rcases List.mem_cons.mp hr with h | h
            · subst h
              exact ⟨Nat.not_le.mp hsize, Nat.le_of_eq hsn⟩
            · have := hsizes r h
              exact ⟨this.1, by omega⟩
          · intro r hr
            simp only [List.head?_cons, Option.mem_def, Option.some.injEq] at hr
            subst hr
            rfl
          · rw [List.chain'_cons']
            refine ⟨fun y hy => ⟨hhead y hy, ?_⟩, hchain⟩
            have := (hsizes y (List.mem_of_mem_head? hy)).2
            show y.core.size < core.size
            omega
        · refine ⟨?_, ?_, ?_, ?_⟩
          · simp only [List.length_singleton]
            omega
          · intro r hr
            have hr2 := List.mem_singleton.mp hr
            subst hr2
            exact ⟨Nat.not_le.mp hsize, Nat.le_of_eq hsn⟩
          · intro r hr
            simp only [List.head?_cons, Option.mem_def, Option.some.injEq] at hr
            subst hr
            rfl
          · exact List.chain'_singleton _

/-- C15: `minimizeUnsatCore` always returns; it runs at most `s - 2` re-solves on a core of
initial size `s` (none when `s` is at most 2), each of them on a core of more than two literals,
and a further re-solve is run only from the state left by the previous one and only if the core
that one produced is strictly smaller than the core it started from. -/
theorem minimizeUnsatCore_resolves_bounded (ext : Collaborators) (s : Solver)
    (assumptions : List Literal) :
    (minimizeUnsatCore ext s assumptions).2.2.length ≤ s.unsatCoreSize - 2 ∧
    (∀ r ∈ (minimizeUnsatCore ext s assumptions).2.2, 2 < r.core.size) ∧
    List.Chain'
      (fun a b : Resolve =>
        b.before = ensureUnsatCore (runSearch ext a.state a.assumptions).2 ∧
          b.core.size < a.core.size)
      (minimizeUnsatCore ext s assumptions).2.2 := by
  obtain ⟨hlen, hsizes, _, hchain⟩ :=
    minimizeUnsatCoreLoop_bounded ext _ s.liftBudgets assumptions rfl
  exact ⟨hlen, fun r hr => (hsizes r hr).1, hchain⟩

/-- Witness for C15: on the core `{x1, x2, x3}` at most one re-solve is run. -/
theorem minimizeUnsatCore_resolves_bounded_witness :
    (minimizeUnsatCore sampleCollaborators (coreState [])
      [⟨1, true⟩, ⟨2, true⟩, ⟨3, true⟩]).2.2.length ≤ 1 :=
  (minimizeUnsatCore_resolves_bounded sampleCollaborators (coreState [])
    [⟨1, true⟩, ⟨2, true⟩, ⟨3, true⟩]).1.trans (by decide)

/-! ## Registration of an optimization literal (C16) -/

@[simp] theorem modifyDataStructure_optimizationLiterals (s : Solver) (x : Literal)
    (f : DataStructures → DataStructures) :
    (s.modifyDataStructure x f).optimizationLiterals = s.optimizationLiterals := by
  unfold modifyDataStructure
  split <;> rfl

@[simp] theorem modifyDataStructure_precomputedCosts (s : Solver) (x : Literal)
    (f : DataStructures → DataStructures) :
    (s.modifyDataStructure x f).precomputedCosts = s.precomputedCosts := by
  unfold modifyDataStructure
  split <;> rfl

@[simp] theorem modifyDataStructure_weighted (s : Solver) (x : Literal)
    (f : DataStructures → DataStructures) :
    (s.modifyDataStructure x f).weighted_ = s.weighted_ := by
  unfold modifyDataStructure
  split <;> rfl

/-- The sizes of the three per-level vectors after `setLevels`. -/
theorem setLevels_lengths (n : Nat) :
    ∀ s : Solver,
      (s.setLevels n).optimizationLiterals.length = s.optimizationLiterals.length + n ∧
      (s.setLevels n).precomputedCosts.length = s.precomputedCosts.length + n ∧
      (s.setLevels n).weighted_.length = s.weighted_.length + n := by
  induction n with
  | zero => intro s; exact ⟨rfl, rfl, rfl⟩
  | succ n ih =>
    intro s
    obtain ⟨h1, h2, h3⟩ := ih
      { s with
        optimizationLiterals := s.optimizationLiterals ++ [[]]
        precomputedCosts := s.precomputedCosts ++ [0]
        weighted_ := s.weighted_ ++ [false] }
    simp only [setLevels, h1, h2, h3, List.length_append, List.length_singleton]
    omega

/-- C16: `addOptimizationLiteral( lit, weight, level, isAux )` with `level < numberOfLevels()`
appends exactly one entry (lit, weight, level, not removed, aux = isAux) at the end of the list
of that level, leaves the list of every other level and all precomputed costs unchanged, marks
`lit` as an optimization literal, and makes the level weighted iff it was already weighted or
`weight > 1`. The per-level vectors have the same size, as `setLevels` leaves them, the level
fits the 30-bit field that stores it, and `lit` is a literal of the solver. -/
theorem addOptimizationLiteral_appends (s : Solver) (lit : Literal) (weight level : Nat)
    (aux : Bool) (hlevel : level < s.numberOfLevels)
    (hweighted : s.weighted_.length = s.optimizationLiterals.length)
    (hfield : level < LEVEL_FIELD_SIZE) (hlit : s.hasDataStructure lit = true) :
    (s.addOptimizationLiteral lit weight level aux).optimizationLiteralsOf level =
      s.optimizationLiteralsOf level ++ [⟨lit, weight, level, false, aux⟩] ∧
    (∀ other : Nat, other ≠ level →
      (s.addOptimizationLiteral lit weight level aux).optimizationLiteralsOf other =
        s.optimizationLiteralsOf other) ∧
    (s.addOptimizationLiteral lit weight level aux).numberOfLevels = s.numberOfLevels ∧
    (s.addOptimizationLiteral lit weight level aux).precomputedCosts = s.precomputedCosts ∧
    ((s.addOptimizationLiteral lit weight level aux).getDataStructure lit).isOptLit = true ∧
    ((s.addOptimizationLiteral lit weight level aux).isWeighted level = true ↔
      (s.isWeighted level = true ∨ weight > 1)) ∧
    (∀ other : Nat, other ≠ level →
      (s.addOptimizationLiteral lit weight level aux).isWeighted other =
        s.isWeighted other) := by
  have hl : level < s.optimizationLiterals.length := hlevel
  have hw : level < s.weighted_.length := by rw [hweighted]; exact hl
  have hmod : level % LEVEL_FIELD_SIZE = level := Nat.mod_eq_of_lt hfield
  have hopt : (s.addOptimizationLiteral lit weight level aux).optimizationLiterals =
      s.optimizationLiterals.set level
        (s.optimizationLiteralsOf level ++ [⟨lit, weight, level, false, aux⟩]) := by
    simp only [addOptimizationLiteral, modifyDataStructure_optimizationLiterals, hmod]
    split <;> rfl
  have hwt : (s.addOptimizationLiteral lit weight level aux).weighted_ =
      if weight > 1 then s.weighted_.set level true else s.weighted_ := by
    simp only [addOptimizationLiteral, modifyDataStructure_weighted]
    split <;> rfl
  have hpc : (s.addOptimizationLiteral lit weight level aux).precomputedCosts =
      s.precomputedCosts := by
    simp only [addOptimizationLiteral, modifyDataStructure_precomputedCosts]
    split <;> rfl
  refine ⟨?_, ?_, ?_, hpc, ?_, ?_, ?_⟩
  · simp [optimizationLiteralsOf, hopt, hl]
  · intro other hne
    have hne2 : level ≠ other := fun h => hne h.symm
    simp [optimizationLiteralsOf, hopt, List.getElem?_set_ne hne2]
  · simp [numberOfLevels, hopt]
  · simp only [addOptimizationLiteral]
    rw [getDataStructure_modifyDataStructure _ lit lit _ (by split <;> exact hlit)]
    simp [DataStructures.setOptLit, DataStructures.isOptLit]
  · by_cases hgt : weight > 1
    · simp [isWeighted, hwt, hgt, hw]
    · simp [isWeighted, hwt, hgt]
  · intro other hne
    have hne2 : level ≠ other := fun h => hne h.symm
    by_cases hgt : weight > 1
    · simp [isWeighted, hwt, hgt, List.getElem?_set_ne hne2]
    · simp [isWeighted, hwt, hgt]

/-- Witness for C16: on a solver with two levels, the auxiliary literal `not x2` of weight 4 is
registered at level 1, which becomes weighted; level 0 is untouched. -/
theorem addOptimizationLiteral_appends_witness :
    (twoLevels.addOptimizationLiteral ⟨2, true⟩ 4 1 true).optimizationLiteralsOf 1 =
      [⟨⟨2, true⟩, 4, 1, false, true⟩] ∧
    (twoLevels.addOptimizationLiteral ⟨2, true⟩ 4 1 true).isWeighted 1 = true :=
  have h := addOptimizationLiteral_appends twoLevels ⟨2, true⟩ 4 1 true (by decide)
    (by decide) (by decide) (by decide)
  ⟨h.1.trans (by decide), h.2.2.2.2.2.1.mpr (Or.inr (by decide))⟩

/-! ## Growth of the per-variable tables (C17) -/

/-- One call of `addVariableInternal` adds one variable, two populated slots at the end of the
per-literal table and one entry of `permDiff`, and keeps what the table held. -/
theorem addVariableInternal_grows (s : Solver) :
    s.addVariableInternal.numberOfVariables = s.numberOfVariables + 1 ∧
    s.addVariableInternal.variableDataStructures.length =
      s.variableDataStructures.length + 2 ∧
    s.addVariableInternal.glucoseData.permDiff.length = s.glucoseData.permDiff.length + 1 ∧
    (∀ i : Nat, i < s.variableDataStructures.length →
      s.addVariableInternal.variableDataStructures[i]? = s.variableDataStructures[i]?) ∧
    s.addVariableInternal.variableDataStructures[s.variableDataStructures.length]? =
      some (some DataStructures.new) ∧
    s.addVariableInternal.variableDataStructures[s.variableDataStructures.length + 1]? =
      some (some DataStructures.new) := by
  refine ⟨rfl, by simp [addVariableInternal], by
    simp [addVariableInternal, GlucoseData.onNewVariable], ?_, ?_, ?_⟩
  · intro i hi
    simp only [addVariableInternal, List.append_assoc]
    rw [List.getElem?_append_left hi]
  · simp only [addVariableInternal, List.append_assoc]
    rw [List.getElem?_append_right (Nat.le_refl _)]
    simp
  · simp only [addVariableInternal, List.append_assoc]
    rw [List.getElem?_append_right (Nat.le_succ _)]
    simp

theorem tablesFor_addVariableInternal (n : Nat) (s : Solver) (h : tablesFor n s) :
    tablesFor (n + 1) s.addVariableInternal := by
  obtain ⟨h1, h2, h3, h4⟩ := h
  obtain ⟨g1, g2, g3, g4, g5, g6⟩ := addVariableInternal_grows s
  refine ⟨by rw [g1, h1], by rw [g2, h2]; omega, ?_, by rw [g3, h4]⟩
  intro i hi2 hi
  by_cases hlt : i < 2 * n + 2
  · rw [g4 i (by rw [h2]; exact hlt)]
    exact h3 i hi2 hlt
  · by_cases heq : i = 2 * n + 2
    · exact ⟨DataStructures.new, by rw [heq, ← h2]; exact g5⟩
    · have heq2 : i = 2 * n + 2 + 1 := by omega
      exact ⟨DataStructures.new, by rw [heq2, ← h2]; exact g6⟩

theorem tablesFor_addVariables (calls : List Bool) :
    ∀ (n : Nat) (s : Solver), tablesFor n s → tablesFor (n + calls.length) (s.addVariables calls) := by
  induction calls with
  | nil => intro n s h; exact h
  | cons c calls ih =>
    intro n s h
    have hstep : tablesFor (n + 1)
        (if c = true then s.addVariableRuntime else s.addVariable) := by
      cases c <;> exact tablesFor_addVariableInternal n s h
    have := ih (n + 1) _ hstep
    simp only [List.length_cons]
    rw [show n + (calls.length + 1) = n + 1 + calls.length by omega]
    exact this

/-- C17: after `n` calls of `addVariable` or `addVariableRuntime`, in any order, on a fresh
solver, `numberOfVariables()` is `n`, the per-literal table has `2 n + 2` slots in which both
literals of every variable `v` in `1 .. n` (indices `2 v` and `2 v + 1`) are populated, and
`permDiff` has `n + 1` entries; no call makes one of the three shrink, on any solver. -/
theorem addVariables_tables (calls : List Bool) :
    (Solver.new.addVariables calls).numberOfVariables = calls.length ∧
    (Solver.new.addVariables calls).variableDataStructures.length = 2 * calls.length + 2 ∧
    (∀ v : Var, 1 ≤ v → v ≤ calls.length →
      (Solver.new.addVariables calls).hasDataStructure ⟨v, false⟩ = true ∧
      (Solver.new.addVariables calls).hasDataStructure ⟨v, true⟩ = true) ∧
    (Solver.new.addVariables calls).glucoseData.permDiff.length = calls.length + 1 ∧
    (∀ s : Solver,
      s.numberOfVariables ≤ s.addVariable.numberOfVariables ∧
      s.variableDataStructures.length ≤ s.addVariable.variableDataStructures.length ∧
      s.glucoseData.permDiff.length ≤ s.addVariable.glucoseData.permDiff.length ∧
      s.numberOfVariables ≤ s.addVariableRuntime.numberOfVariables ∧
      s.variableDataStructures.length ≤ s.addVariableRuntime.variableDataStructures.length ∧
      s.glucoseData.permDiff.length ≤ s.addVariableRuntime.glucoseData.permDiff.length) := by
  have hnew : tablesFor 0 Solver.new :=
    ⟨rfl, rfl, fun i h2 hi => absurd hi (by omega), rfl⟩
  obtain ⟨h1, h2, h3, h4⟩ := tablesFor_addVariables calls 0 Solver.new hnew
  simp only [Nat.zero_add] at h1 h2 h3 h4
  refine ⟨h1, h2, ?_, h4, ?_⟩
  · intro v hv1 hvn
    have hv1' : @LE.le Nat _ 1 v := hv1
    have hvn' : @LE.le Nat _ v calls.length := hvn
    constructor
    · obtain ⟨d, hd⟩ := h3 (2 * v) (by omega) (by omega)
      simp [hasDataStructure, Literal.getIndex, hd]
    · obtain ⟨d, hd⟩ := h3 (2 * v + 1) (by omega) (by omega)
      simp [hasDataStructure, Literal.getIndex, hd]
  · intro s
    obtain ⟨g1, g2, g3, _⟩ := addVariableInternal_grows s
    simp only [addVariable, addVariableRuntime, g1, g2, g3]
    omega

/-- Witness for C17: after an `addVariable`, an `addVariableRuntime` and another `addVariable`
the literal `not x3` has its record. -/
theorem addVariables_tables_witness :
    (Solver.new.addVariables [false, true, false]).hasDataStructure ⟨3, true⟩ = true :=
  ((addVariables_tables [false, true, false]).2.2.1 3 (by decide) (by decide)).2

/-! ## Simplification of the optimization literals (C12) -/

theorem List_take_set_self {α : Type} (l : List α) (j : Nat) (a : α) :
    (l.set j a).take j = l.take j := by
  apply List.ext_getElem?
  intro i
  rw [List.getElem?_take, List.getElem?_take]
  split
  · rename_i h
    rw [List.getElem?_set_ne (by omega)]
  · rfl

/-- The invariant of the loop of `simplifyOptimizationLiterals` after the read indices below
`i`: the first `j` entries are the entries below `i` whose literal is not true, in order, the
entries from `i` on are untouched, and the cost has grown by the weights of the true ones. -/
theorem simplifyStep_foldl (s : Solver) (orig : List OptimizationLiteralData) (c0 : Nat)
    (hc0 : c0 < UINT64_SIZE) :
    ∀ i : Nat, i ≤ orig.length →
      ((List.range i).foldl (simplifyStep s) ⟨orig, 0, c0⟩).optLiterals.length = orig.length ∧
      ((List.range i).foldl (simplifyStep s) ⟨orig, 0, c0⟩).j ≤ i ∧
      ((List.range i).foldl (simplifyStep s) ⟨orig, 0, c0⟩).optLiterals.take
          ((List.range i).foldl (simplifyStep s) ⟨orig, 0, c0⟩).j =
        (orig.take i).filter (fun o => !s.isTrue o.lit) ∧
      ((List.range i).foldl (simplifyStep s) ⟨orig, 0, c0⟩).optLiterals.drop i =
        orig.drop i ∧
      ((List.range i).foldl (simplifyStep s) ⟨orig, 0, c0⟩).cost =
        (c0 + (((orig.take i).filter (fun o => s.isTrue o.lit)).map (·.weight)).sum)
          % UINT64_SIZE := by
  intro i
  induction i with
  | zero =>
    intro _
    simp [Nat.mod_eq_of_lt hc0]
  | succ i ih =>
    intro hi
    have hilt : i < orig.length := hi
    obtain ⟨hlen, hj, htake, hdrop, hcost⟩ := ih (Nat.le_of_lt hilt)
    rw [List.range_succ, List.foldl_append, List.foldl_cons, List.foldl_nil]
    generalize (List.range i).foldl (simplifyStep s) ⟨orig, 0, c0⟩ = st at hlen hj htake hdrop hcost
    obtain ⟨v, j, cost⟩ := st
    simp only at hlen hj htake hdrop hcost
    have hread : v[i]? = some orig[i] := by
      have h := congrArg (fun l => l[0]?) hdrop
      simp only [List.getElem?_drop, Nat.add_zero] at h
      rw [h, List.getElem?_eq_getElem hilt]
    have hjlt : j < v.length := by omega
    have hgetD : v.getD i noOptimizationLiteral = orig[i] := by
      simp [hread]
    have hwritten : (v.set j orig[i]).getD j noOptimizationLiteral = orig[i] := by
      simp [hjlt]
    have htake_succ : orig.take (i + 1) = orig.take i ++ [orig[i]] := by
      rw [List.take_succ, List.getElem?_eq_getElem hilt]
      rfl
    have hdrop_succ : (v.set j orig[i]).drop (i + 1) = orig.drop (i + 1) := by
      rw [List.drop_set_of_lt _ _ (by omega), ← List.drop_drop 1 i v, hdrop, List.drop_drop]
    by_cases htrue : s.isTrue orig[i].lit = true
    · have hstep : simplifyStep s ⟨v, j, cost⟩ i =
          ⟨v.set j orig[i], j, (cost + orig[i].weight) % UINT64_SIZE⟩ := by
        simp only [simplifyStep, hgetD, hwritten, htrue, ↓reduceIte]
      rw [hstep]
      refine ⟨by simp [hlen], (by show j ≤ i + 1; omega), ?_, hdrop_succ, ?_⟩
      · simp only [List_take_set_self, htake, htake_succ, List.filter_append]
        simp [htrue]
      · simp only [hcost, htake_succ, List.filter_append, List.map_append, List.sum_append]
        simp [htrue, Nat.add_assoc]
    · have hstep : simplifyStep s ⟨v, j, cost⟩ i = ⟨v.set j orig[i], j + 1, cost⟩ := by
        simp only [simplifyStep, hgetD, hwritten, htrue]
        rfl
      rw [hstep]
      refine ⟨by simp [hlen], (by show j + 1 ≤ i + 1; omega), ?_, hdrop_succ, ?_⟩
      · simp only
        rw [List.take_succ, List_take_set_self, htake, htake_succ, List.filter_append]
        simp [htrue, hjlt]
      · simp only [hcost, htake_succ, List.filter_append, List.map_append, List.sum_append]
        simp [htrue]

/-- C12 (as amended): for every level whose precomputed cost is 0,
`simplifyOptimizationLiterals( level )` leaves in the list of the level exactly the
optimization literals that are not true, in their original relative order, sets the
precomputed cost of the level to the sum, modulo `2 ^ 64`, of the weights of the removed (true)
literals, and returns that value; the other levels and the assignment are untouched. The two
per-level vectors have the same size, as `setLevels` leaves them. -/
theorem simplifyOptimizationLiterals_filters (s : Solver) (level : Nat)
    (hpre : s.getPrecomputedCost level = 0)
    (hsizes : s.precomputedCosts.length = s.optimizationLiterals.length) :
    (s.simplifyOptimizationLiterals level).2.optimizationLiteralsOf level =
      (s.optimizationLiteralsOf level).filter (fun o => !s.isTrue o.lit) ∧
    (s.simplifyOptimizationLiterals level).2.getPrecomputedCost level =
      ((((s.optimizationLiteralsOf level).filter
        (fun o => s.isTrue o.lit)).map (·.weight)).sum) % 2 ^ 64 ∧
    (s.simplifyOptimizationLiterals level).1 =
      (s.simplifyOptimizationLiterals level).2.getPrecomputedCost level ∧
    (∀ other : Nat, other ≠ level →
      (s.simplifyOptimizationLiterals level).2.optimizationLiteralsOf other =
        s.optimizationLiteralsOf other ∧
      (s.simplifyOptimizationLiterals level).2.getPrecomputedCost other =
        s.getPrecomputedCost other) ∧
    (s.simplifyOptimizationLiterals level).2.variableStore = s.variableStore := by
  have hc0 : s.getPrecomputedCost level < UINT64_SIZE := by
    rw [hpre]
    decide
  obtain ⟨_, _, htake, _, hcost⟩ := simplifyStep_foldl s (s.optimizationLiteralsOf level)
    (s.getPrecomputedCost level) hc0 (s.optimizationLiteralsOf level).length (Nat.le_refl _)
  rw [List.take_length] at htake hcost
  rw [hpre, Nat.zero_add] at hcost
  have hlist : (s.simplifyOptimizationLiterals level).2.optimizationLiterals =
      s.optimizationLiterals.set level
        ((s.optimizationLiteralsOf level).filter (fun o => !s.isTrue o.lit)) := by
    simp only [simplifyOptimizationLiterals, simplifyLoop, hpre] at htake ⊢
    rw [htake]
  have hcosts : (s.simplifyOptimizationLiterals level).2.precomputedCosts =
      s.precomputedCosts.set level
        (((((s.optimizationLiteralsOf level).filter
          (fun o => s.isTrue o.lit)).map (·.weight)).sum) % 2 ^ 64) := by
    simp only [simplifyOptimizationLiterals, simplifyLoop, hpre] at hcost ⊢
    rw [hcost]
    rfl
  refine ⟨?_, ?_, rfl, ?_, rfl⟩
  · by_cases hl : level < s.optimizationLiterals.length
    · simp [optimizationLiteralsOf, hlist, hl]
    · have hnone : s.optimizationLiterals[level]? = none :=
        List.getElem?_eq_none (Nat.not_lt.mp hl)
      simp [optimizationLiteralsOf, hlist, List.set_eq_of_length_le (Nat.not_lt.mp hl), hnone]
  · by_cases hl : level < s.optimizationLiterals.length
    · have hl2 : level < s.precomputedCosts.length := by rw [hsizes]; exact hl
      simp [getPrecomputedCost, hcosts, hl2]
    · have hnone : s.optimizationLiterals[level]? = none :=
        List.getElem?_eq_none (Nat.not_lt.mp hl)
      have hl2 : s.precomputedCosts.length ≤ level := by rw [hsizes]; exact Nat.not_lt.mp hl
      have hnone2 : s.precomputedCosts[level]? = none := List.getElem?_eq_none hl2
      simp [getPrecomputedCost, hcosts, List.set_eq_of_length_le hl2, hnone2,
        optimizationLiteralsOf, hnone]
  · intro other hne
    have hne2 : level ≠ other := fun h => hne h.symm
    constructor
    · simp [optimizationLiteralsOf, hlist, List.getElem?_set_ne hne2]
    · simp [getPrecomputedCost, hcosts, List.getElem?_set_ne hne2]

/-- Witness for C12: in `costState` with its precomputed cost reset to 0, the true literals `x1`
and `x2` (the latter auxiliary) are removed, `not x3`, true as well, too: the list becomes empty
and the precomputed cost 23. -/
theorem simplifyOptimizationLiterals_filters_witness :
    ({ costState with precomputedCosts := [0] }.simplifyOptimizationLiterals
      0).2.optimizationLiteralsOf 0 = [] ∧
    ({ costState with precomputedCosts := [0] }.simplifyOptimizationLiterals 0).1 = 23 :=
  have h := simplifyOptimizationLiterals_filters { costState with precomputedCosts := [0] } 0
    (by decide) (by decide)
  ⟨h.1.trans (by decide), h.2.2.1.trans (h.2.1.trans (by decide))⟩

/-- Counterexample to C12 as stated: with two true literals of weight `2 ^ 63` each, the sum of
the weights of the removed literals is `2 ^ 64`; `simplifyOptimizationLiterals` removes both,
sets the precomputed cost to 0 and returns 0. -/
theorem simplifyOptimizationLiterals_wraps :
    halfCostState.getPrecomputedCost 0 = 0 ∧
    (((halfCostState.optimizationLiteralsOf 0).filter
      (fun o => halfCostState.isTrue o.lit)).map (·.weight)).sum = 2 ^ 64 ∧
    (halfCostState.simplifyOptimizationLiterals 0).1 = 0 ∧
    (halfCostState.simplifyOptimizationLiterals 0).2.getPrecomputedCost 0 = 0 ∧
    (halfCostState.simplifyOptimizationLiterals 0).2.optimizationLiteralsOf 0 = [] := by
  decide

/-! ## A watch becomes false (C19, C20) -/

/-- The scan of `onLiteralFalse` finds nothing exactly when every literal scanned is false. -/
theorem firstNotFalse_eq_none (s : Solver) (l : List Literal) :
    ∀ k : Nat, firstNotFalse s l k = none ↔ ∀ x ∈ l, s.isFalse x = true := by
  induction l with
  | nil => intro k; simp [firstNotFalse]
  | cons x l ih =>
    intro k
    by_cases hx : s.isFalse x = true
    · simp [firstNotFalse, hx, ih]
    · simp [firstNotFalse, hx]

/-- The scan of `onLiteralFalse` stops at the first literal that is not false. -/
theorem firstNotFalse_eq_some (s : Solver) (l : List Literal) :
    ∀ (k j : Nat) (x : Literal), l[j]? = some x → s.isFalse x = false →
      (∀ (m : Nat) (y : Literal), m < j → l[m]? = some y → s.isFalse y = true) →
      firstNotFalse s l k = some (k + j) := by
  induction l with
  | nil => intro k j x hx; simp at hx
  | cons a l ih =>
    intro k j x hx hnf hleast
    cases j with
    | zero =>
      have hax : a = x := by simpa using hx
      subst hax
      simp [firstNotFalse, hnf]
    | succ j =>
      have ha : s.isFalse a = true := hleast 0 a (Nat.succ_pos j) (by simp)
      have hx2 : l[j]? = some x := by simpa using hx
      have h := ih (k + 1) j x hx2 hnf
        (fun m y hm hy => hleast (m + 1) y (Nat.succ_lt_succ hm) (by simpa using hy))
      simp only [firstNotFalse, ha, Bool.not_true, Bool.false_eq_true, ↓reduceIte, h]
      congr 1
      omega

/-- The result of `onLiteralFalse` on a clause `a, b, rest` one of whose watches `a`, `b` is the
literal: with the other watch in front, the clause is left as `other, literal, rest` when the
other watch is true or the scan of `rest` finds no literal that is not false, and has its
positions 1 and `i` exchanged, and its second watch attached, when the scan stops at `i`. -/
theorem onLiteralFalse_eq (s : Solver) (clause : Clause) (literal a b : Literal)
    (rest : List Literal) (hl : clause.literals = a :: b :: rest)
    (hwatch : literal = a ∨ literal = b) :
    onLiteralFalse s clause literal =
      if s.isTrue (if literal = a then b else a) then
        (false, s, { clause with literals := (if literal = a then b else a) :: literal :: rest })
      else
        match firstNotFalse s rest 2 with
        | some i =>
          (false,
            s.attachSecondWatch
              (Clause.swapLiteralsNoWatches
                { clause with literals := (if literal = a then b else a) :: literal :: rest }
                1 i),
            Clause.swapLiteralsNoWatches
              { clause with literals := (if literal = a then b else a) :: literal :: rest } 1 i)
        | none =>
          (true, s,
            { clause with literals := (if literal = a then b else a) :: literal :: rest }) := by
  obtain ⟨addr, lits, pos, del, lbd, cbd⟩ := clause
  simp only at hl
  subst hl
  by_cases hla : literal = a
  · subst hla
    simp [onLiteralFalse, Clause.getAt]
  · have hlb : literal = b := by
      rcases hwatch with h | h
      · exact absurd h hla
      · exact h
    subst hlb
    simp [onLiteralFalse, Clause.getAt, hla]

/-- The literals at the positions from 2 on of a clause `a, b, rest` are the literals of
`rest`. -/
theorem forall_positions_from_two (a b : Literal) (rest : List Literal) (p : Literal → Prop) :
    (∀ i : Nat, 2 ≤ i → i < (a :: b :: rest).length →
        p ((a :: b :: rest).getD i Literal.null)) ↔ ∀ x ∈ rest, p x := by
  constructor
  · intro h x hx
    obtain ⟨n, hn⟩ := List.mem_iff_getElem?.mp hx
    have hlt : n < rest.length := (List.getElem?_eq_some.mp hn).1
    have := h (n + 2) (by omega) (by simp only [List.length_cons]; omega)
    simpa [hn] using this
  · intro h i hi2 hilt
    obtain ⟨n, rfl⟩ : ∃ n, i = n + 2 := ⟨i - 2, by omega⟩
    have hlt : n < rest.length := by
      simp only [List.length_cons] at hilt
      omega
    have hmem : rest[n] ∈ rest := List.getElem_mem hlt
    simpa [List.getElem?_eq_getElem hlt] using h _ hmem

/-- C19: for a clause of size at least 2 and a false literal that is one of its two watches,
`onLiteralFalse` returns true exactly when the other watch is not true and every literal at a
position from 2 on is false; when it returns true the other watch is at position 0, the false
literal at position 1, every literal at a position other than 0 is false, and neither the size
of the clause nor the solver has changed. -/
theorem onLiteralFalse_true_iff (s : Solver) (clause : Clause) (literal : Literal)
    (hsize : 2 ≤ clause.size) (hfalse : s.isFalse literal = true)
    (hwatch : literal = clause.getAt 0 ∨ literal = clause.getAt 1) :
    ((onLiteralFalse s clause literal).1 = true ↔
      (s.isTrue (if literal = clause.getAt 0 then clause.getAt 1 else clause.getAt 0) = false ∧
        ∀ i : Nat, 2 ≤ i → i < clause.size → s.isFalse (clause.getAt i) = true)) ∧
    ((onLiteralFalse s clause literal).1 = true →
      (onLiteralFalse s clause literal).2.2.getAt 0 =
        (if literal = clause.getAt 0 then clause.getAt 1 else clause.getAt 0) ∧
      (onLiteralFalse s clause literal).2.2.getAt 1 = literal ∧
      (∀ i : Nat, 1 ≤ i → i < (onLiteralFalse s clause literal).2.2.size →
        s.isFalse ((onLiteralFalse s clause literal).2.2.getAt i) = true) ∧
      (onLiteralFalse s clause literal).2.2.size = clause.size ∧
      (onLiteralFalse s clause literal).2.1 = s) := by
  obtain ⟨a, b, rest, hl⟩ : ∃ a b rest, clause.literals = a :: b :: rest := by
    unfold Clause.size at hsize
    match h : clause.literals, hsize with
    | a :: b :: rest, _ => exact ⟨a, b, rest, rfl⟩
  have h0 : clause.getAt 0 = a := by simp [Clause.getAt, hl]
  have h1 : clause.getAt 1 = b := by simp [Clause.getAt, hl]
  rw [h0, h1] at hwatch
  have hpos : (∀ i : Nat, 2 ≤ i → i < clause.size → s.isFalse (clause.getAt i) = true) ↔
      ∀ x ∈ rest, s.isFalse x = true := by
    simp only [Clause.size, Clause.getAt, hl]
    exact forall_positions_from_two a b rest (fun x => s.isFalse x = true)
  rw [onLiteralFalse_eq s clause literal a b rest hl hwatch, h0, h1, hpos]
  generalize (if literal = a then b else a) = other
  by_cases hto : s.isTrue other = true
  · simp [hto]
  · have hto2 : s.isTrue other = false := by simpa using hto
    simp only [hto2, Bool.false_eq_true, ↓reduceIte, true_and]
    cases hscan : firstNotFalse s rest 2 with
    | some i =>
      have hnot : ¬ ∀ x ∈ rest, s.isFalse x = true := by
        intro h
        rw [(firstNotFalse_eq_none s rest 2).mpr h] at hscan
        cases hscan
      simp [hnot]
    | none =>
      have hall := (firstNotFalse_eq_none s rest 2).mp hscan
      refine ⟨by simpa using hall, fun _ => ⟨rfl, rfl, ?_, by simp [Clause.size, hl], rfl⟩⟩
      intro i hi1 hilt
      match i, hi1 with
      | 1, _ => simpa [Clause.getAt] using hfalse
      | n + 2, _ =>
        have hlt : n < rest.length := by
          simp only [Clause.size, List.length_cons] at hilt
          omega
        have hmem : rest[n] ∈ rest := List.getElem_mem hlt
        simpa [Clause.getAt, List.getElem?_eq_getElem hlt] using hall _ hmem

/-- Witness for C19: in the clause `(x3 or x1 or x2)` with `x1`, `x2` false and `x3` undefined,
the watch `x1` becomes false: `onLiteralFalse` returns true, `x3` stays in front. -/
theorem onLiteralFalse_true_iff_witness :
    (onLiteralFalse watchState unitWatchedClause ⟨1, false⟩).1 = true ∧
    (onLiteralFalse watchState unitWatchedClause ⟨1, false⟩).2.2.getAt 0 = ⟨3, false⟩ :=
  have h := onLiteralFalse_true_iff watchState unitWatchedClause ⟨1, false⟩ (by decide)
    (by decide) (Or.inr (by decide))
  have ht : (onLiteralFalse watchState unitWatchedClause ⟨1, false⟩).1 = true :=
    h.1.mpr ⟨by decide, by decide⟩
  ⟨ht, (h.2 ht).1.trans (by decide)⟩

/-- C20: when the other watch is not true and some literal at a position from 2 on is not
false, `onLiteralFalse` returns false after exchanging the false literal, at position 1, with
the non-false literal of lowest position `i` from 2 on, and adding the clause to the watch list
of the literal now at position 1; the other positions of the clause and the other watch lists
are as before. The literal found is a literal of the solver. -/
theorem onLiteralFalse_rewatches (s : Solver) (clause : Clause) (literal : Literal) (i : Nat)
    (hwatch : literal = clause.getAt 0 ∨ literal = clause.getAt 1)
    (hother : s.isTrue
      (if literal = clause.getAt 0 then clause.getAt 1 else clause.getAt 0) = false)
    (hi2 : 2 ≤ i) (hilt : i < clause.size)
    (hnotfalse : s.isFalse (clause.getAt i) = false)
    (hleast : ∀ m : Nat, 2 ≤ m → m < i → s.isFalse (clause.getAt m) = true)
    (hlit : s.hasDataStructure (clause.getAt i) = true) :
    (onLiteralFalse s clause literal).1 = false ∧
    (onLiteralFalse s clause literal).2.2.getAt 0 =
      (if literal = clause.getAt 0 then clause.getAt 1 else clause.getAt 0) ∧
    (onLiteralFalse s clause literal).2.2.getAt 1 = clause.getAt i ∧
    (onLiteralFalse s clause literal).2.2.getAt i = literal ∧
    (∀ m : Nat, 2 ≤ m → m ≠ i →
      (onLiteralFalse s clause literal).2.2.getAt m = clause.getAt m) ∧
    (onLiteralFalse s clause literal).2.2.size = clause.size ∧
    (onLiteralFalse s clause literal).2.2.addr = clause.addr ∧
    ((onLiteralFalse s clause literal).2.1.getDataStructure
        (clause.getAt i)).variableWatchedLists =
      (s.getDataStructure (clause.getAt i)).variableWatchedLists ++ [clause.addr] ∧
    (∀ lit : Literal, lit ≠ clause.getAt i →
      ((onLiteralFalse s clause literal).2.1.getDataStructure lit).variableWatchedLists =
        (s.getDataStructure lit).variableWatchedLists) := by
  obtain ⟨a, b, rest, hl⟩ : ∃ a b rest, clause.literals = a :: b :: rest := by
    have hsize : 2 ≤ clause.literals.length := by
      unfold Clause.size at hilt
      omega
    match h : clause.literals, hsize with
    | a :: b :: rest, _ => exact ⟨a, b, rest, rfl⟩
  obtain ⟨j, rfl⟩ : ∃ j, i = 2 + j := ⟨i - 2, by omega⟩
  have hjlt : j < rest.length := by
    simp only [Clause.size, hl, List.length_cons] at hilt
    omega
  have h0 : clause.getAt 0 = a := by simp [Clause.getAt, hl]
  have h1 : clause.getAt 1 = b := by simp [Clause.getAt, hl]
  have hgetAt : ∀ n : Nat, clause.getAt (2 + n) = rest.getD n Literal.null := by
    intro n
    simp [Clause.getAt, hl, Nat.add_comm 2 n]
  have hx : clause.getAt (2 + j) = rest[j] := by
    rw [hgetAt]
    simp [List.getElem?_eq_getElem hjlt]
  rw [h0, h1] at hwatch hother
  rw [hx] at hnotfalse hlit
  have hscan : firstNotFalse s rest 2 = some (2 + j) :=
    firstNotFalse_eq_some s rest 2 j rest[j] (List.getElem?_eq_getElem hjlt) hnotfalse
      (fun m y hm hy => by
        have h := hleast (2 + m) (by omega) (by omega)
        rw [hgetAt] at h
        simpa [hy] using h)
  rw [onLiteralFalse_eq s clause literal a b rest hl hwatch, h0, h1, hx]
  generalize (if literal = a then b else a) = other at hother ⊢
  simp only [hother, Bool.false_eq_true, ↓reduceIte, hscan]
  have hswap : Clause.swapLiteralsNoWatches
      { clause with literals := other :: literal :: rest } 1 (2 + j) =
      { clause with literals := other :: rest[j] :: rest.set j literal } := by
    simp [Clause.swapLiteralsNoWatches, Clause.getAt, Nat.add_comm 2 j,
      List.getElem?_eq_getElem hjlt]
  rw [hswap]
  have hwatched : s.attachSecondWatch
      { clause with literals := other :: rest[j] :: rest.set j literal } =
      s.addWatchedClause rest[j] clause.addr := by
    simp [attachSecondWatch, Clause.getAt]
  rw [hwatched]
  refine ⟨by trivial, by simp [Clause.getAt], by simp [Clause.getAt], ?_, ?_, ?_, by trivial,
    ?_, ?_⟩
  · simp [Clause.getAt, Nat.add_comm 2 j, hjlt]
  · intro m hm2 hmne
    obtain ⟨n, rfl⟩ : ∃ n, m = 2 + n := ⟨m - 2, by omega⟩
    have hne : j ≠ n := fun h => hmne (by rw [h])
    rw [hgetAt]
    simp [Clause.getAt, Nat.add_comm 2 n, List.getElem?_set_ne hne]
  · simp [Clause.size, hl]
  · simp only [addWatchedClause]
    rw [getDataStructure_modifyDataStructure s rest[j] rest[j] _ hlit]
    simp
  · intro lit hne
    simp only [addWatchedClause]
    rw [getDataStructure_modifyDataStructure s rest[j] lit _ hlit]
    simp [hne]

/-- Witness for C20: in the clause `(x1 or x3 or x2 or x4)` with `x1`, `x2` false and `x3`, `x4`
undefined, the watch `x1` becomes false: the clause becomes `(x3 or x4 or x2 or x1)` and is added
to the watch list of `x4`. -/
theorem onLiteralFalse_rewatches_witness :
    (onLiteralFalse watchState watchedClause ⟨1, false⟩).1 = false ∧
    (onLiteralFalse watchState watchedClause ⟨1, false⟩).2.2.literals =
      [⟨3, false⟩, ⟨4, false⟩, ⟨2, false⟩, ⟨1, false⟩] ∧
    ((onLiteralFalse watchState watchedClause ⟨1, false⟩).2.1.getDataStructure
      ⟨4, false⟩).variableWatchedLists = [9] :=
  have h := onLiteralFalse_rewatches watchState watchedClause ⟨1, false⟩ 3
    (Or.inl (by decide)) (by decide) (by decide) (by decide) (by decide)
    (fun m hm2 hm3 => by
      have hm : m = 2 := by omega
      subst hm
      decide)
    (by decide)
  ⟨h.1, by decide, h.2.2.2.2.2.2.2.1.trans (by decide)⟩

/-! ## The clause after `onLiteralFalse` (C21, C22, C23) -/

/-- The index found by the scan of `onLiteralFalse` is an index of the list scanned. -/
theorem firstNotFalse_lt (s : Solver) (l : List Literal) :
    ∀ k i : Nat, firstNotFalse s l k = some i → ∃ j : Nat, i = k + j ∧ j < l.length := by
  induction l with
  | nil => intro k i h; simp [firstNotFalse] at h
  | cons x l ih =>
    intro k i h
    simp only [firstNotFalse] at h
    split at h
    · exact ⟨0, by simpa using h.symm, by simp⟩
    · obtain ⟨j, hj, hlt⟩ := ih (k + 1) i h
      exact ⟨j + 1, by omega, by simp only [List.length_cons]; omega⟩

/-- The exchange of positions 1 and `2 + j` in a clause `a, b, rest`. -/
theorem swapLiteralsNoWatches_one (clause : Clause) (a b : Literal) (rest : List Literal)
    (j : Nat) (hj : j < rest.length) :
    Clause.swapLiteralsNoWatches { clause with literals := a :: b :: rest } 1 (2 + j) =
      { clause with literals := a :: rest[j] :: rest.set j b } := by
  simp [Clause.swapLiteralsNoWatches, Clause.getAt, Nat.add_comm 2 j,
    List.getElem?_eq_getElem hj]

/-- The result of `onLiteralFalse` on a clause `a, b, rest` one of whose watches is the literal,
when the other watch is not true and `rest[j]` is the first literal of `rest` that is not false:
the literal and `rest[j]` are exchanged and the clause is added to the watch list of
`rest[j]`. -/
theorem onLiteralFalse_found (s : Solver) (clause : Clause) (literal a b : Literal)
    (rest : List Literal) (j : Nat) (hl : clause.literals = a :: b :: rest)
    (hwatch : literal = a ∨ literal = b)
    (hother : s.isTrue (if literal = a then b else a) = false) (hj : j < rest.length)
    (hnotfalse : s.isFalse rest[j] = false)
    (hleast : ∀ (m : Nat) (y : Literal), m < j → rest[m]? = some y → s.isFalse y = true) :
    onLiteralFalse s clause literal =
      (false, s.addWatchedClause rest[j] clause.addr,
        { clause with
          literals := (if literal = a then b else a) :: rest[j] :: rest.set j literal }) := by
  have hscan : firstNotFalse s rest 2 = some (2 + j) :=
    firstNotFalse_eq_some s rest 2 j rest[j] (List.getElem?_eq_getElem hj) hnotfalse hleast
  rw [onLiteralFalse_eq s clause literal a b rest hl hwatch]
  generalize (if literal = a then b else a) = other at hother ⊢
  simp only [hother, Bool.false_eq_true, ↓reduceIte, hscan]
  rw [swapLiteralsNoWatches_one clause other literal rest j hj]
  simp [attachSecondWatch, Clause.getAt]

/-- C22: for a clause whose other watch is not true and whose only literal that is not false,
among the positions from 2 on, is the literal at position `i`, which is true, `onLiteralFalse`
does change the watches: it returns false, the true literal comes to position 1 and the false
watch to position `i`, and the clause is added to the watch list of the true literal; the other
watch is at position 0 and the other watch lists are as before. -/
theorem onLiteralFalse_watches_true_literal (s : Solver) (clause : Clause) (literal : Literal)
    (i : Nat) (hwatch : literal = clause.getAt 0 ∨ literal = clause.getAt 1)
    (hother : s.isTrue
      (if literal = clause.getAt 0 then clause.getAt 1 else clause.getAt 0) = false)
    (hi2 : 2 ≤ i) (hilt : i < clause.size) (htrue : s.isTrue (clause.getAt i) = true)
    (honly : ∀ m : Nat, 2 ≤ m → m < clause.size → m ≠ i → s.isFalse (clause.getAt m) = true)
    (hlit : s.hasDataStructure (clause.getAt i) = true) :
    (onLiteralFalse s clause literal).1 = false ∧
    (onLiteralFalse s clause literal).2.2.getAt 0 =
      (if literal = clause.getAt 0 then clause.getAt 1 else clause.getAt 0) ∧
    (onLiteralFalse s clause literal).2.2.getAt 1 = clause.getAt i ∧
    (onLiteralFalse s clause literal).2.2.getAt i = literal ∧
    ((onLiteralFalse s clause literal).2.1.getDataStructure
        (clause.getAt i)).variableWatchedLists =
      (s.getDataStructure (clause.getAt i)).variableWatchedLists ++ [clause.addr] ∧
    (∀ lit : Literal, lit ≠ clause.getAt i →
      ((onLiteralFalse s clause literal).2.1.getDataStructure lit).variableWatchedLists =
        (s.getDataStructure lit).variableWatchedLists) := by
  obtain ⟨a, b, rest, hl⟩ : ∃ a b rest, clause.literals = a :: b :: rest := by
    have hsize : 2 ≤ clause.literals.length := by
      unfold Clause.size at hilt
      omega
    match h : clause.literals, hsize with
    | a :: b :: rest, _ => exact ⟨a, b, rest, rfl⟩
  obtain ⟨j, rfl⟩ : ∃ j, i = 2 + j := ⟨i - 2, by omega⟩
  have hjlt : j < rest.length := by
    simp only [Clause.size, hl, List.length_cons] at hilt
    omega
  have h0 : clause.getAt 0 = a := by simp [Clause.getAt, hl]
  have h1 : clause.getAt 1 = b := by simp [Clause.getAt, hl]
  have hgetAt : ∀ n : Nat, clause.getAt (2 + n) = rest.getD n Literal.null := by
    intro n
    simp [Clause.getAt, hl, Nat.add_comm 2 n]
  have hx : clause.getAt (2 + j) = rest[j] := by
    rw [hgetAt]
    simp [List.getElem?_eq_getElem hjlt]
  rw [h0, h1] at hwatch hother
  rw [hx] at htrue hlit
  have hnotfalse : s.isFalse rest[j] = false := Variables_isFalse_of_isTrue _ _ htrue
  have hfound := onLiteralFalse_found s clause literal a b rest j hl hwatch hother hjlt hnotfalse
    (fun m y hm hy => by
      have hmlt : m < rest.length := (List.getElem?_eq_some.mp hy).1
      have h := honly (2 + m) (by omega)
        (by simp only [Clause.size, hl, List.length_cons]; omega) (by omega)
      rw [hgetAt] at h
      simpa [hy] using h)
  rw [hfound, h0, h1, hx]
  refine ⟨by trivial, by simp [Clause.getAt], by simp [Clause.getAt], ?_, ?_, ?_⟩
  · simp [Clause.getAt, Nat.add_comm 2 j, hjlt]
  · simp only [addWatchedClause]
    rw [getDataStructure_modifyDataStructure s rest[j] rest[j] _ hlit]
    simp
  · intro lit hne
    simp only [addWatchedClause]
    rw [getDataStructure_modifyDataStructure s rest[j] lit _ hlit]
    simp [hne]

/-- Witness for C22: the clause `(x3 or x1 or x2 or x4)` with `x1`, `x2` false, `x3` undefined
and `x4` true, when the watch `x1` becomes false: `x4` comes to position 1 and the clause is
added to the watch list of `x4`. -/
theorem onLiteralFalse_watches_true_literal_witness :
    (onLiteralFalse satisfiedWatchState satisfiedClause ⟨1, false⟩).1 = false ∧
    (onLiteralFalse satisfiedWatchState satisfiedClause ⟨1, false⟩).2.2.getAt 1 = ⟨4, false⟩ ∧
    ((onLiteralFalse satisfiedWatchState satisfiedClause ⟨1, false⟩).2.1.getDataStructure
      ⟨4, false⟩).variableWatchedLists = [11] :=
  have h := onLiteralFalse_watches_true_literal satisfiedWatchState satisfiedClause ⟨1, false⟩ 3
    (Or.inr (by decide)) (by decide) (by decide) (by decide) (by decide)
    (fun m hm2 hm4 hm3 => by
      have hm : m = 2 := by
        have h4 : m < 4 := hm4
        omega
      subst hm
      decide)
    (by decide)
  ⟨h.1, h.2.2.1.trans (by decide), h.2.2.2.2.1.trans (by decide)⟩

/-- Counterexample for C22: in the clause `(x3 or x1 or x2 or x4)` the other watch `x3` is not
true, `x2` is false and `x4` is true; when the watch `x1` becomes false the literal at position
1 changes from `x1` to `x4` and the watch list of `x4` changes from empty to the clause. -/
theorem onLiteralFalse_moves_watch_to_true_literal :
    satisfiedWatchState.isTrue ⟨3, false⟩ = false ∧
    satisfiedWatchState.isFalse ⟨2, false⟩ = true ∧
    satisfiedWatchState.isTrue ⟨4, false⟩ = true ∧
    satisfiedClause.getAt 1 = ⟨1, false⟩ ∧
    (onLiteralFalse satisfiedWatchState satisfiedClause ⟨1, false⟩).2.2.getAt 1 = ⟨4, false⟩ ∧
    (satisfiedWatchState.getDataStructure ⟨4, false⟩).variableWatchedLists = [] ∧
    ((onLiteralFalse satisfiedWatchState satisfiedClause ⟨1, false⟩).2.1.getDataStructure
      ⟨4, false⟩).variableWatchedLists = [11] := by
  decide

/-- C23: on a clause of size at least 2 one of whose watches is the literal, `onLiteralFalse`
leaves the other watch at position 0: the literal at position 0 is the same as before when the
literal is not at position 0, and is the literal that was at position 1 when the literal is at
position 0. Behind position 0, either the literal is at position 1 and every position from 2 on
is as before, or the literal and the literal of one position `i` from 2 on are exchanged, the
other positions from 2 on being as before. -/
theorem onLiteralFalse_first_watch (s : Solver) (clause : Clause) (literal : Literal)
    (hsize : 2 ≤ clause.size)
    (hwatch : literal = clause.getAt 0 ∨ literal = clause.getAt 1) :
    (literal ≠ clause.getAt 0 →
      (onLiteralFalse s clause literal).2.2.getAt 0 = clause.getAt 0) ∧
    (literal = clause.getAt 0 →
      (onLiteralFalse s clause literal).2.2.getAt 0 = clause.getAt 1) ∧
    (((onLiteralFalse s clause literal).2.2.getAt 1 = literal ∧
        ∀ m : Nat, 2 ≤ m →
          (onLiteralFalse s clause literal).2.2.getAt m = clause.getAt m) ∨
      ∃ i : Nat, 2 ≤ i ∧ i < clause.size ∧
        (onLiteralFalse s clause literal).2.2.getAt 1 = clause.getAt i ∧
        (onLiteralFalse s clause literal).2.2.getAt i = literal ∧
        ∀ m : Nat, 2 ≤ m → m ≠ i →
          (onLiteralFalse s clause literal).2.2.getAt m = clause.getAt m) := by
  obtain ⟨a, b, rest, hl⟩ : ∃ a b rest, clause.literals = a :: b :: rest := by
    unfold Clause.size at hsize
    match h : clause.literals, hsize with
    | a :: b :: rest, _ => exact ⟨a, b, rest, rfl⟩
  have h0 : clause.getAt 0 = a := by simp [Clause.getAt, hl]
  have h1 : clause.getAt 1 = b := by simp [Clause.getAt, hl]
  have hgetAt : ∀ n : Nat, clause.getAt (2 + n) = rest.getD n Literal.null := by
    intro n
    simp [Clause.getAt, hl, Nat.add_comm 2 n]
  rw [h0, h1] at hwatch
  have hkeep : ∀ c : Clause, c.literals = (if literal = a then b else a) :: literal :: rest →
      (literal ≠ a → c.getAt 0 = a) ∧ (literal = a → c.getAt 0 = b) ∧
      c.getAt 1 = literal ∧ ∀ m : Nat, 2 ≤ m → c.getAt m = clause.getAt m := by
    intro c hc
    refine ⟨fun h => by simp [Clause.getAt, hc, h], fun h => by simp [Clause.getAt, hc, h],
      by simp [Clause.getAt, hc], ?_⟩
    intro m hm
    obtain ⟨n, rfl⟩ : ∃ n, m = 2 + n := ⟨m - 2, by omega⟩
    rw [hgetAt]
    simp [Clause.getAt, hc, Nat.add_comm 2 n]
  rw [onLiteralFalse_eq s clause literal a b rest hl hwatch, h0, h1]
  by_cases hto : s.isTrue (if literal = a then b else a) = true
  · simp only [hto, ↓reduceIte]
    obtain ⟨k0, k1, k2, k3⟩ :=
      hkeep { clause with literals := (if literal = a then b else a) :: literal :: rest } rfl
    exact ⟨k0, k1, Or.inl ⟨k2, k3⟩⟩
  · have hto2 : s.isTrue (if literal = a then b else a) = false := by simpa using hto
    simp only [hto2, Bool.false_eq_true, ↓reduceIte]
    cases hscan : firstNotFalse s rest 2 with
    | none =>
      obtain ⟨k0, k1, k2, k3⟩ :=
        hkeep { clause with literals := (if literal = a then b else a) :: literal :: rest } rfl
      exact ⟨k0, k1, Or.inl ⟨k2, k3⟩⟩
    | some i =>
      obtain ⟨j, rfl, hj⟩ := firstNotFalse_lt s rest 2 i hscan
      simp only [swapLiteralsNoWatches_one clause _ literal rest j hj]
      refine ⟨fun h => by simp [Clause.getAt, h], fun h => by simp [Clause.getAt, h],
        Or.inr ⟨2 + j, by omega, by simp only [Clause.size, hl, List.length_cons]; omega,
          ?_, ?_, ?_⟩⟩
      · rw [hgetAt]
        simp [Clause.getAt, List.getElem?_eq_getElem hj]
      · simp [Clause.getAt, Nat.add_comm 2 j, hj]
      · intro m hm2 hmne
        obtain ⟨n, rfl⟩ : ∃ n, m = 2 + n := ⟨m - 2, by omega⟩
        have hne : j ≠ n := fun h => hmne (by rw [h])
        rw [hgetAt]
        simp [Clause.getAt, Nat.add_comm 2 n, List.getElem?_set_ne hne]

/-- Witness for C23: the clause `(x1 or x3 or x2 or x4)` with `x1`, `x2` false and `x3`, `x4`
undefined, when the watch `x1`, at position 0, becomes false: `x3`, which was at position 1,
comes to position 0. -/
theorem onLiteralFalse_first_watch_witness :
    (onLiteralFalse watchState watchedClause ⟨1, false⟩).2.2.getAt 0 = ⟨3, false⟩ :=
  ((onLiteralFalse_first_watch watchState watchedClause ⟨1, false⟩ (by decide)
    (Or.inl (by decide))).2.1 (by decide)).trans (by decide)

/-- Counterexample for C23: in the clause `(x1 or x3 or x2 or x4)` the literal at position 0 is
`x1` before the call that handles the false watch `x1`, and `x3` after it. -/
theorem onLiteralFalse_reorders_first_watch :
    watchState.isFalse ⟨1, false⟩ = true ∧
    watchedClause.getAt 0 = ⟨1, false⟩ ∧
    (onLiteralFalse watchState watchedClause ⟨1, false⟩).2.2.getAt 0 = ⟨3, false⟩ := by
  decide

/-! ## A learned clause used in conflict analysis (C28) -/

/-- C28: in Glucose mode, with `s1` and `c1` the solver and the clause after the activity bump,
`learnedClauseUsedForConflict` changes the clause only when its stored LBD is above 2 and the
recomputed LBD plus one is below the stored LBD: the recomputed LBD is then stored, and the
clause is marked as not deletable when the stored LBD, as it was before, is at most the
frozen-clause threshold. In every other case the clause is as the bump left it. -/
theorem learnedClauseUsedForConflict_lbd (ext : Collaborators) (s s1 : Solver)
    (clause c1 : Clause) (hu : ext.updateActivity s clause = (s1, c1))
    (hg : s1.glucoseHeuristic_ = true) :
    ((2 < c1.lbd ∧ (s1.computeLBD c1).1 + 1 < c1.lbd) →
      (learnedClauseUsedForConflict ext s clause).2.lbd = (s1.computeLBD c1).1 ∧
      (learnedClauseUsedForConflict ext s clause).2.canBeDeleted =
        (if c1.lbd ≤ s1.glucoseData.lbLBDFrozenClause then false else c1.canBeDeleted) ∧
      (learnedClauseUsedForConflict ext s clause).2.literals = c1.literals) ∧
    (¬ (2 < c1.lbd ∧ (s1.computeLBD c1).1 + 1 < c1.lbd) →
      (learnedClauseUsedForConflict ext s clause).2 = c1) := by
  constructor
  · rintro ⟨h2, hlow⟩
    by_cases hfrozen : c1.lbd ≤ s1.glucoseData.lbLBDFrozenClause
    · simp [learnedClauseUsedForConflict, hu, hg, h2, hlow, hfrozen, computeLBD,
        Clause.setLbd, Clause.setCanBeDeleted] at *
      simp [hlow, hfrozen]
    · simp [learnedClauseUsedForConflict, hu, hg, h2, hlow, hfrozen, computeLBD,
        Clause.setLbd, Clause.setCanBeDeleted] at *
      simp [hlow, hfrozen]
  · intro hnot
    by_cases h2 : 2 < c1.lbd
    · have hlow : ¬ (s1.computeLBD c1).1 + 1 < c1.lbd := fun h => hnot ⟨h2, h⟩
      simp [learnedClauseUsedForConflict, hu, hg, h2, hlow]
    · simp [learnedClauseUsedForConflict, hu, hg, h2]

/-- Witness for C28: the clause `(x1 or x2 or x3 or x4)` with stored LBD 6 and its four literals
at four decision levels: the recomputed LBD 4 is stored and the clause is marked as not
deletable. -/
theorem learnedClauseUsedForConflict_lbd_witness :
    (learnedClauseUsedForConflict sampleCollaborators lbdState (learnedClauseOf 6)).2.lbd = 4 ∧
    (learnedClauseUsedForConflict sampleCollaborators lbdState
      (learnedClauseOf 6)).2.canBeDeleted = false :=
  have h := (learnedClauseUsedForConflict_lbd sampleCollaborators lbdState lbdState
    (learnedClauseOf 6) (learnedClauseOf 6) rfl (by decide)).1 ⟨by decide, by decide⟩
  ⟨h.1.trans (by decide), h.2.1.trans (by decide)⟩

/-- Counterexample for C28: the clause `(x1 or x2 or x3 or x4)` has stored LBD 5; the recomputed
LBD is 4, lower than the stored one and under the threshold 30, and the clause keeps its LBD 5
and stays deletable. -/
theorem learnedClauseUsedForConflict_keeps_lbd :
    lbdState.glucoseHeuristic_ = true ∧
    (lbdState.computeLBD (learnedClauseOf 5)).1 = 4 ∧
    (learnedClauseOf 5).lbd = 5 ∧
    lbdState.glucoseData.lbLBDFrozenClause = 30 ∧
    (learnedClauseUsedForConflict sampleCollaborators lbdState (learnedClauseOf 5)).2.lbd = 5 ∧
    (learnedClauseUsedForConflict sampleCollaborators lbdState
      (learnedClauseOf 5)).2.canBeDeleted = true := by
  decide

/-! ## Reduction of the learned clauses (C29) -/

/-- The clause at an index of a list from which the last entry is dropped. -/
theorem getD_dropLast (l : List Clause) (k : Nat) (h : k < l.length - 1) :
    l.dropLast.getD k Clause.new = l.getD k Clause.new := by
  have hk : k < l.length := by omega
  simp [List.getD_eq_getElem?_getD, List.getElem?_dropLast, h, List.getElem?_eq_getElem hk]

/-- The recorded positions after `deleteClause` of a clause whose recorded position is an
index of `clauses`: every clause still records its own index. -/
theorem positionsRecorded_deleteClause (s : Solver) (clause : Clause)
    (h : s.positionsRecorded) (hpos : clause.getPositionInSolver < s.clauses.length) :
    (s.deleteClause clause).positionsRecorded := by
  intro k hk
  have hlen : (s.deleteClause clause).clauses.length = s.clauses.length - 1 := by
    simp [deleteClause]
  rw [hlen] at hk
  have hk2 : k < (s.clauses.set clause.getPositionInSolver
      ((s.clauses.getLastD clause).setPositionInSolver clause.getPositionInSolver)).length - 1 := by
    simpa using hk
  show ((s.clauses.set clause.getPositionInSolver
      ((s.clauses.getLastD clause).setPositionInSolver
        clause.getPositionInSolver)).dropLast.getD k Clause.new).getPositionInSolver = k
  rw [getD_dropLast _ k hk2]
  have hklt : k < s.clauses.length := by omega
  rw [List.getD_eq_getElem?_getD, List.getElem?_set]
  by_cases hkp : clause.getPositionInSolver = k
  · rw [if_pos hkp, if_pos (hkp ▸ hklt)]
    exact hkp
  · rw [if_neg hkp, ← List.getD_eq_getElem?_getD]
    exact h k hklt

/-- The recorded positions after `removeClauseNoDeletion`, which changes `clauses` as
`deleteClause` does. -/
theorem positionsRecorded_removeClauseNoDeletion (s : Solver) (clause : Clause)
    (h : s.positionsRecorded) (hpos : clause.getPositionInSolver < s.clauses.length) :
    (s.removeClauseNoDeletion clause).positionsRecorded :=
  positionsRecorded_deleteClause s clause h hpos

/-- The recorded positions after a clause that records the size of `clauses` is pushed. -/
theorem positionsRecorded_push (s t : Solver) (clause : Clause) (h : s.positionsRecorded)
    (ht : t.clauses = s.clauses ++ [clause.setPositionInSolver s.clauses.length]) :
    t.positionsRecorded := by
  intro k hk
  rw [ht] at hk ⊢
  by_cases hlt : k < s.clauses.length
  · have := h k hlt
    simpa [List.getD_eq_getElem?_getD, List.getElem?_append_left hlt] using this
  · have hk2 : k = s.clauses.length := by
      simp only [List.length_append, List.length_singleton] at hk
      omega
    subst hk2
    simp [List.getD_eq_getElem?_getD, Clause.getPositionInSolver, Clause.setPositionInSolver]

/-- The list `clauses` after a clause is added to occurrence lists. -/
theorem foldl_addClauseOccurrence_clauses (addr : Nat) (lits : List Literal) :
    ∀ s : Solver, (lits.foldl (fun t l => t.addClauseOccurrence l addr) s).clauses = s.clauses := by
  induction lits with
  | nil => intro s; rfl
  | cons x lits ih =>
    intro s
    simp only [List.foldl_cons]
    rw [ih]
    simp [addClauseOccurrence]

/-- The recorded positions after `addClause` of a clause of two or more literals. -/
theorem positionsRecorded_attachAndPushClause (s : Solver) (clause : Clause)
    (h : s.positionsRecorded) : (s.attachAndPushClause clause).positionsRecorded := by
  have hcl : (s.attachClauseToAllLiterals clause).clauses = s.clauses :=
    foldl_addClauseOccurrence_clauses clause.addr clause.literals s
  apply positionsRecorded_push s _ clause h
  by_cases hc : (s.callSimplifications_ || clause.size != 2) = true
  · simp only [attachAndPushClause, hc, ↓reduceIte, hcl]
  · simp only [attachAndPushClause, hc, Bool.false_eq_true, ↓reduceIte]

/-- The recorded positions after `addClauseFromModel`. -/
theorem positionsRecorded_addClauseFromModel (s : Solver) (clause : Clause)
    (h : s.positionsRecorded) : (s.addClauseFromModel clause).2.positionsRecorded := by
  by_cases hsize : clause.size > 1
  · apply positionsRecorded_push s _ clause h
    simp [addClauseFromModel, hsize, attachClause, addWatchedClause]
  · intro k hk
    have hcl : (s.addClauseFromModel clause).2.clauses = s.clauses := by
      simp only [addClauseFromModel, hsize, ↓reduceIte, assignLiteral]
      split <;> rfl
    rw [hcl] at hk ⊢
    exact h k hk

/-- C30: `addClauseRuntime` pushes a clause of three literals onto `clauses` without telling it
its position. On a solver with one stored clause, which records its index 0, the clause
`(x1 or not x2 or x3)` is pushed at index 1 and still records position 0, so that the positions
recorded are no longer the indices; `addClauseFromModel`, on the same solver and clause, records
position 1. -/
theorem addClauseRuntime_position_not_recorded :
    storedClauseState.positionsRecorded ∧
    (∃ r : Solver,
      addClauseRuntime sampleCollaborators 0 storedClauseState ternaryClause = some (true, r) ∧
      r.clauses.map Clause.getPositionInSolver = [0, 0] ∧ ¬ r.positionsRecorded) ∧
    (storedClauseState.addClauseFromModel ternaryClause).2.clauses.map
      Clause.getPositionInSolver = [0, 1] := by
  refine ⟨?_, ⟨_, rfl, by decide, ?_⟩, by decide⟩
  · unfold positionsRecorded
    decide
  · unfold positionsRecorded
    decide

/-! ## Literal block distance (C27) -/

/-- Overwriting the literal at the end of `front` by the last literal and dropping the last
literal leaves `front` followed by a permutation of the literals behind that position. -/
theorem overwrite_dropLast (front : List Literal) (x : Literal) (rest : List Literal) :
    ∃ moved : List Literal,
      ((front ++ x :: rest).set front.length
        ((front ++ x :: rest).getD ((front ++ x :: rest).length - 1) Literal.null)).dropLast =
          front ++ moved ∧
      List.Perm moved rest := by
  rcases List.eq_nil_or_concat rest with h | ⟨body, last, h⟩
  · subst h
    refine ⟨[], ?_, List.Perm.refl _⟩
    simp [List.getD_eq_getElem?_getD]
  · rw [List.concat_eq_append] at h
    subst h
    refine ⟨last :: body, ?_, (List.perm_append_singleton last body).symm⟩
    have hsplit : front ++ x :: (body ++ [last]) = (front ++ x :: body) ++ [last] := by simp
    have hn : ((front ++ x :: body) ++ [last]).length - 1 = (front ++ x :: body).length := by
      simp
    have hlast : (front ++ x :: (body ++ [last])).getD
        ((front ++ x :: (body ++ [last])).length - 1) Literal.null = last := by
      rw [hsplit, hn, List.getD_append_right _ _ _ _ (le_refl _)]
      simp
    rw [hlast]
    have hset : (front ++ x :: (body ++ [last])).set front.length last =
        (front ++ last :: body) ++ [last] := by
      simp [List.set_append]
    rw [hset, List.dropLast_concat]

/-- The loop of `removeSatisfiedLiterals` on the literals `front ++ rest`, from the index behind
`front`, with fuel for every literal of `rest`: it ends; it returns true exactly when a literal
of `rest` is true; when it returns false the literals are `front` followed by a permutation of
the literals of `rest` that are not false. -/
theorem removeFalseLiterals_spec (s : Solver) :
    ∀ (fuel : Nat) (front rest : List Literal), rest.length ≤ fuel →
      ∃ (b : Bool) (lits : List Literal),
        removeFalseLiterals s fuel (front ++ rest) front.length = some (b, lits) ∧
        (b = true ↔ ∃ x ∈ rest, s.isTrue x = true) ∧
        (b = false → ∃ kept : List Literal,
          lits = front ++ kept ∧ List.Perm kept (rest.filter (fun l => !s.isFalse l))) := by
  intro fuel
  induction fuel with
  | zero =>
    intro front rest hlen
    have hrest : rest = [] := List.length_eq_zero.mp (Nat.le_zero.mp hlen)
    subst hrest
    exact ⟨false, front, by simp [removeFalseLiterals], by simp, fun _ => ⟨[], by simp, by simp⟩⟩
  | succ fuel ih =>
    intro front rest hlen
    cases rest with
    | nil =>
      exact ⟨false, front, by simp [removeFalseLiterals], by simp,
        fun _ => ⟨[], by simp, by simp⟩⟩
    | cons x rest =>
      have hlen2 : rest.length ≤ fuel := by simpa using hlen
      have hlt : front.length < (front ++ x :: rest).length := by simp
      have hget : (front ++ x :: rest).getD front.length Literal.null = x := by
        rw [List.getD_append_right _ _ _ _ (le_refl _)]
        simp
      by_cases htrue : s.isTrue x = true
      · refine ⟨true, front ++ x :: rest, ?_, ?_, fun h => by cases h⟩
        · simp only [removeFalseLiterals, hlt, ↓reduceIte, hget, htrue]
        · simp only [true_iff]
          exact ⟨x, by simp, htrue⟩
      · have htrue2 : s.isTrue x = false := by simpa using htrue
        by_cases hfalse : s.isFalse x = true
        · obtain ⟨moved, hmoved, hperm⟩ := overwrite_dropLast front x rest
          obtain ⟨b, lits, hrun, hiff, hkept⟩ :=
            ih front moved (by rw [hperm.length_eq]; exact hlen2)
          refine ⟨b, lits, ?_, ?_, ?_⟩
          · simp only [removeFalseLiterals, hlt, ↓reduceIte, hget, htrue2, hfalse,
              Bool.false_eq_true, hmoved]
            exact hrun
          · rw [hiff]
            constructor
            · rintro ⟨y, hy, hyt⟩
              exact ⟨y, List.mem_cons_of_mem x (hperm.mem_iff.mp hy), hyt⟩
            · rintro ⟨y, hy, hyt⟩
              rcases List.mem_cons.mp hy with h | h
              · subst h
                rw [htrue2] at hyt
                cases hyt
              · exact ⟨y, hperm.mem_iff.mpr h, hyt⟩
          · intro hb
            obtain ⟨kept, hlits, hk⟩ := hkept hb
            refine ⟨kept, hlits, hk.trans ?_⟩
            have := hperm.filter (fun l => !s.isFalse l)
            simpa [hfalse] using this
        · have hfalse2 : s.isFalse x = false := by simpa using hfalse
          obtain ⟨b, lits, hrun, hiff, hkept⟩ := ih (front ++ [x]) rest hlen2
          refine ⟨b, lits, ?_, ?_, ?_⟩
          · simp only [removeFalseLiterals, hlt, ↓reduceIte, hget, htrue2, hfalse2,
              Bool.false_eq_true]
            simpa using hrun
          · rw [hiff]
            constructor
            · rintro ⟨y, hy, hyt⟩
              exact ⟨y, List.mem_cons_of_mem x hy, hyt⟩
            · rintro ⟨y, hy, hyt⟩
              rcases List.mem_cons.mp hy with h | h
              · subst h
                rw [htrue2] at hyt
                cases hyt
              · exact ⟨y, h, hyt⟩
          · intro hb
            obtain ⟨kept, hlits, hk⟩ := hkept hb
            refine ⟨x :: kept, by simp [hlits], ?_⟩
            simpa [hfalse2] using hk.cons x

/-- C25: on a clause of size at least 2, `removeSatisfiedLiterals` ends; it returns true exactly
when some literal of the clause is true; when it returns false the solver is unchanged and the
clause consists of its original first two literals, still at positions 0 and 1, followed by its
original literals of the positions from 2 on that are not false, in some order. -/
theorem removeSatisfiedLiterals_true_iff (s : Solver) (clause : Clause)
    (hsize : 2 ≤ clause.size) :
    ∃ r : Bool × Solver × Clause,
      s.removeSatisfiedLiterals clause = some r ∧
      (r.1 = true ↔ ∃ l ∈ clause.literals, s.isTrue l = true) ∧
      (r.1 = false →
        r.2.2.getAt 0 = clause.getAt 0 ∧ r.2.2.getAt 1 = clause.getAt 1 ∧
        List.Perm (r.2.2.literals.drop 2)
          ((clause.literals.drop 2).filter (fun l => !s.isFalse l)) ∧
        r.2.1 = s) := by
  obtain ⟨a, b, rest, hl⟩ : ∃ a b rest, clause.literals = a :: b :: rest := by
    unfold Clause.size at hsize
    match h : clause.literals, hsize with
    | a :: b :: rest, _ => exact ⟨a, b, rest, rfl⟩
  have h0 : clause.getAt 0 = a := by simp [Clause.getAt, hl]
  have h1 : clause.getAt 1 = b := by simp [Clause.getAt, hl]
  by_cases ha : s.isTrue a = true
  · refine ⟨(true,
        if s.isLocked clause then s.setImplicant (clause.getAt 0).getVariable none else s,
        clause),
      by simp only [removeSatisfiedLiterals, h0, ha, ↓reduceIte], ?_, fun h => by cases h⟩
    simp only [true_iff]
    exact ⟨a, by simp [hl], ha⟩
  · have ha2 : s.isTrue a = false := by simpa using ha
    by_cases hb : s.isTrue b = true
    · refine ⟨(true, s, clause), by simp only [removeSatisfiedLiterals, h0, h1, ha2, hb,
        Bool.false_eq_true, ↓reduceIte], ?_, fun h => by cases h⟩
      simp only [true_iff]
      exact ⟨b, by simp [hl], hb⟩
    · have hb2 : s.isTrue b = false := by simpa using hb
      obtain ⟨r, lits, hrun, hiff, hkept⟩ :=
        removeFalseLiterals_spec s clause.size [a, b] rest
          (by simp only [Clause.size, hl, List.length_cons]; omega)
      have hrun2 : removeFalseLiterals s clause.size clause.literals 2 = some (r, lits) := by
        rw [hl]
        exact hrun
      refine ⟨(r, s, { clause with literals := lits }), ?_, ?_, ?_⟩
      · simp only [removeSatisfiedLiterals, h0, h1, ha2, hb2, Bool.false_eq_true, ↓reduceIte,
          hrun2]
      · show r = true ↔ _
        rw [hiff, hl]
        constructor
        · rintro ⟨y, hy, hyt⟩
          exact ⟨y, by simp [hy], hyt⟩
        · rintro ⟨y, hy, hyt⟩
          rcases List.mem_cons.mp hy with h | h
          · subst h
            rw [ha2] at hyt
            cases hyt
          · rcases List.mem_cons.mp h with h | h
            · subst h
              rw [hb2] at hyt
              cases hyt
            · exact ⟨y, h, hyt⟩
      · intro hr
        obtain ⟨kept, hlits, hk⟩ := hkept hr
        subst hlits
        refine ⟨by simp [Clause.getAt, hl], by simp [Clause.getAt, hl], ?_, rfl⟩
        simpa [hl] using hk

/-- Witness for C25: the clause `(x3 or x4 or x1 or x5 or x6)` with `x1` false and the other
literals undefined: the call returns false and leaves the clause `(x3 or x4 or x6 or x5)`, the
last literal having taken the place of the false one. -/
theorem removeSatisfiedLiterals_true_iff_witness :
    (∃ r : Bool × Solver × Clause,
      sixVariables.removeSatisfiedLiterals longClause = some r ∧
      (r.1 = true ↔ ∃ l ∈ longClause.literals, sixVariables.isTrue l = true) ∧
      (r.1 = false →
        r.2.2.getAt 0 = longClause.getAt 0 ∧ r.2.2.getAt 1 = longClause.getAt 1 ∧
        List.Perm (r.2.2.literals.drop 2)
          ((longClause.literals.drop 2).filter (fun l => !sixVariables.isFalse l)) ∧
        r.2.1 = sixVariables)) ∧
    (sixVariables.removeSatisfiedLiterals longClause).map (fun r => (r.1, r.2.2.literals)) =
      some (false, [⟨3, false⟩, ⟨4, false⟩, ⟨6, false⟩, ⟨5, false⟩]) :=
  ⟨removeSatisfiedLiterals_true_iff sixVariables longClause (by decide), by decide⟩

/-! ## Attaching the watches (C24) -/

/-- The list `clauses` after `deleteClause` of the clause at the end of `front`, which records
that position: `front` is untouched and the clauses behind it are, up to the positions they
record, a permutation of the clauses that were behind the deleted one. -/
theorem deleteClause_clauses (s : Solver) (front : List Clause) (x : Clause)
    (rest : List Clause) (hcl : s.clauses = front ++ x :: rest)
    (hx : x.getPositionInSolver = front.length) :
    ∃ moved : List Clause,
      (s.deleteClause x).clauses = front ++ moved ∧
      List.Perm (moved.map Clause.withoutPosition) (rest.map Clause.withoutPosition) := by
  rcases List.eq_nil_or_concat rest with h | ⟨body, last, h⟩
  · subst h
    refine ⟨[], ?_, List.Perm.refl _⟩
    simp [deleteClause, hcl, hx, List.set_append]
  · rw [List.concat_eq_append] at h
    subst h
    refine ⟨last.setPositionInSolver front.length :: body, ?_, ?_⟩
    · have hsplit : front ++ x :: (body ++ [last]) = (front ++ x :: body) ++ [last] := by simp
      have hlast : (front ++ x :: (body ++ [last])).getLastD x = last := by
        rw [hsplit, List.getLastD_eq_getLast?, List.getLast?_concat]
        rfl
      have hset : (front ++ x :: (body ++ [last])).set front.length
          (last.setPositionInSolver front.length) =
          (front ++ last.setPositionInSolver front.length :: body) ++ [last] := by
        simp [List.set_append]
      simp only [deleteClause, hcl, hx, hlast, hset, List.dropLast_concat]
    · have h := (List.perm_append_singleton last.withoutPosition
        (body.map Clause.withoutPosition)).symm
      simpa [Clause.withoutPosition, Clause.setPositionInSolver] using h

/-- The watch lists and binary-implication lists after `attachClause` of a clause whose first
two literals have a record. -/
theorem attachClause_lists (s : Solver) (c : Clause) (l : Literal)
    (h0 : s.hasDataStructure (c.getAt 0) = true) (h1 : s.hasDataStructure (c.getAt 1) = true) :
    ((s.attachClause c).getDataStructure l).variableWatchedLists =
      (s.getDataStructure l).variableWatchedLists ++
        ((if l = c.getAt 0 then [c.addr] else []) ++ (if l = c.getAt 1 then [c.addr] else [])) ∧
    ((s.attachClause c).getDataStructure l).variableBinaryClauses =
      (s.getDataStructure l).variableBinaryClauses := by
  have h1b : (s.modifyDataStructure (c.getAt 0)
      (fun d => { d with variableWatchedLists := d.variableWatchedLists ++ [c.addr] })
      ).hasDataStructure (c.getAt 1) = true :=
    hasDataStructure_modifyDataStructure s _ _ _ h1
  simp only [attachClause, addWatchedClause]
  rw [getDataStructure_modifyDataStructure _ _ l _ h1b,
    getDataStructure_modifyDataStructure _ _ l _ h0,
    getDataStructure_modifyDataStructure _ _ (c.getAt 1) _ h0]
  by_cases hl0 : l = c.getAt 0 <;> by_cases hl1 : l = c.getAt 1 <;>
    by_cases h10 : c.getAt 1 = c.getAt 0 <;> simp_all

/-- The watch lists and binary-implication lists after `addBinaryClause` of two literals that
have a record. -/
theorem addBinaryClause_lists (s : Solver) (a b l : Literal)
    (ha : s.hasDataStructure a = true) (hb : s.hasDataStructure b = true) :
    ((s.addBinaryClause a b).getDataStructure l).variableWatchedLists =
      (s.getDataStructure l).variableWatchedLists ∧
    ((s.addBinaryClause a b).getDataStructure l).variableBinaryClauses =
      (s.getDataStructure l).variableBinaryClauses ++
        ((if l = a then [b] else []) ++ (if l = b then [a] else [])) := by
  have hb2 : (s.modifyDataStructure a
      (fun d => { d with variableBinaryClauses := d.variableBinaryClauses ++ [b] })
      ).hasDataStructure b = true :=
    hasDataStructure_modifyDataStructure s _ _ _ hb
  simp only [addBinaryClause, addLiteralInShortClause]
  rw [getDataStructure_modifyDataStructure _ _ l _ hb2,
    getDataStructure_modifyDataStructure _ _ l _ ha,
    getDataStructure_modifyDataStructure _ _ b _ ha]
  by_cases hla : l = a <;> by_cases hlb : l = b <;> by_cases hba : b = a <;> simp_all

/-- The clauses that `attachWatches` attaches do not depend on the positions recorded. -/
theorem attachedClauses_map (cs : List Clause) :
    (attachedClauses cs).map Clause.withoutPosition =
      attachedClauses (cs.map Clause.withoutPosition) := by
  induction cs with
  | nil => rfl
  | cons c cs ih =>
    by_cases hc : (!c.hasBeenDeleted && c.size != 2) = true
    · have hc2 : (!c.withoutPosition.hasBeenDeleted && c.withoutPosition.size != 2) = true := hc
      simp only [attachedClauses, List.filter_cons, hc, ↓reduceIte, List.map_cons, hc2]
      exact congrArg _ ih
    · have hc2 : ¬ (!c.withoutPosition.hasBeenDeleted && c.withoutPosition.size != 2) = true :=
        hc
      simp only [attachedClauses, List.filter_cons, hc, ↓reduceIte, List.map_cons, hc2]
      exact ih

/-- The entries due in a watch list do not depend on the positions recorded. -/
theorem watchCount_map (l : Literal) (a : Nat) (cs : List Clause) :
    watchCount l a (cs.map Clause.withoutPosition) = watchCount l a cs := by
  simp only [watchCount, List.countP_map]
  rfl

/-- Two lists of clauses that are permutations of each other, up to the positions recorded, have
the same attached clauses up to a permutation and the positions recorded. -/
theorem attachedClauses_perm (xs ys : List Clause)
    (h : List.Perm (xs.map Clause.withoutPosition) (ys.map Clause.withoutPosition)) :
    List.Perm ((attachedClauses xs).map Clause.withoutPosition)
      ((attachedClauses ys).map Clause.withoutPosition) := by
  rw [attachedClauses_map, attachedClauses_map]
  exact h.filter _

/-- Two lists of clauses that are permutations of each other, up to the positions recorded, are
due the same entries in every watch list. -/
theorem watchCount_perm (l : Literal) (a : Nat) (xs ys : List Clause)
    (h : List.Perm (xs.map Clause.withoutPosition) (ys.map Clause.withoutPosition)) :
    watchCount l a (attachedClauses xs) = watchCount l a (attachedClauses ys) := by
  rw [← watchCount_map l a (attachedClauses xs), ← watchCount_map l a (attachedClauses ys)]
  have hp := attachedClauses_perm xs ys h
  simp only [watchCount]
  rw [hp.countP_eq, hp.countP_eq]

/-- A clause of a list is, up to the position recorded, a clause of any list that is a
permutation of it up to the positions recorded. -/
theorem mem_of_perm_withoutPosition (xs ys : List Clause)
    (h : List.Perm (xs.map Clause.withoutPosition) (ys.map Clause.withoutPosition))
    (c : Clause) (hc : c ∈ xs) : ∃ d ∈ ys, d.withoutPosition = c.withoutPosition := by
  have hmem : c.withoutPosition ∈ ys.map Clause.withoutPosition :=
    h.mem_iff.mp (List.mem_map_of_mem _ hc)
  obtain ⟨d, hd, hdc⟩ := List.mem_map.mp hmem
  exact ⟨d, hd, hdc⟩

/-- Clauses that agree up to the position recorded have the same deletion mark, size and
literals. -/
theorem eq_of_withoutPosition_eq (c d : Clause) (h : d.withoutPosition = c.withoutPosition) :
    d.hasBeenDeleted = c.hasBeenDeleted ∧ d.size = c.size ∧
      (∀ i : Nat, d.getAt i = c.getAt i) ∧ d.addr = c.addr := by
  obtain ⟨ca, cl, cp, cd, clbd, cc⟩ := c
  obtain ⟨da, dl, dp, dd, dlbd, dc⟩ := d
  simp only [Clause.withoutPosition, Clause.setPositionInSolver, Clause.mk.injEq] at h
  obtain ⟨h1, h2, _, h4, _, _⟩ := h
  subst h1 h2 h4
  exact ⟨rfl, rfl, fun _ => rfl, rfl⟩

/-- The number of occurrences of an address in the entry that a clause adds to a watch list. -/
theorem count_ite_singleton (l y : Literal) (b a : Nat) :
    (if l = y then [b] else []).count a = if (b == a && y == l) = true then 1 else 0 := by
  by_cases h1 : l = y
  · subst h1
    by_cases h2 : b = a
    · subst h2
      simp
    · simp [h2, List.count_singleton]
  · have h3 : ¬ y = l := fun h => h1 h.symm
    simp [h1, h3]

/-- The entries of a watch list after a clause is attached, counted with the entries due for
further clauses. -/
theorem count_attached_entries (w : List Nat) (l : Literal) (a : Nat) (x : Clause)
    (cs : List Clause) :
    (w ++ ((if l = x.getAt 0 then [x.addr] else []) ++
        (if l = x.getAt 1 then [x.addr] else []))).count a + watchCount l a cs =
      w.count a + watchCount l a (x :: cs) := by
  simp only [watchCount, List.countP_cons, List.count_append, count_ite_singleton]
  omega

/-- The recorded positions only depend on the list `clauses`. -/
theorem positionsRecorded_congr (s t : Solver) (h : t.clauses = s.clauses)
    (hs : s.positionsRecorded) : t.positionsRecorded := by
  intro k hk
  rw [h] at hk ⊢
  exact hs k hk

/-- The loop of `attachWatches` from the index behind `front`, on a solver whose clauses are
`front ++ todo` and record their positions, with fuel for every clause of `todo`, the first two
literals of every unmarked clause of `todo` having a record: the loop ends; the clauses record
their positions; `clauses` holds `front` and the clauses of `todo` that are attached, up to a
permutation and the positions recorded; every watch list has gained the entries due for these
clauses; the binary-implication lists have only gained literals, among which the literals of
each unmarked clause of size 2 of `todo`. -/
theorem attachWatchesLoop_spec :
    ∀ (fuel : Nat) (s : Solver) (front todo : List Clause),
      s.clauses = front ++ todo → todo.length ≤ fuel → s.positionsRecorded →
      (∀ c ∈ todo, c.hasBeenDeleted = false →
        s.hasDataStructure (c.getAt 0) = true ∧ s.hasDataStructure (c.getAt 1) = true) →
      ∃ r : Solver,
        attachWatchesLoop fuel s front.length = some r ∧
        r.positionsRecorded ∧
        List.Perm (r.clauses.map Clause.withoutPosition)
          ((front ++ attachedClauses todo).map Clause.withoutPosition) ∧
        (∀ (l : Literal) (a : Nat),
          (r.getDataStructure l).variableWatchedLists.count a =
            (s.getDataStructure l).variableWatchedLists.count a +
              watchCount l a (attachedClauses todo)) ∧
        (∀ (l x : Literal), x ∈ (s.getDataStructure l).variableBinaryClauses →
          x ∈ (r.getDataStructure l).variableBinaryClauses) ∧
        (∀ c ∈ todo, c.hasBeenDeleted = false → c.size = 2 →
          c.getAt 1 ∈ (r.getDataStructure (c.getAt 0)).variableBinaryClauses ∧
          c.getAt 0 ∈ (r.getDataStructure (c.getAt 1)).variableBinaryClauses) := by
  intro fuel
  induction fuel with
  | zero =>
    intro s front todo hcl hlen hpos _
    have htodo : todo = [] := List.length_eq_zero.mp (Nat.le_zero.mp hlen)
    subst htodo
    refine ⟨s, by simp [attachWatchesLoop, hcl], hpos, by simp [hcl, attachedClauses],
      by simp [attachedClauses, watchCount], fun _ _ h => h, by simp⟩
  | succ fuel ih =>
    intro s front todo hcl hlen hpos hpop
    cases todo with
    | nil =>
      refine ⟨s, by simp [attachWatchesLoop, hcl], hpos, by simp [hcl, attachedClauses],
        by simp [attachedClauses, watchCount], fun _ _ h => h, by simp⟩
    | cons x rest =>
      have hlen2 : rest.length ≤ fuel := by simpa using hlen
      have hlt : front.length < s.clauses.length := by simp [hcl]
      have hcur : s.clauses.getD front.length Clause.new = x := by
        rw [hcl, List.getD_append_right _ _ _ _ (le_refl _)]
        simp
      have hxpos : x.getPositionInSolver = front.length := by
        have := hpos front.length hlt
        rwa [hcur] at this
      -- what the deletion of `x` from a solver with the same clauses gives
      have hdelete : ∀ t : Solver, t.clauses = s.clauses →
          (∀ l : Literal, s.hasDataStructure l = true → t.hasDataStructure l = true) →
          ∃ moved : List Clause,
            (t.deleteClause x).clauses = front ++ moved ∧ moved.length ≤ fuel ∧
            (t.deleteClause x).positionsRecorded ∧
            List.Perm (moved.map Clause.withoutPosition) (rest.map Clause.withoutPosition) ∧
            (∀ c ∈ moved, c.hasBeenDeleted = false →
              (t.deleteClause x).hasDataStructure (c.getAt 0) = true ∧
              (t.deleteClause x).hasDataStructure (c.getAt 1) = true) := by
        intro t ht hds
        obtain ⟨moved, hmoved, hperm⟩ := deleteClause_clauses t front x rest (ht.trans hcl) hxpos
        refine ⟨moved, hmoved, ?_, ?_, hperm, ?_⟩
        · have := hperm.length_eq
          simp only [List.length_map] at this
          omega
        · exact positionsRecorded_deleteClause t x (positionsRecorded_congr s t ht hpos)
            (by rw [ht, hxpos]; exact hlt)
        · intro c hc hdel
          obtain ⟨d, hd, hdc⟩ := mem_of_perm_withoutPosition moved rest hperm c hc
          obtain ⟨e1, _, e3, _⟩ := eq_of_withoutPosition_eq c d hdc
          have := hpop d (List.mem_cons_of_mem x hd) (by rw [e1]; exact hdel)
          rw [e3 0, e3 1] at this
          exact ⟨hds _ this.1, hds _ this.2⟩
      -- the literals of the binary clauses behind `x`, read from a run on the moved clauses
      have hbinary : ∀ (r : Solver) (moved : List Clause),
          List.Perm (moved.map Clause.withoutPosition) (rest.map Clause.withoutPosition) →
          (∀ c ∈ moved, c.hasBeenDeleted = false → c.size = 2 →
            c.getAt 1 ∈ (r.getDataStructure (c.getAt 0)).variableBinaryClauses ∧
            c.getAt 0 ∈ (r.getDataStructure (c.getAt 1)).variableBinaryClauses) →
          ∀ c ∈ rest, c.hasBeenDeleted = false → c.size = 2 →
            c.getAt 1 ∈ (r.getDataStructure (c.getAt 0)).variableBinaryClauses ∧
            c.getAt 0 ∈ (r.getDataStructure (c.getAt 1)).variableBinaryClauses := by
        intro r moved hperm hmovedBin c hc hdel hsize
        obtain ⟨d, hd, hdc⟩ := mem_of_perm_withoutPosition rest moved hperm.symm c hc
        obtain ⟨e1, e2, e3, _⟩ := eq_of_withoutPosition_eq c d hdc
        have := hmovedBin d hd (by rw [e1]; exact hdel) (by rw [e2]; exact hsize)
        rw [e3 0, e3 1] at this
        exact this
      by_cases hdel : x.hasBeenDeleted = true
      · -- a clause marked as deleted
        obtain ⟨moved, hmoved, hmlen, hmpos, hperm, hmpop⟩ :=
          hdelete s rfl (fun _ h => h)
        obtain ⟨r, hrun, hrpos, hrperm, hrwatch, hrmono, hrbin⟩ :=
          ih (s.deleteClause x) front moved hmoved hmlen hmpos hmpop
        have hatt : attachedClauses (x :: rest) = attachedClauses rest := by
          simp [attachedClauses, hdel]
        refine ⟨r, ?_, hrpos, ?_, ?_, hrmono, ?_⟩
        · simp only [attachWatchesLoop, hlt, ↓reduceIte, hcur, hdel]
          exact hrun
        · rw [hatt]
          refine hrperm.trans ?_
          simp only [List.map_append]
          exact (attachedClauses_perm moved rest hperm).append_left _
        · intro l a
          rw [hatt, hrwatch l a, watchCount_perm l a moved rest hperm]
          rfl
        · intro c hc hcdel hsize
          rcases List.mem_cons.mp hc with h | h
          · subst h
            rw [hdel] at hcdel
            cases hcdel
          · exact hbinary r moved hperm hrbin c h hcdel hsize
      · have hdel2 : x.hasBeenDeleted = false := by simpa using hdel
        obtain ⟨hx0, hx1⟩ := hpop x (by simp) hdel2
        by_cases hsize : x.size = 2
        · -- a clause of size 2
          have hlists := addBinaryClause_lists s (x.getAt 0) (x.getAt 1)
          have hbcl : (s.addBinaryClause (x.getAt 0) (x.getAt 1)).clauses = s.clauses := by
            simp [addBinaryClause, addLiteralInShortClause]
          obtain ⟨moved, hmoved, hmlen, hmpos, hperm, hmpop⟩ :=
            hdelete (s.addBinaryClause (x.getAt 0) (x.getAt 1)) hbcl
              (fun l h => hasDataStructure_modifyDataStructure _ _ _ _
                (hasDataStructure_modifyDataStructure _ _ _ _ h))
          obtain ⟨r, hrun, hrpos, hrperm, hrwatch, hrmono, hrbin⟩ :=
            ih ((s.addBinaryClause (x.getAt 0) (x.getAt 1)).deleteClause x) front moved hmoved
              hmlen hmpos hmpop
          have hatt : attachedClauses (x :: rest) = attachedClauses rest := by
            simp [attachedClauses, hsize]
          have hsize2 : (x.size == 2) = true := by simpa using hsize
          have hmono : ∀ (l y : Literal), y ∈ (s.getDataStructure l).variableBinaryClauses →
              y ∈ (r.getDataStructure l).variableBinaryClauses := by
            intro l y hy
            apply hrmono l y
            show y ∈ ((s.addBinaryClause (x.getAt 0) (x.getAt 1)).getDataStructure
              l).variableBinaryClauses
            rw [(hlists l hx0 hx1).2]
            exact List.mem_append_left _ hy
          refine ⟨r, ?_, hrpos, ?_, ?_, hmono, ?_⟩
          · simp only [attachWatchesLoop, hlt, ↓reduceIte, hcur, hdel2, Bool.false_eq_true,
              hsize2]
            exact hrun
          · rw [hatt]
            refine hrperm.trans ?_
            simp only [List.map_append]
            exact (attachedClauses_perm moved rest hperm).append_left _
          · intro l a
            rw [hatt, hrwatch l a, watchCount_perm l a moved rest hperm]
            show ((s.addBinaryClause (x.getAt 0) (x.getAt 1)).getDataStructure
              l).variableWatchedLists.count a + _ = _
            rw [(hlists l hx0 hx1).1]
          · intro c hc hcdel hcsize
            rcases List.mem_cons.mp hc with h | h
            · subst h
              constructor
              · apply hrmono
                show c.getAt 1 ∈ ((s.addBinaryClause (c.getAt 0) (c.getAt 1)).getDataStructure
                  (c.getAt 0)).variableBinaryClauses
                rw [(hlists (c.getAt 0) hx0 hx1).2]
                simp
              · apply hrmono
                show c.getAt 0 ∈ ((s.addBinaryClause (c.getAt 0) (c.getAt 1)).getDataStructure
                  (c.getAt 1)).variableBinaryClauses
                rw [(hlists (c.getAt 1) hx0 hx1).2]
                simp
            · exact hbinary r moved hperm hrbin c h hcdel hcsize
        · -- a clause that is attached
          have hsize2 : (x.size == 2) = false := by simpa using hsize
          have hlists := attachClause_lists
            { s with literalsInClauses := (s.literalsInClauses + x.size) % UINT64_SIZE } x
          have hacl : (attachClause
              { s with literalsInClauses := (s.literalsInClauses + x.size) % UINT64_SIZE }
              x).clauses = (front ++ [x]) ++ rest := by
            simp [attachClause, addWatchedClause, hcl]
          obtain ⟨r, hrun, hrpos, hrperm, hrwatch, hrmono, hrbin⟩ :=
            ih (attachClause
              { s with literalsInClauses := (s.literalsInClauses + x.size) % UINT64_SIZE } x)
              (front ++ [x]) rest hacl hlen2
              (positionsRecorded_congr s _ (by rw [hacl, hcl]; simp) hpos)
              (fun c hc hcdel => by
                have := hpop c (List.mem_cons_of_mem x hc) hcdel
                exact ⟨hasDataStructure_modifyDataStructure _ _ _ _
                    (hasDataStructure_modifyDataStructure _ _ _ _ this.1),
                  hasDataStructure_modifyDataStructure _ _ _ _
                    (hasDataStructure_modifyDataStructure _ _ _ _ this.2)⟩)
          have hatt : attachedClauses (x :: rest) = x :: attachedClauses rest := by
            simp [attachedClauses, hdel2, hsize]
          have hflen : (front ++ [x]).length = front.length + 1 := by simp
          rw [hflen] at hrun
          refine ⟨r, ?_, hrpos, ?_, ?_, ?_, ?_⟩
          · simp only [attachWatchesLoop, hlt, ↓reduceIte, hcur, hdel2, Bool.false_eq_true,
              hsize2]
            exact hrun
          · rw [hatt]
            simpa using hrperm
          · intro l a
            rw [hatt, hrwatch l a, (hlists l hx0 hx1).1]
            have hsame : ({ s with literalsInClauses :=
                (s.literalsInClauses + x.size) % UINT64_SIZE } : Solver).getDataStructure l =
                s.getDataStructure l := rfl
            rw [hsame]
            exact count_attached_entries _ l a x _
          · intro l y hy
            apply hrmono l y
            rw [(hlists l hx0 hx1).2]
            exact hy
          · intro c hc hcdel hcsize
            rcases List.mem_cons.mp hc with h | h
            · subst h
              exact absurd hcsize hsize
            · exact hrbin c h hcdel hcsize

/-- The entries due in a watch list for one clause of a list of clauses at pairwise distinct
addresses. -/
theorem countP_attachedClauses_addr (q : Clause → Bool) (cs : List Clause) :
    (cs.map Clause.addr).Nodup → ∀ c ∈ cs,
      (attachedClauses cs).countP (fun d => d.addr == c.addr && q d) =
        if ((!c.hasBeenDeleted && c.size != 2) && q c) = true then 1 else 0 := by
  induction cs with
  | nil => intro _ c hc; simp at hc
  | cons d cs ih =>
    intro hnd c hc
    have hnd2 : d.addr ∉ cs.map Clause.addr ∧ (cs.map Clause.addr).Nodup := by
      simpa using hnd
    have hsub : ∀ e ∈ attachedClauses cs, e ∈ cs := fun e he => (List.mem_filter.mp he).1
    rcases List.mem_cons.mp hc with h | h
    · subst h
      have hzero : (attachedClauses cs).countP (fun d => d.addr == c.addr && q d) = 0 := by
        rw [List.countP_eq_zero]
        intro e he hp
        have hea : e.addr = c.addr := by
          simp only [Bool.and_eq_true, beq_iff_eq] at hp
          exact hp.1
        exact hnd2.1 (hea ▸ List.mem_map_of_mem Clause.addr (hsub e he))
      by_cases hatt : (!c.hasBeenDeleted && c.size != 2) = true
      · have : attachedClauses (c :: cs) = c :: attachedClauses cs := by
          simp only [attachedClauses, List.filter_cons, hatt, ↓reduceIte]
        rw [this, List.countP_cons, hzero]
        simp [hatt]
      · have : attachedClauses (c :: cs) = attachedClauses cs := by
          simp only [attachedClauses, List.filter_cons, hatt, Bool.false_eq_true, ↓reduceIte]
        rw [this, hzero]
        simp [hatt]
    · have hne : ¬ d.addr = c.addr := by
        intro hdc
        exact hnd2.1 (hdc ▸ List.mem_map_of_mem Clause.addr h)
      have hhead : ((d.addr == c.addr) && q d) = false := by simp [hne]
      by_cases hatt : (!d.hasBeenDeleted && d.size != 2) = true
      · have : attachedClauses (d :: cs) = d :: attachedClauses cs := by
          simp only [attachedClauses, List.filter_cons, hatt, ↓reduceIte]
        rw [this, List.countP_cons, hhead, ih hnd2.2 c h]
        simp
      · have : attachedClauses (d :: cs) = attachedClauses cs := by
          simp only [attachedClauses, List.filter_cons, hatt, Bool.false_eq_true, ↓reduceIte]
        rw [this, ih hnd2.2 c h]

/-- C24: on a solver whose clauses record their positions and have pairwise distinct addresses,
whose watch lists are empty, and in which the first two literals of every unmarked clause have a
record and, for a clause of a size other than 2, are distinct, `attachWatches` ends. Afterwards
`clauses` holds, up to the order and the positions recorded, exactly the clauses that were
neither marked as deleted nor of size 2, and every clause records its position; each of these
clauses is once in the watch list of each of its first two literals and in no other watch list,
and the other clauses are in no watch list; the second literal of every unmarked clause of
size 2 is in the binary-implication list of the first, and the first in that of the second. -/
theorem attachWatches_attaches (s : Solver) (hpos : s.positionsRecorded)
    (hempty : ∀ l : Literal, (s.getDataStructure l).variableWatchedLists = [])
    (haddr : (s.clauses.map Clause.addr).Nodup)
    (hpop : ∀ c ∈ s.clauses, c.hasBeenDeleted = false →
      s.hasDataStructure (c.getAt 0) = true ∧ s.hasDataStructure (c.getAt 1) = true)
    (hdistinct : ∀ c ∈ s.clauses, c.hasBeenDeleted = false → c.size ≠ 2 →
      c.getAt 0 ≠ c.getAt 1) :
    ∃ r : Solver,
      s.attachWatches = some r ∧
      List.Perm (r.clauses.map Clause.withoutPosition)
        ((attachedClauses s.clauses).map Clause.withoutPosition) ∧
      r.positionsRecorded ∧
      (∀ c ∈ s.clauses, ∀ l : Literal,
        (r.getDataStructure l).variableWatchedLists.count c.addr =
          if (c.hasBeenDeleted = false ∧ c.size ≠ 2) ∧ (l = c.getAt 0 ∨ l = c.getAt 1) then 1
          else 0) ∧
      (∀ c ∈ s.clauses, c.hasBeenDeleted = false → c.size = 2 →
        c.getAt 1 ∈ (r.getDataStructure (c.getAt 0)).variableBinaryClauses ∧
        c.getAt 0 ∈ (r.getDataStructure (c.getAt 1)).variableBinaryClauses) := by
  obtain ⟨r, hrun, hrpos, hrperm, hrwatch, _, hrbin⟩ :=
    attachWatchesLoop_spec s.clauses.length s [] s.clauses rfl (le_refl _) hpos hpop
  refine ⟨r, hrun, by simpa using hrperm, hrpos, ?_, hrbin⟩
  intro c hc l
  rw [hrwatch l c.addr, hempty l]
  simp only [watchCount, List.count_nil, Nat.zero_add]
  rw [countP_attachedClauses_addr (fun d => d.getAt 0 == l) s.clauses haddr c hc,
    countP_attachedClauses_addr (fun d => d.getAt 1 == l) s.clauses haddr c hc]
  by_cases hdel : c.hasBeenDeleted = true
  · simp [hdel]
  · have hdel2 : c.hasBeenDeleted = false := by simpa using hdel
    by_cases hsize : c.size = 2
    · simp [hsize]
    · have hne := hdistinct c hc hdel2 hsize
      by_cases h0 : l = c.getAt 0
      · have h1 : ¬ c.getAt 1 = c.getAt 0 := fun h => hne h.symm
        simp [hdel2, hsize, h0, h1]
      · have h0b : ¬ c.getAt 0 = l := fun h => h0 h.symm
        by_cases h1 : l = c.getAt 1
        · simp [hdel2, hsize, h1, hne]
        · have h1b : ¬ c.getAt 1 = l := fun h => h1 h.symm
          simp [hdel2, hsize, h0, h1, h0b, h1b]

/-- Every record of the table built by `addVariable` alone is the record of the constructor. -/
theorem getDataStructure_of_tableOf (s : Solver) (n : Nat)
    (h : s.variableDataStructures = tableOf n) (l : Literal) :
    s.getDataStructure l = DataStructures.new := by
  unfold getDataStructure
  rw [h, List.getD_eq_getElem?_getD]
  cases hget : (tableOf n)[l.getIndex]? with
  | none => rfl
  | some o =>
    have hmem : o ∈ tableOf n := List.getElem?_mem hget
    cases o with
    | none => rfl
    | some d =>
      have hd : d = DataStructures.new := by
        simp only [tableOf, List.mem_append, List.mem_cons, List.mem_replicate] at hmem
        rcases hmem with h1 | h1
        · simp at h1
        · exact Option.some.inj h1.2
      simp [hd]

/-- Witness for C24: of the four clauses at the addresses 30 (marked as deleted), 31, 32 (of
size 2) and 33, the clauses 33 and 31 are left, in this order; `x2` watches the clause 33
alone, and `x4` is in the binary-implication list of `not x1`. -/
theorem attachWatches_attaches_witness :
    (∃ r : Solver,
      preprocessedState.attachWatches = some r ∧
      List.Perm (r.clauses.map Clause.withoutPosition)
        ((attachedClauses preprocessedState.clauses).map Clause.withoutPosition) ∧
      r.positionsRecorded ∧
      (∀ c ∈ preprocessedState.clauses, ∀ l : Literal,
        (r.getDataStructure l).variableWatchedLists.count c.addr =
          if (c.hasBeenDeleted = false ∧ c.size ≠ 2) ∧ (l = c.getAt 0 ∨ l = c.getAt 1) then 1
          else 0) ∧
      (∀ c ∈ preprocessedState.clauses, c.hasBeenDeleted = false → c.size = 2 →
        c.getAt 1 ∈ (r.getDataStructure (c.getAt 0)).variableBinaryClauses ∧
        c.getAt 0 ∈ (r.getDataStructure (c.getAt 1)).variableBinaryClauses)) ∧
    preprocessedState.attachWatches.map (fun r => r.clauses.map Clause.addr) = some [33, 31] ∧
    preprocessedState.attachWatches.map
      (fun r => (r.getDataStructure ⟨2, false⟩).variableWatchedLists) = some [33] ∧
    preprocessedState.attachWatches.map
      (fun r => (r.getDataStructure ⟨1, true⟩).variableBinaryClauses) = some [⟨4, false⟩] :=
  ⟨attachWatches_attaches preprocessedState (by unfold positionsRecorded; decide)
      (fun l => by rw [getDataStructure_of_tableOf preprocessedState 4 rfl l]; rfl)
      (by decide) (by decide) (by decide),
    by decide, by decide, by decide⟩

/-! ## Minimization with binary resolution (C26) -/

/-- The loop of `resetPostPropagators` with fuel for every pending post-propagator: it ends with
an empty pending list, after the calls `onRemoving` and `reset` for each pending
post-propagator, the last one of the list first. -/
theorem resetPostPropagatorsLoop_spec :
    ∀ (fuel : Nat) (s : Solver) (calls : List PostPropagatorCall),
      s.postPropagators.length ≤ fuel →
      resetPostPropagatorsLoop fuel s calls =
        some ({ s with postPropagators := [] },
          calls ++ (s.postPropagators.reverse.map (fun p =>
            [PostPropagatorCall.onRemoving p, PostPropagatorCall.reset p])).flatten) := by
  intro fuel
  induction fuel with
  | zero =>
    intro s calls hlen
    have hnil : s.postPropagators = [] := List.length_eq_zero.mp (Nat.le_zero.mp hlen)
    obtain ⟨⟩ := s
    simp only at hnil
    subst hnil
    simp [resetPostPropagatorsLoop]
  | succ fuel ih =>
    intro s calls hlen
    rcases List.eq_nil_or_concat s.postPropagators with hnil | ⟨body, p, hp⟩
    · obtain ⟨⟩ := s
      simp only at hnil
      subst hnil
      simp [resetPostPropagatorsLoop]
    · rw [List.concat_eq_append] at hp
      have hlast : s.postPropagators.getLast? = some p := by
        rw [hp, List.getLast?_concat]
      have hdrop : s.postPropagators.dropLast = body := by
        rw [hp, List.dropLast_concat]
      have hlen2 : body.length ≤ fuel := by
        rw [hp] at hlen
        simp only [List.length_append, List.length_singleton] at hlen
        omega
      simp only [resetPostPropagatorsLoop, hlast, hdrop]
      rw [ih { s with postPropagators := body } _ hlen2, hp]
      simp

/-- C31: `clearConflictStatus` ends; it calls `onRemoving` and then `reset` on every pending
post-propagator, the most recently added one first, as many times as the post-propagator is in
the pending list, that is once each for a list without repetition, as `addPostPropagator`
builds it, and makes no other call; it leaves the pending list empty,
`Literal::null` as conflict literal and no conflict clause, so that no conflict is detected. The
solver it leaves is the one of the function `clearConflictStatus` that does not record the
calls. -/
theorem clearConflictStatus_callbacks (s : Solver) :
    ∃ calls : List PostPropagatorCall,
      s.clearConflictStatusTraced = some (s.clearConflictStatus, calls) ∧
      calls = (s.postPropagators.reverse.map (fun p =>
        [PostPropagatorCall.onRemoving p, PostPropagatorCall.reset p])).flatten ∧
      (∀ p : Nat,
        calls.count (PostPropagatorCall.onRemoving p) = s.postPropagators.count p ∧
        calls.count (PostPropagatorCall.reset p) = s.postPropagators.count p ∧
        calls.count (PostPropagatorCall.onAdding p) = 0) ∧
      (s.postPropagators.Nodup → ∀ p ∈ s.postPropagators,
        calls.count (PostPropagatorCall.onRemoving p) = 1 ∧
        calls.count (PostPropagatorCall.reset p) = 1) ∧
      s.clearConflictStatus.postPropagators = [] ∧
      s.clearConflictStatus.conflictLiteral = Literal.null ∧
      s.clearConflictStatus.conflictClause = none ∧
      s.clearConflictStatus.conflictDetected = false := by
  have hcount : ∀ (l : List Nat) (p : Nat),
      ((l.map (fun q =>
          [PostPropagatorCall.onRemoving q, PostPropagatorCall.reset q])).flatten.count
            (PostPropagatorCall.onRemoving p) = l.count p) ∧
      ((l.map (fun q =>
          [PostPropagatorCall.onRemoving q, PostPropagatorCall.reset q])).flatten.count
            (PostPropagatorCall.reset p) = l.count p) ∧
      ((l.map (fun q =>
          [PostPropagatorCall.onRemoving q, PostPropagatorCall.reset q])).flatten.count
            (PostPropagatorCall.onAdding p) = 0) := by
    intro l p
    induction l with
    | nil => simp
    | cons q l ih =>
      obtain ⟨h1, h2, h3⟩ := ih
      simp only [List.map_cons, List.flatten_cons, List.count_append, h1, h2, h3]
      by_cases hq : q = p
      · subst hq
        simp [List.count_cons, Nat.add_comm]
      · simp [List.count_cons, hq]
  have hcounts : ∀ p : Nat,
      ((s.postPropagators.reverse.map (fun q =>
          [PostPropagatorCall.onRemoving q, PostPropagatorCall.reset q])).flatten.count
            (PostPropagatorCall.onRemoving p) = s.postPropagators.count p) ∧
      ((s.postPropagators.reverse.map (fun q =>
          [PostPropagatorCall.onRemoving q, PostPropagatorCall.reset q])).flatten.count
            (PostPropagatorCall.reset p) = s.postPropagators.count p) ∧
      ((s.postPropagators.reverse.map (fun q =>
          [PostPropagatorCall.onRemoving q, PostPropagatorCall.reset q])).flatten.count
            (PostPropagatorCall.onAdding p) = 0) := by
    intro p
    have h := hcount s.postPropagators.reverse p
    simpa using h
  refine ⟨_, ?_, rfl, hcounts, ?_, rfl, rfl, rfl, ?_⟩
  · simp only [clearConflictStatusTraced, resetPostPropagatorsTraced,
      resetPostPropagatorsLoop_spec _ s [] (le_refl _), List.nil_append]
    rfl
  · intro hnodup p hp
    have hone : s.postPropagators.count p = 1 := List.count_eq_one_of_mem hnodup hp
    exact ⟨(hcounts p).1.trans hone, (hcounts p).2.1.trans hone⟩
  · simp [clearConflictStatus, conflictDetected]

/-- Witness for C31: with the post-propagators 3 and 5 pending, in the order of their addition,
and a conflict recorded, `clearConflictStatus` calls `onRemoving` and `reset` on 5 and then on
3, once each. -/
theorem clearConflictStatus_callbacks_witness :
    ∃ calls : List PostPropagatorCall,
      pendingState.clearConflictStatusTraced = some (pendingState.clearConflictStatus, calls) ∧
      calls = [PostPropagatorCall.onRemoving 5, PostPropagatorCall.reset 5,
        PostPropagatorCall.onRemoving 3, PostPropagatorCall.reset 3] ∧
      calls.count (PostPropagatorCall.onRemoving 3) = 1 ∧
      pendingState.conflictDetected = true ∧
      pendingState.clearConflictStatus.conflictDetected = false :=
  (clearConflictStatus_callbacks pendingState).imp (fun _ h =>
    ⟨h.1, h.2.1.trans (by decide), (h.2.2.2.1 (by decide) 3 (by decide)).1, by decide,
      h.2.2.2.2.2.2.2⟩)

/-! ## Minimization of a small unsat core (C34) -/

/-- C34: when the unsat core has at most two literals, `minimizeUnsatCore` runs no re-solve and
returns the solver, with its core and its two budgets, and the assumptions vector exactly as
they were on entry. -/
theorem minimizeUnsatCore_small_core (ext : Collaborators) (s : Solver)
    (assumptions : List Literal) (core : Clause) (hcore : s.unsatCore = some core)
    (hsize : core.size ≤ 2) :
    minimizeUnsatCore ext s assumptions = (s, assumptions, []) ∧
    (minimizeUnsatCore ext s assumptions).1.unsatCore = some core ∧
    (minimizeUnsatCore ext s assumptions).1.maxNumberOfChoices = s.maxNumberOfChoices ∧
    (minimizeUnsatCore ext s assumptions).1.maxNumberOfRestarts = s.maxNumberOfRestarts ∧
    (minimizeUnsatCore ext s assumptions).2.1 = assumptions ∧
    (minimizeUnsatCore ext s assumptions).2.2 = [] := by
  have h : minimizeUnsatCore ext s assumptions = (s, assumptions, []) := by
    simp only [minimizeUnsatCore]
    rw [minimizeUnsatCoreLoop_small ext s.liftBudgets assumptions core hcore hsize]
    rfl
  rw [h]
  exact ⟨rfl, hcore, rfl, rfl, rfl, rfl⟩

/-- Witness for C34: on the core `{x1, x2}` no re-solve is run and the budgets 7 and 9 are
back. -/
theorem minimizeUnsatCore_small_core_witness :
    (minimizeUnsatCore sampleCollaborators smallCoreState [⟨1, true⟩, ⟨2, true⟩]).2.2 = [] ∧
    (minimizeUnsatCore sampleCollaborators smallCoreState
      [⟨1, true⟩, ⟨2, true⟩]).1.maxNumberOfChoices = 7 ∧
    (minimizeUnsatCore sampleCollaborators smallCoreState
      [⟨1, true⟩, ⟨2, true⟩]).1.maxNumberOfRestarts = 9 :=
  have h := minimizeUnsatCore_small_core sampleCollaborators smallCoreState
    [⟨1, true⟩, ⟨2, true⟩] { Clause.new with literals := [⟨1, false⟩, ⟨2, false⟩] } rfl
    (by decide)
  ⟨h.2.2.2.2.2, h.2.2.1, h.2.2.2.1⟩

/-! ## The cost of a model across a simplification (C33) -/

/-- The weights of the true literals of a list are those of the true literals that are not
auxiliary plus those of the true literals that are auxiliary. -/
theorem sum_true_weights_split (s : Solver) (l : List OptimizationLiteralData) :
    ((l.filter (fun o => s.isTrue o.lit)).map (·.weight)).sum =
      ((l.filter (fun o => !o.isAux && s.isTrue o.lit)).map (·.weight)).sum +
      ((l.filter (fun o => o.isAux && s.isTrue o.lit)).map (·.weight)).sum := by
  induction l with
  | nil => rfl
  | cons o l ih =>
    by_cases htrue : s.isTrue o.lit = true
    · by_cases haux : o.isAux = true
      · simp only [List.filter_cons, htrue, haux, Bool.not_true, Bool.false_and, Bool.true_and,
          if_true, List.map_cons, List.sum_cons, ih, Bool.false_eq_true, if_false]
        omega
      · have haux2 : o.isAux = false := by simpa using haux
        simp only [List.filter_cons, htrue, haux2, Bool.not_false, Bool.false_and, Bool.true_and,
          if_true, List.map_cons, List.sum_cons, ih, Bool.false_eq_true, if_false]
        omega
    · have htrue2 : s.isTrue o.lit = false := by simpa using htrue
      simp only [List.filter_cons, htrue2, Bool.and_false, Bool.false_eq_true, if_false, ih]

/-- No literal that is not true is counted by `computeCostOfModel`. -/
theorem filter_counted_of_not_true (s : Solver) (l : List OptimizationLiteralData) :
    (l.filter (fun o => !s.isTrue o.lit)).filter (fun o => !o.isAux && s.isTrue o.lit) = [] := by
  rw [List.filter_filter, List.filter_eq_nil_iff]
  intro o _
  cases s.isTrue o.lit <;> simp

/-- The state left by `simplifyOptimizationLiterals`, whatever the precomputed cost of the level
was: the list of the level holds the literals that are not true, the precomputed cost of the
level has grown by the weights of the true ones. -/
theorem simplifyOptimizationLiterals_state (s : Solver) (level : Nat)
    (hpre : s.getPrecomputedCost level < UINT64_SIZE)
    (hsizes : s.precomputedCosts.length = s.optimizationLiterals.length) :
    (s.simplifyOptimizationLiterals level).2.optimizationLiteralsOf level =
      (s.optimizationLiteralsOf level).filter (fun o => !s.isTrue o.lit) ∧
    (s.simplifyOptimizationLiterals level).2.getPrecomputedCost level =
      (s.getPrecomputedCost level + (((s.optimizationLiteralsOf level).filter
        (fun o => s.isTrue o.lit)).map (·.weight)).sum) % UINT64_SIZE := by
  obtain ⟨_, _, htake, _, hcost⟩ := simplifyStep_foldl s (s.optimizationLiteralsOf level)
    (s.getPrecomputedCost level) hpre (s.optimizationLiteralsOf level).length (Nat.le_refl _)
  rw [List.take_length] at htake hcost
  have hlist : (s.simplifyOptimizationLiterals level).2.optimizationLiterals =
      s.optimizationLiterals.set level
        ((s.optimizationLiteralsOf level).filter (fun o => !s.isTrue o.lit)) := by
    simp only [simplifyOptimizationLiterals, simplifyLoop] at htake ⊢
    rw [htake]
  have hcosts : (s.simplifyOptimizationLiterals level).2.precomputedCosts =
      s.precomputedCosts.set level
        ((s.getPrecomputedCost level + (((s.optimizationLiteralsOf level).filter
          (fun o => s.isTrue o.lit)).map (·.weight)).sum) % UINT64_SIZE) := by
    simp only [simplifyOptimizationLiterals, simplifyLoop] at hcost ⊢
    rw [hcost]
  constructor
  · by_cases hl : level < s.optimizationLiterals.length
    · simp [optimizationLiteralsOf, hlist, hl]
    · have hnone : s.optimizationLiterals[level]? = none :=
        List.getElem?_eq_none (Nat.not_lt.mp hl)
      simp [optimizationLiteralsOf, hlist, List.set_eq_of_length_le (Nat.not_lt.mp hl), hnone]
  · by_cases hl : level < s.optimizationLiterals.length
    · have hl2 : level < s.precomputedCosts.length := by rw [hsizes]; exact hl
      simp [getPrecomputedCost, hcosts, hl2]
    · have hnone : s.optimizationLiterals[level]? = none :=
        List.getElem?_eq_none (Nat.not_lt.mp hl)
      have hl2 : s.precomputedCosts.length ≤ level := by rw [hsizes]; exact Nat.not_lt.mp hl
      have hnone2 : s.precomputedCosts[level]? = none := List.getElem?_eq_none hl2
      simp [getPrecomputedCost, hcosts, List.set_eq_of_length_le hl2, hnone2,
        optimizationLiteralsOf, hnone, UINT64_SIZE]

/-- C33 (as amended): for every level and every assignment, the value that
`computeCostOfModel( level )` returns right after `simplifyOptimizationLiterals( level )` is,
modulo `2 ^ 64`, the value it returned right before plus the weights of the optimization
literals of the level that are auxiliary and true; the two values are the same when no true
optimization literal of the level is auxiliary. The two per-level vectors have the same size, as
`setLevels` leaves them, and the precomputed cost is a `uint64_t` value. -/
theorem computeCostOfModel_simplifyOptimizationLiterals (s : Solver) (level : Nat)
    (hpre : s.getPrecomputedCost level < UINT64_SIZE)
    (hsizes : s.precomputedCosts.length = s.optimizationLiterals.length) :
    (s.simplifyOptimizationLiterals level).2.computeCostOfModel level =
      (s.computeCostOfModel level +
        (((s.optimizationLiteralsOf level).filter
          (fun o => o.isAux && s.isTrue o.lit)).map (·.weight)).sum) % UINT64_SIZE ∧
    ((∀ o ∈ s.optimizationLiteralsOf level, o.isAux = true → s.isTrue o.lit = false) →
      (s.simplifyOptimizationLiterals level).2.computeCostOfModel level =
        s.computeCostOfModel level) := by
  have hpos : 0 < UINT64_SIZE := by unfold UINT64_SIZE; positivity
  obtain ⟨hlist, hcost⟩ := simplifyOptimizationLiterals_state s level hpre hsizes
  have hstep : costStep (s.simplifyOptimizationLiterals level).2 = costStep s := rfl
  have hbefore := foldl_costStep s (s.optimizationLiteralsOf level)
    (s.getPrecomputedCost level) hpre
  have hafter : (s.simplifyOptimizationLiterals level).2.computeCostOfModel level =
      (s.computeCostOfModel level +
        (((s.optimizationLiteralsOf level).filter
          (fun o => o.isAux && s.isTrue o.lit)).map (·.weight)).sum) % UINT64_SIZE := by
    show ((s.simplifyOptimizationLiterals level).2.optimizationLiteralsOf level).foldl
      (costStep (s.simplifyOptimizationLiterals level).2)
      ((s.simplifyOptimizationLiterals level).2.getPrecomputedCost level) = _
    rw [hstep, hlist, hcost, foldl_costStep s _ _ (Nat.mod_lt _ hpos),
      filter_counted_of_not_true, List.map_nil, List.sum_nil, Nat.add_zero, Nat.mod_mod]
    show _ = ((s.optimizationLiteralsOf level).foldl (costStep s) (s.getPrecomputedCost level) +
      _) % UINT64_SIZE
    rw [hbefore, sum_true_weights_split, Nat.mod_add_mod, Nat.add_assoc]
  refine ⟨hafter, ?_⟩
  intro hnone
  have hempty : (s.optimizationLiteralsOf level).filter
      (fun o => o.isAux && s.isTrue o.lit) = [] := by
    rw [List.filter_eq_nil_iff]
    intro o ho
    by_cases haux : o.isAux = true
    · simp [hnone o ho haux]
    · simp [haux]
  rw [hafter, hempty, List.map_nil, List.sum_nil, Nat.add_zero]
  show ((s.optimizationLiteralsOf level).foldl (costStep s) (s.getPrecomputedCost level))
    % UINT64_SIZE = (s.optimizationLiteralsOf level).foldl (costStep s) (s.getPrecomputedCost level)
  rw [hbefore, Nat.mod_mod]

/-- Witness for C33: in `costState` the cost is 19 before the simplification and 26 after it,
the weight 7 of the true auxiliary literal `x2` having been added; in `wrapCostState`, which has
no auxiliary literal, the cost is 0 before and after. -/
theorem computeCostOfModel_simplifyOptimizationLiterals_witness :
    costState.computeCostOfModel 0 = 19 ∧
    (costState.simplifyOptimizationLiterals 0).2.computeCostOfModel 0 = 26 ∧
    wrapCostState.computeCostOfModel 0 = 0 ∧
    (wrapCostState.simplifyOptimizationLiterals 0).2.computeCostOfModel 0 = 0 :=
  ⟨by decide,
    (computeCostOfModel_simplifyOptimizationLiterals costState 0 (by decide)
      (by decide)).1.trans (by decide),
    by decide,
    ((computeCostOfModel_simplifyOptimizationLiterals wrapCostState 0 (by decide)
      (by decide)).2 (by decide)).trans (by decide)⟩

/-- Counterexample to C33 as stated: with a single optimization literal, auxiliary, true and of
weight 5, `computeCostOfModel` returns 0 before `simplifyOptimizationLiterals` and 5 after it. -/
theorem computeCostOfModel_changed_by_simplification :
    auxCostState.getPrecomputedCost 0 = 0 ∧
    auxCostState.computeCostOfModel 0 = 0 ∧
    (auxCostState.simplifyOptimizationLiterals 0).2.variableStore = auxCostState.variableStore ∧
    (auxCostState.simplifyOptimizationLiterals 0).2.computeCostOfModel 0 = 5 :=
  ⟨by decide, by decide, rfl, by decide⟩

/-! ## Clause additions that return false (C32) -/

/-- The loop of `addClauseRuntime( Literal )` returns false only from the test
`conflictDetected()`. -/
theorem addClauseRuntimeLoop_false (ext : Collaborators) :
    ∀ (fuel : Nat) (s s' : Solver), addClauseRuntimeLoop ext fuel s = some (false, s') →
      s'.conflictDetected = true := by
  intro fuel
  induction fuel with
  | zero =>
    intro s s' h
    unfold addClauseRuntimeLoop at h
    split at h
    · cases h
    · cases h
  | succ fuel ih =>
    intro s s' h
    have key : ∀ s2 : Solver,
        (if s2.conflictDetected then some (false, s2) else addClauseRuntimeLoop ext fuel s2) =
          some (false, s') → s'.conflictDetected = true := by
      intro s2 h2
      by_cases hc : s2.conflictDetected = true
      · rw [if_pos hc] at h2
        cases h2
        exact hc
      · rw [if_neg hc] at h2
        exact ih _ _ h2
    unfold addClauseRuntimeLoop at h
    by_cases hnext : s.variableStore.hasNextVariableToPropagate = true
    · rw [if_pos hnext] at h
      exact key _ h
    · rw [if_neg hnext] at h
      cases h

/-- A false result of `addClause( Literal )` leaves the literal as conflict literal. -/
theorem addClauseLiteral_false (ext : Collaborators) (fuel : Nat) (s s' : Solver)
    (literal : Literal) (h : addClauseLiteral ext fuel s literal = some (false, s')) :
    s'.conflictLiteral = literal := by
  unfold addClauseLiteral at h
  split at h
  · cases h
  · split at h
    · cases h
    · cases h
    · cases h
      rfl

/-- A false result of `addClause( Clause* )` leaves `Literal::conflict` as conflict literal. -/
theorem addClause_false (ext : Collaborators) (fuel : Nat) (s s' : Solver) (clause : Clause)
    (h : addClause ext fuel s clause = some (false, s')) :
    s'.conflictLiteral = Literal.conflict := by
  unfold addClause at h
  split at h
  · cases h
  · split at h
    · split at h
      · cases h
      · cases h
      · cases h
        rfl
    · cases h
      rfl

/-- C32 (as amended): a false result of `addClause( Literal )` on a literal other than
`Literal::null`, of `addClause( Clause* )` or of `cleanAndAddClause` leaves a conflict recorded:
`conflictDetected()` is true afterwards. A false result of `addClauseRuntime( Literal )` leaves
a conflict recorded when the literal was not false on entry; when it was, false is returned at
once and the solver is left as it was. `addClauseRuntime( Clause* )` returns false on the empty
clause with the solver left as it was, and on a unit clause as `addClauseRuntime( Literal )` on
its literal; it returns true on every longer clause. -/
theorem addClause_false_records_conflict (ext : Collaborators) (fuel : Nat) (s : Solver) :
    (∀ (literal : Literal) (s' : Solver), literal ≠ Literal.null →
      addClauseLiteral ext fuel s literal = some (false, s') → s'.conflictDetected = true) ∧
    (∀ (clause : Clause) (s' : Solver),
      addClause ext fuel s clause = some (false, s') → s'.conflictDetected = true) ∧
    (∀ (clause : Clause) (s' : Solver),
      cleanAndAddClause ext fuel s clause = some (false, s') → s'.conflictDetected = true) ∧
    (∀ (literal : Literal) (s' : Solver),
      addClauseRuntimeLiteral ext fuel s literal = some (false, s') →
        (s.isFalse literal = false → s'.conflictDetected = true) ∧
        (s.isFalse literal = true → s' = s)) ∧
    (∀ (clause : Clause) (s' : Solver),
      addClauseRuntime ext fuel s clause = some (false, s') →
        (clause.size = 0 ∧ s' = s) ∨
        (clause.size = 1 ∧
          addClauseRuntimeLiteral ext fuel s (clause.getAt 0) = some (false, s'))) := by
  refine ⟨?_, ?_, ?_, ?_, ?_⟩
  · intro literal s' hn h
    have hl := addClauseLiteral_false ext fuel s s' literal h
    simp [conflictDetected, hl, hn]
  · intro clause s' h
    exact conflictDetected_of_conflict s' (addClause_false ext fuel s s' clause h)
  · intro clause s' h
    unfold cleanAndAddClause at h
    simp only at h
    split at h
    · cases h
    · split at h
      · cases h
        exact conflictDetected_of_conflict _ rfl
      · split at h
        · unfold addClauseBinary at h
          split at h
          · cases h
          · exact conflictDetected_of_conflict s' (addClause_false ext fuel s s' _ h)
        · exact conflictDetected_of_conflict s' (addClause_false ext fuel s s' _ h)
  · intro literal s' h
    unfold addClauseRuntimeLiteral at h
    split at h
    · cases h
    · split at h
      · rename_i hf
        cases h
        exact ⟨fun hnf => absurd (hf.symm.trans hnf) (by decide), fun _ => rfl⟩
      · rename_i hf
        exact ⟨fun _ => addClauseRuntimeLoop_false ext fuel _ s' h,
          fun hf2 => absurd hf2 hf⟩
  · intro clause s' h
    unfold addClauseRuntime at h
    split at h
    · rename_i hsize
      cases h
      exact Or.inl ⟨hsize, rfl⟩
    · rename_i hsize
      exact Or.inr ⟨hsize, h⟩
    · cases h
    · cases h

/-- Witness for C32: when the level-0 propagation of `x2` meets a conflict, `addClause` and
`cleanAndAddClause` return false on the unit clause `(x2)` and `addClause( Literal )` on `x2`,
and a conflict is detected in the state each of them leaves; `addClauseRuntime( Literal )`
returns false on `x1` in a state where `x1` is false and leaves that state as it was. -/
theorem addClause_false_records_conflict_witness :
    ((addClauseLiteral conflictingCollaborators 1 threeVariables ⟨2, false⟩).getD
      (true, threeVariables)).2.conflictDetected = true ∧
    ((addClause conflictingCollaborators 1 threeVariables unitClause).getD
      (true, threeVariables)).2.conflictDetected = true ∧
    ((cleanAndAddClause conflictingCollaborators 1 threeVariables unitClause).getD
      (true, threeVariables)).2.conflictDetected = true ∧
    ((addClauseRuntimeLiteral sampleCollaborators 0 falseLiteralState ⟨1, false⟩).getD
      (false, Solver.new)).2 = falseLiteralState :=
  ⟨(addClause_false_records_conflict conflictingCollaborators 1 threeVariables).1
      ⟨2, false⟩ _ (by decide) rfl,
    (addClause_false_records_conflict conflictingCollaborators 1 threeVariables).2.1
      unitClause _ rfl,
    (addClause_false_records_conflict conflictingCollaborators 1 threeVariables).2.2.1
      unitClause _ rfl,
    ((addClause_false_records_conflict sampleCollaborators 0 falseLiteralState).2.2.2.1
      ⟨1, false⟩ _ rfl).2 (by decide)⟩

/-- Counterexample to C32 as stated: `addClauseRuntime( Literal )` on a literal that is false
returns false and no conflict is recorded afterwards; so does `addClauseRuntime( Clause* )` on
the unit clause of that literal, and on the empty clause in a solver with three undefined
variables. -/
theorem addClauseRuntime_false_without_conflict :
    falseLiteralState.isFalse ⟨1, false⟩ = true ∧
    (addClauseRuntimeLiteral sampleCollaborators 0 falseLiteralState ⟨1, false⟩).map
      (fun r => (r.1, r.2.conflictDetected)) = some (false, false) ∧
    (addClauseRuntime sampleCollaborators 0 falseLiteralState
      { Clause.new with literals := [⟨1, false⟩] }).map
      (fun r => (r.1, r.2.conflictDetected)) = some (false, false) ∧
    (addClauseRuntime sampleCollaborators 0 threeVariables Clause.new).map
      (fun r => (r.1, r.2.conflictDetected)) = some (false, false) := by
  decide

end Solver

namespace DebugInterface

/-! ## Loading a history file (C35, C36, C37) -/

/-- The loop of `loadHistory` returns false at the first line that is refused, when the lines
before it are read. -/
theorem loadHistoryLoop_refused (names : VariableNames) (line : List Char)
    (back : List (List Char)) (hline : readLine names line = some none) :
    ∀ (front : List (List Char)) (queries : List Var) (answers : List TruthValue),
      (∀ l ∈ front, readLine names l ≠ none ∧ readLine names l ≠ some none) →
      loadHistoryLoop names (front ++ line :: back) queries answers = some none := by
  intro front
  induction front with
  | nil =>
    intro queries answers _
    simp [loadHistoryLoop, hline]
  | cons l front ih =>
    intro queries answers hfront
    have hl := hfront l (List.mem_cons_self _ _)
    have hrest : ∀ l' ∈ front, readLine names l' ≠ none ∧ readLine names l' ≠ some none :=
      fun l' hl' => hfront l' (List.mem_cons_of_mem _ hl')
    rw [List.cons_append, loadHistoryLoop]
    match hr : readLine names l with
    | none => exact absurd hr hl.1
    | some none => exact absurd hr hl.2
    | some (some (query, answer)) => exact ih _ _ hrest

/-- C35: whenever `loadHistory` returns false, the debugger, and with it the list of user
assertions, is exactly what it was before the call. It returns false when the file cannot be
opened, and when some line, after lines that were read, is refused; a line is refused when
its name, the text before the first space, is not the name of a variable, and when its answer,
the text after the first space, is neither `true` nor `false`. -/
theorem loadHistory_false_keeps_assertions (names : VariableNames) (d : DebugInterface) :
    (∀ (file : Option String) (d' : DebugInterface),
      loadHistory names file d = some (false, d') →
        d' = d ∧ d'.userAssertions = d.userAssertions) ∧
    loadHistory names none d = some (false, d) ∧
    (∀ (content : String) (front back : List (List Char)) (line : List Char),
      getlines content.data = front ++ line :: back →
      (∀ l ∈ front, readLine names l ≠ none ∧ readLine names l ≠ some none) →
      readLine names line = some none →
        loadHistory names (some content) d = some (false, d)) ∧
    (∀ line name : List Char,
      substr line 0 (toSize (toInt (findSpace line))) = some name →
      names.getVariable (String.mk name) = none → readLine names line = some none) ∧
    (∀ (line name answer : List Char) (query : Var),
      substr line 0 (toSize (toInt (findSpace line))) = some name →
      names.getVariable (String.mk name) = some query →
      substr line (toSize (toInt (findSpace line) + 1)) line.length = some answer →
      answer ≠ "true".data → answer ≠ "false".data → readLine names line = some none) := by
  refine ⟨?_, rfl, ?_, ?_, ?_⟩
  · intro file d' h
    unfold loadHistory at h
    split at h
    · cases h
      exact ⟨rfl, rfl⟩
    · split at h
      · cases h
      · cases h
        exact ⟨rfl, rfl⟩
      · cases h
  · intro content front back line hlines hfront hline
    unfold loadHistory
    simp only [hlines, loadHistoryLoop_refused names line back hline front [] [] hfront]
  · intro line name hname hvar
    unfold readLine
    simp only [hname, hvar]
  · intro line name answer query hname hvar hans h1 h2
    unfold readLine
    simp only [hname, hvar, hans]
    simp [h1, h2]

/-- Witness for C35: with the names `a1` and `a2` known, a file whose second line names `b2`,
and a file whose second line answers `yes`, are refused although their first line is read, and
the two assertions of the debugger are kept. -/
theorem loadHistory_false_keeps_assertions_witness :
    loadHistory twoNames (some "a1 true\nb2 false\n") sampleDebugger =
      some (false, sampleDebugger) ∧
    loadHistory twoNames (some "a1 true\na2 yes") sampleDebugger =
      some (false, sampleDebugger) ∧
    ((loadHistory twoNames (some "a1 true\na2 yes") sampleDebugger).getD
      (true, freshDebugger)).2.userAssertions = [⟨1, false⟩, ⟨2, true⟩] :=
  ⟨(loadHistory_false_keeps_assertions twoNames sampleDebugger).2.2.1 "a1 true\nb2 false\n"
      ["a1 true".data] [] "b2 false".data (by decide) (by decide)
      ((loadHistory_false_keeps_assertions twoNames sampleDebugger).2.2.2.1
        "b2 false".data "b2".data (by decide) (by decide)),
    (loadHistory_false_keeps_assertions twoNames sampleDebugger).2.2.1 "a1 true\na2 yes"
      ["a1 true".data] [] "a2 yes".data (by decide) (by decide)
      ((loadHistory_false_keeps_assertions twoNames sampleDebugger).2.2.2.2
        "a2 yes".data "a2".data "yes".data 2 (by decide) (by decide) (by decide) (by decide)
        (by decide)),
    ((loadHistory_false_keeps_assertions twoNames sampleDebugger).1
      (some "a1 true\na2 yes") _ (by decide)).2⟩

/-! ## Saving and loading back (C36) -/

/-- The characters of a line of a history file, without its newline. -/
theorem historyLine_data (names : VariableNames) (a : Literal) :
    (historyLine names a).data =
      ((names.getName a.getVariable).data ++
        ' ' :: (if a.negative then "false".data else "true".data)) ++ ['\n'] := by
  cases hn : a.negative <;>
    simp [historyLine, Literal.isPositive, hn, String.data_append]

/-- The characters of the text that `saveHistory` builds. -/
theorem foldl_historyLine_data (names : VariableNames) (l : List Literal) :
    ∀ init : String,
      (l.foldl (fun acc a => acc ++ historyLine names a) init).data =
        init.data ++ (l.map (fun a => (historyLine names a).data)).flatten := by
  induction l with
  | nil =>
    intro init
    simp
  | cons a l ih =>
    intro init
    rw [List.foldl_cons, ih, String.data_append]
    simp [List.append_assoc]

/-- A line without newline, followed by a newline, is delivered by `getline` as it is. -/
theorem getlinesFrom_line (rest : List Char) :
    ∀ l line : List Char, '\n' ∉ l →
      getlinesFrom (l ++ '\n' :: rest) line = (line ++ l) :: getlinesFrom rest [] := by
  intro l
  induction l with
  | nil =>
    intro line _
    simp [getlinesFrom]
  | cons c l ih =>
    intro line h
    have hc : c ≠ '\n' := fun e => h (by simp [e])
    have hl : '\n' ∉ l := fun e => h (by simp [e])
    rw [List.cons_append, getlinesFrom, if_neg hc, ih _ hl]
    simp [List.append_assoc]

/-- Lines without newline, each followed by a newline, are read back one by one. -/
theorem getlines_flatten (ls : List (List Char)) (h : ∀ l ∈ ls, '\n' ∉ l) :
    getlines ((ls.map (fun l => l ++ ['\n'])).flatten) = ls := by
  induction ls with
  | nil => rfl
  | cons l ls ih =>
    have hl := h l (List.mem_cons_self _ _)
    have hls : ∀ l' ∈ ls, '\n' ∉ l' := fun l' hl' => h l' (List.mem_cons_of_mem _ hl')
    have ih2 := ih hls
    unfold getlines at ih2 ⊢
    rw [List.map_cons, List.flatten_cons, List.append_assoc, List.singleton_append,
      getlinesFrom_line _ l [] hl, ih2, List.nil_append]

theorem toInt_small (n : Nat) (h : n < 2 ^ 31) : toInt n = (n : Int) := by
  unfold toInt
  have h1 : n % 2 ^ 32 = n := Nat.mod_eq_of_lt (by omega)
  rw [h1, if_pos h]

theorem toSize_small (n : Nat) (h : n < 2 ^ 31) : toSize (n : Int) = n := by
  unfold toSize
  omega

theorem toSize_succ (n : Nat) (h : n < 2 ^ 31) : toSize ((n : Int) + 1) = n + 1 := by
  unfold toSize
  omega

theorem findSpace_line (name answer : List Char) (h : ' ' ∉ name) :
    findSpace (name ++ ' ' :: answer) = name.length := by
  have hidx : (name ++ ' ' :: answer).indexOf ' ' = name.length := by
    induction name with
    | nil => simp
    | cons c name ih =>
      have hc : c ≠ ' ' := fun e => h (by simp [e])
      have hn : ' ' ∉ name := fun e => h (by simp [e])
      simp [List.indexOf_cons, hc, ih hn]
  simp [findSpace, hidx]

/-- A line made of the name of a variable, a space and `true` or `false` is read as that
variable and that answer. -/
theorem readLine_line (names : VariableNames) (name : List Char) (v : Var) (negative : Bool)
    (hspace : ' ' ∉ name) (hlen : name.length < 2 ^ 31)
    (hvar : names.getVariable (String.mk name) = some v) :
    readLine names (name ++ ' ' :: (if negative then "false".data else "true".data)) =
      some (some (v, if negative then TruthValue.FALSE else TruthValue.TRUE)) := by
  have hname : substr (name ++ ' ' :: (if negative then "false".data else "true".data)) 0
      name.length = some name := by
    simp [substr]
  have hanswer : substr (name ++ ' ' :: (if negative then "false".data else "true".data))
      (name.length + 1)
      (name ++ ' ' :: (if negative then "false".data else "true".data)).length =
        some (if negative then "false".data else "true".data) := by
    have hdrop : (name ++ ' ' :: (if negative then "false".data else "true".data)).drop
        (name.length + 1) = (if negative then "false".data else "true".data) := by
      rw [← List.drop_drop 1 name.length, List.drop_left]
      rfl
    have hle : ¬ (name.length + 1 >
        (name ++ ' ' :: (if negative then "false".data else "true".data)).length) := by
      simp
    rw [substr, if_neg hle, hdrop, List.take_of_length_le (by simp; omega)]
  unfold readLine
  simp only [findSpace_line name _ hspace, toInt_small _ hlen, toSize_small _ hlen,
    toSize_succ _ hlen, hname, hvar, hanswer]
  cases negative <;> rfl

/-- The loop of `loadHistory` reads the lines written for a list of assertions. -/
theorem loadHistoryLoop_lines (names : VariableNames) :
    ∀ (l : List Literal) (queries : List Var) (answers : List TruthValue),
      (∀ a ∈ l, ' ' ∉ (names.getName a.getVariable).data ∧
        (names.getName a.getVariable).data.length < 2 ^ 31 ∧
        names.getVariable (names.getName a.getVariable) = some a.getVariable) →
      loadHistoryLoop names
        (l.map (fun a => (names.getName a.getVariable).data ++
          ' ' :: (if a.negative then "false".data else "true".data))) queries answers =
        some (some (queries ++ l.map Literal.getVariable,
          answers ++ l.map (fun a =>
            if a.negative then TruthValue.FALSE else TruthValue.TRUE))) := by
  intro l
  induction l with
  | nil =>
    intro queries answers _
    simp [loadHistoryLoop]
  | cons a l ih =>
    intro queries answers h
    obtain ⟨hspace, hlen, hvar⟩ := h a (List.mem_cons_self _ _)
    have hrest := fun a' ha' => h a' (List.mem_cons_of_mem a ha')
    rw [List.map_cons, loadHistoryLoop,
      readLine_line names _ a.getVariable a.negative hspace hlen hvar]
    simp only
    rw [ih _ _ hrest]
    simp [List.append_assoc]

/-- The literals built from the two loaded vectors are the assertions that were saved. -/
theorem zipWith_loadedAssertion (l : List Literal) :
    List.zipWith loadedAssertion (l.map Literal.getVariable)
      (l.map (fun a => if a.negative then TruthValue.FALSE else TruthValue.TRUE)) = l := by
  induction l with
  | nil => rfl
  | cons a l ih =>
    rw [List.map_cons, List.map_cons, List.zipWith_cons_cons, ih]
    congr 1
    obtain ⟨v, negative⟩ := a
    cases negative <;> rfl

/-- C36: for every list of user assertions whose variable names contain neither a space nor a
newline, are shorter than `2 ^ 31` characters and are the names under which their variables are
found, `loadHistory` on the file that `saveHistory` wrote, into a debugger with no assertions,
returns true and yields the same assertions, in the same order and with the same polarity. -/
theorem loadHistory_saveHistory (names : VariableNames) (d : DebugInterface)
    (hnames : ∀ a ∈ d.userAssertions,
      ' ' ∉ (names.getName a.getVariable).data ∧
      '\n' ∉ (names.getName a.getVariable).data ∧
      (names.getName a.getVariable).length < 2 ^ 31 ∧
      names.getVariable (names.getName a.getVariable) = some a.getVariable) :
    (saveHistory names true d).1 = true ∧
    loadHistory names (saveHistory names true d).2 { d with userAssertions := [] } =
      some (true, d) := by
  refine ⟨rfl, ?_⟩
  have hfile : (saveHistory names true d).2 =
      some (d.userAssertions.foldl (fun acc a => acc ++ historyLine names a) "") := rfl
  have hdata : (d.userAssertions.foldl (fun acc a => acc ++ historyLine names a) "").data =
      ((d.userAssertions.map (fun a => (names.getName a.getVariable).data ++
        ' ' :: (if a.negative then "false".data else "true".data))).map
          (fun l => l ++ ['\n'])).flatten := by
    rw [foldl_historyLine_data, List.map_map]
    simp only [historyLine_data]
    rfl
  have hnewline : ∀ l ∈ d.userAssertions.map (fun a => (names.getName a.getVariable).data ++
      ' ' :: (if a.negative then "false".data else "true".data)), '\n' ∉ l := by
    intro l hl
    rw [List.mem_map] at hl
    obtain ⟨a, ha, rfl⟩ := hl
    have hn := (hnames a ha).2.1
    cases a.negative <;> simp [hn]
  have hloop := loadHistoryLoop_lines names d.userAssertions [] []
    (fun a ha => ⟨(hnames a ha).1, (hnames a ha).2.2.1, (hnames a ha).2.2.2⟩)
  rw [hfile]
  unfold loadHistory
  simp only [hdata, getlines_flatten _ hnewline, hloop, List.nil_append,
    zipWith_loadedAssertion]

/-- Witness for C36: the assertions `a1` true and `a2` false, saved and loaded back into a
debugger without assertions, are the same two assertions. -/
theorem loadHistory_saveHistory_witness :
    (saveHistory twoNames true sampleDebugger).2 = some "a1 true\na2 false\n" ∧
    loadHistory twoNames (saveHistory twoNames true sampleDebugger).2 freshDebugger =
      some (true, sampleDebugger) :=
  ⟨by decide, (loadHistory_saveHistory twoNames sampleDebugger (by decide)).2⟩

/-! ## Assertions about the same variable (C37) -/

/-- The command `ASSERT_VARIABLE` keeps the assertions about distinct variables, when
`isAssertion` tells whether the variable is among the user assertions. -/
theorem assertVariables_distinct (isAssertion : DebugInterface → Var → Bool)
    (hmember : ∀ (d : DebugInterface) (v : Var),
      isAssertion d v = isVariableContainedInLiterals v d.userAssertions)
    (assertions : List Literal) :
    ∀ d : DebugInterface, d.assertionsDistinct →
      (assertVariables isAssertion d assertions).assertionsDistinct := by
  induction assertions with
  | nil =>
    intro d h
    exact h
  | cons a assertions ih =>
    intro d h
    apply ih
    unfold assertVariable
    split
    · exact h
    · split
      · exact h
      · rename_i hnot _
        rw [hmember] at hnot
        unfold assertionsDistinct at h ⊢
        simp only [List.map_append, List.map_cons, List.map_nil]
        rw [List.nodup_append]
        refine ⟨h, List.nodup_singleton _, ?_⟩
        intro v hv hv2
        rw [List.mem_singleton] at hv2
        apply hnot
        rw [List.mem_map] at hv
        obtain ⟨l, hl, hlv⟩ := hv
        simp only [isVariableContainedInLiterals, List.any_eq_true, beq_iff_eq]
        exact ⟨l, hl, hlv.trans hv2⟩

/-- The command `UNDO_ASSERTION` keeps the assertions about distinct variables. -/
theorem undoAssertion_distinct (d : DebugInterface) (undo : Nat) (h : d.assertionsDistinct) :
    (d.undoAssertion undo).assertionsDistinct := by
  unfold undoAssertion
  split
  · unfold assertionsDistinct at h ⊢
    exact List.Nodup.sublist (List.Sublist.map _ (List.eraseIdx_sublist _ _)) h
  · exact h

/-- C37 fails for the command that loads a history: with the names `a1` and `a2` known,
`loadHistory` on the two lines `a1 true` and `a1 false`, into a debugger without assertions,
returns true and leaves two assertions about the variable 1; so does loading twice the single
line `a1 true`. -/
theorem loadHistory_repeats_variable :
    freshDebugger.assertionsDistinct ∧
    loadHistory twoNames (some "a1 true\na1 false\n") freshDebugger =
      some (true, ⟨[⟨1, false⟩, ⟨1, true⟩], []⟩) ∧
    ¬ (⟨[⟨1, false⟩, ⟨1, true⟩], []⟩ : DebugInterface).assertionsDistinct ∧
    (loadHistory twoNames (some "a1 true\n") freshDebugger).bind
      (fun r => loadHistory twoNames (some "a1 true\n") r.2) =
      some (true, ⟨[⟨1, false⟩, ⟨1, false⟩], []⟩) ∧
    ¬ (⟨[⟨1, false⟩, ⟨1, false⟩], []⟩ : DebugInterface).assertionsDistinct := by
  decide

/-! ## Depth of the query determination (C38) -/

/-- The relaxed assumptions are the parent assumptions when the variable of the literal to
relax is not among them. -/
theorem relaxAssumptions_of_not_contained (parentAssumptions : List Literal)
    (relaxLiteral : Literal)
    (h : isVariableContainedInLiterals relaxLiteral.getVariable parentAssumptions = false) :
    relaxAssumptions parentAssumptions relaxLiteral = parentAssumptions := by
  unfold relaxAssumptions
  rw [List.filter_eq_self]
  intro a ha
  simp only [isVariableContainedInLiterals, List.any_eq_false, beq_iff_eq] at h
  simpa using h a ha

/-- The relaxed assumptions are never more than the parent assumptions. -/
theorem relaxAssumptions_length_le (parentAssumptions : List Literal) (relaxLiteral : Literal) :
    (relaxAssumptions parentAssumptions relaxLiteral).length ≤ parentAssumptions.length :=
  List.length_filter_le _ _

/-- The loop of `determineQueryVariableFounded` returns, and every call recorded during it is
made with fewer assumptions than its caller and within the depth that the assumptions allow,
provided the recursive call behaves so on every list of fewer assumptions. -/
theorem determineQueryVariableFoundedLoop_calls (ext : Collaborators)
    (dbg : DebugCollaborators) (d : DebugInterface) (startTime : Int)
    (recurse : List Literal → QueryState → List Literal → Nat → Option (Nat × QueryState))
    (parentAssumptions : List Literal) (level : Nat)
    (hlevel : level + parentAssumptions.length < UINT_SIZE)
    (hrec : ∀ (core : List Literal) (st1 : QueryState) (relaxed : List Literal),
      relaxed.length < parentAssumptions.length →
      ∃ n st2, recurse core st1 relaxed (level + 1) = some (n, st2) ∧
        ∃ new, st2.calls = st1.calls ++ new ∧
          ∀ c ∈ new, c.parentAssumptions.length < c.callerAssumptions.length ∧
            level + 1 < c.level ∧
            (c.level - (level + 1)) + c.parentAssumptions.length ≤ relaxed.length) :
    ∀ (unsatCore : List Literal) (numModels : Nat) (st : QueryState),
      ∃ n st', determineQueryVariableFoundedLoop ext dbg d startTime recurse parentAssumptions
          level unsatCore numModels st = some (n, st') ∧
        ∃ new, st'.calls = st.calls ++ new ∧
          ∀ c ∈ new, c.parentAssumptions.length < c.callerAssumptions.length ∧
            level < c.level ∧
            (c.level - level) + c.parentAssumptions.length ≤ parentAssumptions.length := by
  intro unsatCore
  induction unsatCore with
  | nil =>
    intro numModels st
    exact ⟨numModels, st, rfl, [], by simp, by simp⟩
  | cons relaxLiteral rest ih =>
    intro numModels st
    unfold determineQueryVariableFoundedLoop
    simp only
    split
    · exact ⟨_, _, rfl, [], by simp, by simp⟩
    · split
      · obtain ⟨n, st', h, new, hcalls, hnew⟩ :=
          ih numModels { st with clockReadings := st.clockReadings + 1 }
        exact ⟨n, st', h, new, hcalls, hnew⟩
      · rename_i hsize
        have hlt : (relaxAssumptions parentAssumptions relaxLiteral).length <
            parentAssumptions.length := by
          have hle := relaxAssumptions_length_le parentAssumptions relaxLiteral
          have hne : (relaxAssumptions parentAssumptions relaxLiteral).length ≠
              parentAssumptions.length := by simpa using hsize
          omega
        have hmod : (level + 1) % UINT_SIZE = level + 1 := Nat.mod_eq_of_lt (by omega)
        split
        · obtain ⟨n, st', h, new, hcalls, hnew⟩ := ih ((numModels + 1) % UINT_SIZE)
            { st with
              clockReadings := st.clockReadings + 1
              solver := resetSolver ext
                (runSolver ext st.solver (relaxAssumptions parentAssumptions relaxLiteral)
                  d.userAssertions).2
              variableEntropy := recordEntropy
                (runSolver ext st.solver (relaxAssumptions parentAssumptions relaxLiteral)
                  d.userAssertions).2 st.variableEntropy }
          exact ⟨n, st', h, new, hcalls, hnew⟩
        · rw [hmod]
          obtain ⟨n2, st2, hr, new2, hcalls2, hnew2⟩ := hrec
            (dbg.minimizeUnsatCore (resetSolver ext
              (runSolver ext st.solver (relaxAssumptions parentAssumptions relaxLiteral)
                d.userAssertions).2) (level + 1)).1
            { st with
              clockReadings := st.clockReadings + 1
              solver := (dbg.minimizeUnsatCore (resetSolver ext
                (runSolver ext st.solver (relaxAssumptions parentAssumptions relaxLiteral)
                  d.userAssertions).2) (level + 1)).2
              calls := st.calls ++
                [⟨level + 1, parentAssumptions,
                  relaxAssumptions parentAssumptions relaxLiteral⟩] }
            (relaxAssumptions parentAssumptions relaxLiteral) hlt
          rw [hr]
          simp only
          obtain ⟨n, st', h, new, hcalls, hnew⟩ := ih ((numModels + n2) % UINT_SIZE) st2
          refine ⟨n, st', h,
            ⟨level + 1, parentAssumptions, relaxAssumptions parentAssumptions relaxLiteral⟩ ::
              (new2 ++ new), ?_, ?_⟩
          · rw [hcalls, hcalls2]
            simp [List.append_assoc]
          · intro c hc
            rw [List.mem_cons, List.mem_append] at hc
            rcases hc with hc | hc | hc
            · subst hc
              refine ⟨hlt, Nat.lt_succ_self _, ?_⟩
              show (level + 1 - level) +
                (relaxAssumptions parentAssumptions relaxLiteral).length ≤ _
              omega
            · obtain ⟨h1, h2, h3⟩ := hnew2 c hc
              exact ⟨h1, by omega, by omega⟩
            · exact hnew c hc

/-- C38: `determineQueryVariableFounded` returns as soon as the recursion may be as deep as
there are parent assumptions. Every recursive call made during it receives strictly fewer
assumptions than its caller, and its depth, the difference of its level to the level of the
first call, together with the number of its assumptions does not exceed the number of the
initial assumptions; so the depth never exceeds that number. A core literal whose variable is
not among the assumptions of the caller is stepped over: only the clock is read, the solver is
not run and no recursive call is made. The level is an `unsigned int` that does not wrap
within that depth. -/
theorem determineQueryVariableFounded_depth (ext : Collaborators) (dbg : DebugCollaborators)
    (d : DebugInterface) (startTime : Int) (fuel : Nat) (unsatCore : List Literal)
    (st : QueryState) (parentAssumptions : List Literal) (level : Nat)
    (hfuel : parentAssumptions.length ≤ fuel)
    (hlevel : level + parentAssumptions.length < UINT_SIZE) :
    (∃ n st', determineQueryVariableFounded ext dbg d startTime fuel unsatCore st
        parentAssumptions level = some (n, st') ∧
      ∃ new, st'.calls = st.calls ++ new ∧
        ∀ c ∈ new, c.parentAssumptions.length < c.callerAssumptions.length ∧
          level < c.level ∧
          (c.level - level) + c.parentAssumptions.length ≤ parentAssumptions.length ∧
          c.level - level ≤ parentAssumptions.length) ∧
    (∀ (relaxLiteral : Literal) (rest : List Literal),
      isVariableContainedInLiterals relaxLiteral.getVariable parentAssumptions = false →
      determineQueryVariableFounded ext dbg d startTime fuel (relaxLiteral :: rest) st
          parentAssumptions level =
        if dbg.time st.clockReadings - startTime > QUERY_DETERMINATION_TIMEOUT then
          some (0, { st with clockReadings := st.clockReadings + 1 })
        else
          determineQueryVariableFounded ext dbg d startTime fuel rest
            { st with clockReadings := st.clockReadings + 1 } parentAssumptions level) := by
  constructor
  · have hmain : ∀ (fuel : Nat) (unsatCore : List Literal) (st : QueryState)
        (parentAssumptions : List Literal) (level : Nat),
        parentAssumptions.length ≤ fuel → level + parentAssumptions.length < UINT_SIZE →
        ∃ n st', determineQueryVariableFounded ext dbg d startTime fuel unsatCore st
            parentAssumptions level = some (n, st') ∧
          ∃ new, st'.calls = st.calls ++ new ∧
            ∀ c ∈ new, c.parentAssumptions.length < c.callerAssumptions.length ∧
              level < c.level ∧
              (c.level - level) + c.parentAssumptions.length ≤ parentAssumptions.length := by
      intro fuel
      induction fuel with
      | zero =>
        intro unsatCore st parentAssumptions level hfuel hlevel
        unfold determineQueryVariableFounded
        exact determineQueryVariableFoundedLoop_calls ext dbg d startTime _ parentAssumptions
          level hlevel (fun _ _ relaxed hlt => absurd hlt (by omega)) unsatCore 0 st
      | succ fuel ih =>
        intro unsatCore st parentAssumptions level hfuel hlevel
        unfold determineQueryVariableFounded
        exact determineQueryVariableFoundedLoop_calls ext dbg d startTime _ parentAssumptions
          level hlevel
          (fun core st1 relaxed hlt => ih core st1 relaxed (level + 1) (by omega) (by omega))
          unsatCore 0 st
    obtain ⟨n, st', h, new, hcalls, hnew⟩ :=
      hmain fuel unsatCore st parentAssumptions level hfuel hlevel
    refine ⟨n, st', h, new, hcalls, ?_⟩
    intro c hc
    obtain ⟨h1, h2, h3⟩ := hnew c hc
    exact ⟨h1, h2, h3, by omega⟩
  · intro relaxLiteral rest hnot
    have hsame := relaxAssumptions_of_not_contained parentAssumptions relaxLiteral hnot
    cases fuel with
    | zero =>
      unfold determineQueryVariableFounded
      rw [determineQueryVariableFoundedLoop]
      simp only [hsame, beq_self_eq_true, if_true]
    | succ fuel =>
      unfold determineQueryVariableFounded
      rw [determineQueryVariableFoundedLoop]
      simp only [hsame, beq_self_eq_true, if_true]

/-- Witness for C38: with two assumptions on `x1` and `x2` and the core `{x1, x3}`, relaxing
`x1` leads to one recursive call, at level 4 with the single assumption on `x2`, in which a
model is found; `x3` is not among the assumptions and is stepped over. Depth 2 is enough. -/
theorem determineQueryVariableFounded_depth_witness :
    (determineQueryVariableFounded assumptionRefusingCollaborators sampleDebugCollaborators
      freshDebugger 0 2 [⟨1, false⟩, ⟨3, false⟩] queryStart [⟨1, false⟩, ⟨2, false⟩] 3).map
      (fun r => (r.1, r.2.calls, r.2.clockReadings)) =
      some (1, [⟨4, [⟨1, false⟩, ⟨2, false⟩], [⟨2, false⟩]⟩], 3) ∧
    (∃ n st', determineQueryVariableFounded assumptionRefusingCollaborators
        sampleDebugCollaborators freshDebugger 0 2 [⟨1, false⟩, ⟨3, false⟩] queryStart
        [⟨1, false⟩, ⟨2, false⟩] 3 = some (n, st') ∧
      ∃ new, st'.calls = queryStart.calls ++ new ∧
        ∀ c ∈ new, c.parentAssumptions.length < c.callerAssumptions.length ∧
          3 < c.level ∧
          (c.level - 3) + c.parentAssumptions.length ≤ 2 ∧
          c.level - 3 ≤ 2) ∧
    determineQueryVariableFounded assumptionRefusingCollaborators sampleDebugCollaborators
        freshDebugger 0 2 [⟨3, false⟩] queryStart [⟨1, false⟩, ⟨2, false⟩] 3 =
      determineQueryVariableFounded assumptionRefusingCollaborators sampleDebugCollaborators
        freshDebugger 0 2 [] { queryStart with clockReadings := 1 } [⟨1, false⟩, ⟨2, false⟩] 3 :=
  ⟨by decide,
    (determineQueryVariableFounded_depth assumptionRefusingCollaborators
      sampleDebugCollaborators freshDebugger 0 2 [⟨1, false⟩, ⟨3, false⟩] queryStart
      [⟨1, false⟩, ⟨2, false⟩] 3 (by decide) (by decide)).1,
    ((determineQueryVariableFounded_depth assumptionRefusingCollaborators
      sampleDebugCollaborators freshDebugger 0 2 [] queryStart
      [⟨1, false⟩, ⟨2, false⟩] 3 (by decide) (by decide)).2 ⟨3, false⟩ [] (by decide)).trans
      (if_neg (by decide))⟩

end DebugInterface

namespace OutputPager

/-! ## Pages of an output (C39) -/

/-- The loop of `paginate` when every answer is `y`: from a counter within the page size, all
the lines are written, in order, and the question is put once every `pageSize` lines. -/
theorem paginateLoop_yes (pageSize : Nat) (user : Nat → String) (hpage : 1 ≤ pageSize)
    (hyes : ∀ k : Nat, user k = "y") :
    ∀ (lines : List (List Char)) (st : PagerState), st.printOutput = true →
      st.counter ≤ pageSize →
      ∃ new : List PagerOutput,
        (paginateLoop pageSize user lines st).written = st.written ++ new ∧
        linesWritten new = lines ∧
        new.count PagerOutput.prompt = (lines.length + st.counter - 1) / pageSize ∧
        (paginateLoop pageSize user lines st).answersRead =
          st.answersRead + (lines.length + st.counter - 1) / pageSize := by
  intro lines
  induction lines with
  | nil =>
    intro st _ hc
    have h0 : ([] : List (List Char)).length + st.counter - 1 < pageSize := by
      simp only [List.length_nil]
      omega
    refine ⟨[], by simp [paginateLoop], rfl, ?_, ?_⟩
    · rw [Nat.div_eq_of_lt h0]
      rfl
    · rw [Nat.div_eq_of_lt h0]
      rfl
  | cons line rest ih =>
    intro st hp hc
    obtain ⟨printOutput, counter, answersRead, written⟩ := st
    simp only at hp hc
    subst hp
    unfold paginateLoop
    simp only [Bool.not_true, Bool.false_eq_true, if_false]
    by_cases hlt : counter < pageSize
    · rw [if_pos hlt]
      obtain ⟨new, hw, hl, hq, ha⟩ := ih
        ⟨true, counter + 1, answersRead, written ++ [PagerOutput.line line]⟩ rfl
        (by show counter + 1 ≤ pageSize; omega)
      simp only at hw hq ha
      have hidx : rest.length + (counter + 1) - 1 = (line :: rest).length + counter - 1 := by
        simp only [List.length_cons]
        omega
      rw [hidx] at hq ha
      refine ⟨PagerOutput.line line :: new, ?_, ?_, ?_, ?_⟩
      · rw [hw]
        simp
      · simp only [linesWritten, List.filterMap_cons] at hl ⊢
        rw [hl]
      · rw [List.count_cons_of_ne (by simp), hq]
      · rw [ha]
    · rw [if_neg hlt]
      have hceq : counter = pageSize := by omega
      simp only [hyes, if_true]
      obtain ⟨new, hw, hl, hq, ha⟩ := ih
        ⟨true, 1, answersRead + 1, written ++ [PagerOutput.prompt] ++ [PagerOutput.line line]⟩
        rfl hpage
      simp only at hw hq ha
      have hidx : ((line :: rest).length + counter - 1) / pageSize =
          (rest.length + 1 - 1) / pageSize + 1 := by
        simp only [List.length_cons]
        rw [hceq]
        have h1 : rest.length + 1 + pageSize - 1 = rest.length + 1 - 1 + pageSize := by omega
        rw [h1, Nat.add_div_right _ (by omega)]
      refine ⟨PagerOutput.prompt :: PagerOutput.line line :: new, ?_, ?_, ?_, ?_⟩
      · rw [hw]
        simp
      · simp only [linesWritten, List.filterMap_cons] at hl ⊢
        rw [hl]
      · rw [List.count_cons_self, List.count_cons_of_ne (by simp), hq, hidx]
      · rw [ha, hidx]
        show answersRead + 1 + (rest.length + 1 - 1) / pageSize = _
        omega

/-- C39: for an output of `n` lines and a page size `p` of at least 1, if the user answers
`y` to every question, `paginate` writes all the `n` lines, each once and in their original
order, and puts the question `(n - 1) / p` times (rounded down) when `n` is at least 1, reading
as many answers; it never puts it when `n` is at most `p`. -/
theorem paginate_all_lines (pageSize : Nat) (user : Nat → String) (output : String)
    (hpage : 1 ≤ pageSize) (hyes : ∀ k : Nat, user k = "y") :
    linesWritten (paginate pageSize user output).written = getlines output.data ∧
    (paginate pageSize user output).written.count PagerOutput.prompt =
      ((getlines output.data).length - 1) / pageSize ∧
    (paginate pageSize user output).answersRead =
      ((getlines output.data).length - 1) / pageSize ∧
    ((getlines output.data).length ≤ pageSize →
      (paginate pageSize user output).written.count PagerOutput.prompt = 0 ∧
      (paginate pageSize user output).written =
        (getlines output.data).map PagerOutput.line) := by
  obtain ⟨new, hw, hl, hq, ha⟩ := paginateLoop_yes pageSize user hpage hyes
    (getlines output.data) ⟨true, 0, 0, []⟩ rfl (Nat.zero_le _)
  simp only [List.nil_append, Nat.add_zero, Nat.zero_add] at hw hq ha
  have hwritten : (paginate pageSize user output).written = new := hw
  refine ⟨by rw [hwritten]; exact hl, by rw [hwritten]; exact hq, ha, ?_⟩
  intro hle
  have hzero : new.count PagerOutput.prompt = 0 := by
    rw [hq]
    exact Nat.div_eq_of_lt (by omega)
  refine ⟨by rw [hwritten]; exact hzero, ?_⟩
  rw [hwritten, ← hl]
  have hall : ∀ o ∈ new, o ≠ PagerOutput.prompt := by
    intro o ho heq
    rw [List.count_eq_zero] at hzero
    exact hzero (heq ▸ ho)
  clear hw hl hq hzero hwritten
  induction new with
  | nil => rfl
  | cons o new ih =>
    have ho := hall o (List.mem_cons_self _ _)
    have hrest := ih (fun o' ho' => hall o' (List.mem_cons_of_mem _ ho'))
    cases o with
    | line text =>
      simp only [linesWritten, List.filterMap_cons, List.map_cons] at hrest ⊢
      rw [← hrest]
    | prompt => exact absurd rfl ho

/-- Witness for C39: five lines with a page size of 2 are written with two questions, before
the third and before the fifth line; two lines with a page size of 2 are written without any
question. -/
theorem paginate_all_lines_witness :
    (paginate 2 (fun _ => "y") "a\nb\nc\nd\ne\n").written =
      [PagerOutput.line ['a'], PagerOutput.line ['b'], PagerOutput.prompt,
        PagerOutput.line ['c'], PagerOutput.line ['d'], PagerOutput.prompt,
        PagerOutput.line ['e']] ∧
    (paginate 2 (fun _ => "y") "a\nb\nc\nd\ne\n").written.count PagerOutput.prompt = 2 ∧
    (paginate 2 (fun _ => "y") "a\nb").written.count PagerOutput.prompt = 0 :=
  ⟨by decide,
    (paginate_all_lines 2 (fun _ => "y") "a\nb\nc\nd\ne\n" (by decide)
      (fun _ => rfl)).2.1.trans (by decide),
    ((paginate_all_lines 2 (fun _ => "y") "a\nb" (by decide) (fun _ => rfl)).2.2.2
      (by decide)).1⟩

end OutputPager

namespace Solver

end Solver

end Wasp
